import Mathlib

/-!
# The configuration overlay engine of fissile (`config-store`)

A shallow embedding of `src/config-store/config_writer_json_provider.go`, and
of `MakeValues` of `src/helm/values.go`.

Go values of type `interface{}` are embedded as the closed type `Value`.
Go maps are embedded as association lists: `Config` stands for
`map[string]interface{}` and `YamlMap` for `map[interface{}]interface{}`.
Reading a key returns the first entry with that key, writing replaces that
entry in place (or appends a new one), deleting removes every entry with
the key.  A Go map holds a key at most once; the lemmas below do not need
that unless they say so.

A Go function that works on its map argument in place is embedded as a
function that returns the contents of that map after the call (`Run`).
Nested maps are taken to be unshared, so writing through a child map is
writing the updated child back into its parent.  A run-time panic is the
outcome `panicked`, with its cause: a failed type assertion, or a slice bound
out of range.
-/

namespace Fissile

/-- A dynamic Go value (`interface{}`): `null` is the nil interface, `smap` a
`map[string]interface{}`, `imap` a `map[interface{}]interface{}` as produced
by the YAML decoder for opinions, `seq` a slice. -/
inductive Value where
  | null
  | str (s : String)
  | num (n : Int)
  | bool (b : Bool)
  | seq (xs : List Value)
  | smap (m : List (String × Value))
  | imap (m : List (Value × Value))

/-- A property tree, `map[string]interface{}`. -/
abbrev Config := List (String × Value)

/-- An opinion tree, `map[interface{}]interface{}`. -/
abbrev YamlMap := List (Value × Value)

/-- Go `m[k]` in its two-result form: the value stored under `k`, if any. -/
def mapGet (m : Config) (k : String) : Option Value :=
  match m with
  | [] => none
  | (k1, v) :: rest => if k1 = k then some v else mapGet rest k

/-- Go `m[k] = v`. -/
def mapSet (m : Config) (k : String) (v : Value) : Config :=
  match m with
  | [] => [(k, v)]
  | (k1, v1) :: rest => if k1 = k then (k, v) :: rest else (k1, v1) :: mapSet rest k v

/-- Go `delete(m, k)`. -/
def mapDelete (m : Config) (k : String) : Config :=
  m.filter (fun e => e.1 ≠ k)

/-- Go error values returned by the engine.  `configNotExist` is the type
`errConfigNotExist` of the source; the two others are the errors of the
key resolver and of the mutator. -/
inductive GoError where
  | configNotExist (msg : String)
  | malformedKey (msg : String)
  | pathConflict (msg : String)
  | other (msg : String)

/-- Source: `newErrorConfigNotExist`. -/
def newErrorConfigNotExist (key : String) : GoError :=
  .configNotExist ("The configuration key " ++ key ++ " does not exist")

/-- The causes of a run-time panic in the code at hand: a slice expression or
an index outside the slice (`keyPieces[:len(keyPieces)-1]`), and a failed type
assertion `x.(T)` in its one-result form. -/
inductive Panic where
  | outOfRange
  | typeAssertion

/-- Outcome of a call that works on a map in place: the contents of the map
when the call returns together with the returned `error` (`none` is `nil`),
or a panic with its cause. -/
inductive Run where
  | returned (config : Config) (err : Option GoError)
  | panicked (cause : Panic)

/-- Source: `configMapDifference`.  The entries of `difference` are visited in
list order; `none` is the panic of a failed type assertion (`key.(string)` on a
key that is not a string,
or `config[key].(map[string]interface{})` on an entry that is absent or not
such a map). -/
def configMapDifference (config : Config) (difference : YamlMap) : Option Config :=
  match difference with
  | [] => some config
  | (key, .imap mapValue) :: rest =>
    match key with
    | .str k =>
      match mapGet config k with
      | some (.smap child) =>
        match configMapDifference child mapValue with
        | some child1 => configMapDifference (mapSet config k (.smap child1)) rest
        | none => none
      | _ => none
    | _ => none
  | (key, _) :: rest =>
    match key with
    | .str k => configMapDifference (mapDelete config k) rest
    | _ => none

/-- The body of `deleteConfig` once `keyPieces` is known to be non-empty: the
loop over `keyPieces[:len(keyPieces)-1]` followed by the treatment of the
last key.  `joined` is `strings.Join(keyPieces, ".")` of the whole path. -/
def deleteConfigWalk (joined : String) (value : Value) (config : Config) :
    List String → Run
  | [] => .panicked .outOfRange
  | [lastKey] =>
    match value with
    | .imap valueMap =>
      match mapGet config lastKey with
      | some (.smap target) =>
        match configMapDifference target valueMap with
        | some target1 => .returned (mapSet config lastKey (.smap target1)) none
        | none => .panicked .typeAssertion
      | _ => .panicked .typeAssertion
    | _ => .returned (mapDelete config lastKey) none
  | key :: rest =>
    match mapGet config key with
    | some (.smap child) =>
      match deleteConfigWalk joined value child rest with
      | .returned child1 err => .returned (mapSet config key (.smap child1)) err
      | .panicked cause => .panicked cause
    | _ => .returned config (some (newErrorConfigNotExist joined))

/-- Source: `deleteConfig`.  On an empty `keyPieces` the slice expression
`keyPieces[:len(keyPieces)-1]` is out of range and panics. -/
def deleteConfig (config : Config) (keyPieces : List String) (value : Value) : Run :=
  match keyPieces with
  | [] => .panicked .outOfRange
  | _ :: _ => deleteConfigWalk (String.intercalate "." keyPieces) value config keyPieces

/-- The value found by following `path` from `v` through nested
`map[string]interface{}` maps; the empty path is `v` itself. -/
def Value.follow : Value → List String → Option Value
  | v, [] => some v
  | .smap m, k :: rest =>
    match mapGet m k with
    | some v => Value.follow v rest
    | none => none
  | _, _ :: _ => none

/-- The entry of the tree `config` at the key path `path`. -/
def getPath (config : Config) (path : List String) : Option Value :=
  (Value.smap config).follow path

/-- The opinion map `d` has an entry under the string key `k`. -/
def Mentions (d : YamlMap) (k : String) : Prop :=
  ∃ v, (Value.str k, v) ∈ d

/-- The entries of `d` lie under pairwise different keys, as in every Go map. -/
def DistinctKeys (d : YamlMap) : Prop :=
  (d.map Prod.fst).Nodup

/-- The shape condition under which the partial subtraction of `d` from the
tree `t` is defined at every level: the keys of `d` are strings, pairwise
different, and wherever `d` holds a nested tree, `t` holds a nested tree
under the same key, for which the same is true. -/
inductive Subtractable : Config → YamlMap → Prop where
  | intro (t : Config) (d : YamlMap)
      (keys : ∀ key value, (key, value) ∈ d → ∃ k, key = Value.str k)
      (distinct : DistinctKeys d)
      (has : ∀ k d1, (Value.str k, Value.imap d1) ∈ d → ∃ t1, mapGet t k = some (.smap t1))
      (sub : ∀ k d1 t1, (Value.str k, Value.imap d1) ∈ d → mapGet t k = some (.smap t1) →
        Subtractable t1 d1) :
      Subtractable t d

/-- The recursive difference of the specification, as a relation: `r` is
`diff(t, d)` when every key that `d` does not mention is in `r` as it is in
`t`, every key under which `d` holds something that is not a nested tree is
absent from `r`, and every key under which `d` holds a nested tree `d1` leads
in `t` to a tree `t1` and in `r` to `diff(t1, d1)`. -/
inductive IsDiff : Config → YamlMap → Config → Prop where
  | intro (t : Config) (d : YamlMap) (r : Config)
      (keep : ∀ k, ¬ Mentions d k → mapGet r k = mapGet t k)
      (drop : ∀ k v, (Value.str k, v) ∈ d → (∀ m, v ≠ Value.imap m) → mapGet r k = none)
      (shape : ∀ k d1, (Value.str k, Value.imap d1) ∈ d →
        ∃ t1 r1, mapGet t k = some (.smap t1) ∧ mapGet r k = some (.smap r1))
      (descend : ∀ k d1 t1 r1, (Value.str k, Value.imap d1) ∈ d →
        mapGet t k = some (.smap t1) → mapGet r k = some (.smap r1) → IsDiff t1 d1 r1) :
      IsDiff t d r

/-- Following the string keys `q` from the opinion map `d` through nested
trees leads to the opinion map `d2`. -/
inductive Reaches : YamlMap → List String → YamlMap → Prop where
  | here (d : YamlMap) : Reaches d [] d
  | step (d : YamlMap) (k : String) (d1 : YamlMap) (q : List String) (d2 : YamlMap)
      (mem : (Value.str k, Value.imap d1) ∈ d) (tail : Reaches d1 q d2) :
      Reaches d (k :: q) d2

/-- The keys are pairwise different in `d` and in every nested tree of `d`. -/
inductive DistinctKeysDeep : YamlMap → Prop where
  | intro (d : YamlMap) (distinct : DistinctKeys d)
      (sub : ∀ key d1, (key, Value.imap d1) ∈ d → DistinctKeysDeep d1) :
      DistinctKeysDeep d

/-! ### The assembler `getPropertiesForJob`

`getPropertiesForJob` calls four functions of the repository whose source is
not at hand: `deepCopy`, `insertConfig`, `getKeyGrams` and
`opinions.GetOpinionForKey`.  They are parameters of the embedding
(`Helpers`); `specHelpers` gives them the behaviour that the specification
describes. -/

/-- `model.JobProperty`, the fields that the assembler reads. -/
structure JobProperty where
  Name : String
  Default : Value

/-- `model.ReleaseConfig`, the field that the assembler reads. -/
structure ReleaseConfig where
  Name : String

/-- `model.Job`, what the source reads of it: `job.Properties`, the sequence
`job.Release.GetUniqueConfigs()` in the order of the `range` loop, and
`job.Name`. -/
structure Job where
  Properties : List JobProperty
  UniqueConfigs : List ReleaseConfig
  Name : String := ""

/-- The receiver `opinions` with its two layers. -/
structure Opinions where
  Light : YamlMap
  Dark : YamlMap

/-- The functions called by `getPropertiesForJob` that are not part of the
source at hand, with their Go signatures: `deepCopy` and `getKeyGrams` return
a value or an error, `insertConfig` works on the map in place and returns an
error, `GetOpinionForKey` returns an `interface{}` (`Value.null` is `nil`). -/
structure Helpers where
  deepCopy : Config → Except GoError Config
  insertConfig : Config → String → Value → Run
  getKeyGrams : String → Except GoError (List String)
  GetOpinionForKey : YamlMap → List String → Value

/-- What `getPropertiesForJob` hands back: the two results of the Go function
(`none` is `nil`), or a panic with its cause. -/
inductive Outcome where
  | returned (props : Option Config) (err : Option GoError)
  | panicked (cause : Panic)

/-- Source: the loop `for _, property := range job.Properties` of
`getPropertiesForJob`, which leaves at the first error. -/
def insertProperties (h : Helpers) : Config → List JobProperty → Run
  | props, [] => .returned props none
  | props, property :: rest =>
    match h.insertConfig props property.Name property.Default with
    | .returned props1 none => insertProperties h props1 rest
    | .returned props1 (some err) => .returned props1 (some err)
    | .panicked cause => .panicked cause

/-- Source: the light half of the loop body, `value != nil` guarding
`insertConfig(props, uniqueConfig.Name, value)`. -/
def addLightOpinion (h : Helpers) (opinions : Opinions) (props : Config)
    (uniqueConfig : ReleaseConfig) (keyPieces : List String) : Run :=
  match h.GetOpinionForKey opinions.Light keyPieces with
  | .null => .returned props none
  | value => h.insertConfig props uniqueConfig.Name value

/-- Source: the dark half of the loop body, `value != nil` guarding
`deleteConfig(props, keyPieces, value)`. -/
def subtractDarkOpinion (h : Helpers) (opinions : Opinions) (props : Config)
    (keyPieces : List String) : Run :=
  match h.GetOpinionForKey opinions.Dark keyPieces with
  | .null => .returned props none
  | value => deleteConfig props keyPieces value

/-- Source: the body of the loop over `job.Release.GetUniqueConfigs()`: resolve
the key, add the light opinion, then subtract the dark opinion; the first
error ends the body. -/
def applyOpinion (h : Helpers) (opinions : Opinions) (props : Config)
    (uniqueConfig : ReleaseConfig) : Run :=
  match h.getKeyGrams uniqueConfig.Name with
  | .error err => .returned props (some err)
  | .ok keyPieces =>
    match addLightOpinion h opinions props uniqueConfig keyPieces with
    | .returned props1 none => subtractDarkOpinion h opinions props1 keyPieces
    | .returned props1 (some err) => .returned props1 (some err)
    | .panicked cause => .panicked cause

/-- Source: the loop over `job.Release.GetUniqueConfigs()`, which leaves at the
first error. -/
def applyOpinions (h : Helpers) (opinions : Opinions) : Config → List ReleaseConfig → Run
  | props, [] => .returned props none
  | props, uniqueConfig :: rest =>
    match applyOpinion h opinions props uniqueConfig with
    | .returned props1 none => applyOpinions h opinions props1 rest
    | .returned props1 (some err) => .returned props1 (some err)
    | .panicked cause => .panicked cause

/-- Source: `getPropertiesForJob`.  Every `return nil, err` gives no tree. -/
def getPropertiesForJob (h : Helpers) (job : Job) (allProps : Config) (opinions : Opinions) :
    Outcome :=
  match h.deepCopy allProps with
  | .error err => .returned none (some err)
  | .ok props =>
    match insertProperties h props job.Properties with
    | .panicked cause => .panicked cause
    | .returned _ (some err) => .returned none (some err)
    | .returned props1 none =>
      match applyOpinions h opinions props1 job.UniqueConfigs with
      | .panicked cause => .panicked cause
      | .returned _ (some err) => .returned none (some err)
      | .returned props2 none => .returned (some props2) none

/-- The segments of a dotted key: the pieces between the delimiters `.`. -/
def splitDots : List Char → List (List Char)
  | [] => [[]]
  | c :: cs =>
    if c = '.' then [] :: splitDots cs
    else
      match splitDots cs with
      | seg :: segs => (c :: seg) :: segs
      | [] => [[c]]

/-- Modelled from the spec: `getKeyGrams`, the key path resolver of §4.1, whose
source is missing.  It splits on `.` and fails with the malformed-key error
when the key is empty or yields an empty segment. -/
def specGetKeyGrams (key : String) : Except GoError (List String) :=
  if key = "" ∨ "" ∈ (splitDots key.toList).map String.mk then
    .error (.malformedKey key)
  else
    .ok ((splitDots key.toList).map String.mk)

/-- Modelled from the spec: the walk of `insertConfig` (§4.3) along a resolved
path.  A missing intermediate entry becomes an empty nested tree, an
intermediate entry that is not a tree is a conflict, the last segment is
overwritten with `value`. -/
def specInsertWalk (joined : String) (value : Value) (config : Config) : List String → Run
  | [] => .returned config none
  | [lastKey] => .returned (mapSet config lastKey value) none
  | key :: rest =>
    match mapGet config key with
    | none =>
      match specInsertWalk joined value [] rest with
      | .returned child1 err => .returned (mapSet config key (.smap child1)) err
      | .panicked cause => .panicked cause
    | some (.smap child) =>
      match specInsertWalk joined value child rest with
      | .returned child1 err => .returned (mapSet config key (.smap child1)) err
      | .panicked cause => .panicked cause
    | some _ => .returned config (some (.pathConflict joined))

/-- Modelled from the spec: `insertConfig`, the tree mutator of §4.3 applied to
`resolve(name)` as in §4.6, whose source is missing. -/
def specInsertConfig (config : Config) (name : String) (value : Value) : Run :=
  match specGetKeyGrams name with
  | .error err => .returned config (some err)
  | .ok keyPieces => specInsertWalk name value config keyPieces

/-- Go `m[k]` on an opinion map, for a string key `k`. -/
def yamlGet (m : YamlMap) (k : String) : Option Value :=
  match m with
  | [] => none
  | (.str k1, v) :: rest => if k1 = k then some v else yamlGet rest k
  | _ :: rest => yamlGet rest k

/-- Modelled from the spec: `opinions.GetOpinionForKey`, the lookup of §4.5,
whose source is missing.  It walks the layer by the path and is absent
(`Value.null`) the moment a segment is missing. -/
def specGetOpinionForKey (layer : YamlMap) : List String → Value
  | [] => .null
  | [k] =>
    match yamlGet layer k with
    | some v => v
    | none => .null
  | k :: rest =>
    match yamlGet layer k with
    | some (.imap child) => specGetOpinionForKey child rest
    | _ => .null

/-- Modelled from the spec: `deepCopy`, the tree cloner of §4.2, whose source
is missing: the lossless structural copy, which for values is the tree
itself. -/
def specDeepCopy (tree : Config) : Except GoError Config :=
  .ok tree

/-- The helpers as the specification describes them. -/
def specHelpers : Helpers where
  deepCopy := specDeepCopy
  insertConfig := specInsertConfig
  getKeyGrams := specGetKeyGrams
  GetOpinionForKey := specGetOpinionForKey

/-- Two key paths diverge: they agree on some segments and then continue with
two different segments, so that neither is a prefix of the other. -/
def diverge : List String → List String → Bool
  | a :: p, b :: q => if a = b then diverge p q else true
  | _, _ => false

/-- What shows of a value at its own key path when trees are compared entry by
entry: a nested tree shows as a nested tree, its entries showing at the longer
key paths; every other value shows as it is. -/
def Value.shape : Value → Value
  | .smap _ => .smap []
  | v => v

/-- Two trees are the same tree: every key path leads to a value in both or in
neither, and then to a nested tree in both, or to one and the same value that
is not a nested tree.  Nested trees are compared by their entries, at every
depth, and not as the sequences that list them. -/
def SameTree (r1 r2 : Config) : Prop :=
  ∀ path, (getPath r1 path).map Value.shape = (getPath r2 path).map Value.shape

/-- Two calls of the assembler have the same result: both return a tree, and
the same tree, or neither returns a tree. -/
def Outcome.SameResult (a b : Outcome) : Prop :=
  (∃ r1 r2, a = .returned (some r1) none ∧ b = .returned (some r2) none ∧ SameTree r1 r2)
    ∨ ((∀ r, a ≠ .returned (some r) none) ∧ (∀ r, b ≠ .returned (some r) none))

/-- The key path `path` leads to a nested tree of `t`. -/
def IsTreeAt (t : Config) (path : List String) : Prop :=
  ∃ m, getPath t path = some (.smap m)

/-- A walk that creates what is missing can pass `path`: there is no entry at
`path`, or the entry is a nested tree. -/
def Passable (t : Config) (path : List String) : Prop :=
  ∀ v, getPath t path = some v → ∃ m, v = .smap m

/-- A walk that creates what is missing can pass every intermediate segment of
`path`. -/
def NoConflict (t : Config) (path : List String) : Prop :=
  ∀ (pre : List String) (x : String) (rest : List String), path = pre ++ x :: rest →
    Passable t pre

/-- No key path of `keys` is a prefix of the key path of another key of
`keys`: the key paths of any two of the keys diverge. -/
def PrefixFree (keys : List ReleaseConfig) : Prop :=
  keys.Pairwise (fun a b => ∀ p q, specGetKeyGrams a.Name = .ok p →
    specGetKeyGrams b.Name = .ok q → diverge p q = true)

/-- No subtraction needs what the insertion for another key creates: wherever
the key path of a key with a dark and no light opinion begins with the same
segments as the key path of a key with a light opinion, these segments lead to
a nested tree of `t`. -/
def DarkIndependent (opinions : Opinions) (t : Config) (keys : List ReleaseConfig) : Prop :=
  ∀ k ∈ keys, ∀ k2 ∈ keys, ∀ p p2, specGetKeyGrams k.Name = .ok p →
    specGetKeyGrams k2.Name = .ok p2 →
    specGetOpinionForKey opinions.Light p = .null →
    specGetOpinionForKey opinions.Dark p ≠ .null →
    specGetOpinionForKey opinions.Light p2 ≠ .null →
    ∀ (pre : List String) (x : String) (rest : List String) (x2 : String)
      (rest2 : List String), p = pre ++ x :: rest → p2 = pre ++ x2 :: rest2 →
      IsTreeAt t pre

/-- The tree `s` is to the keys of `keys` what the tree `t` was: at the key
path of each of them it holds what `t` held, a walk that creates what is
missing meets a conflict in the one exactly when it does in the other, the
parent of the last segment is a nested tree of `s` when it was one of `t`,
and, for a key with a dark and no light opinion, only then. -/
def AsAtStart (opinions : Opinions) (t s : Config) (keys : List ReleaseConfig) : Prop :=
  ∀ k ∈ keys, ∀ p, specGetKeyGrams k.Name = .ok p →
    getPath s p = getPath t p
      ∧ (NoConflict s p ↔ NoConflict t p)
      ∧ (IsTreeAt t p.dropLast → IsTreeAt s p.dropLast)
      ∧ (specGetOpinionForKey opinions.Light p = .null →
        specGetOpinionForKey opinions.Dark p ≠ .null →
        IsTreeAt s p.dropLast → IsTreeAt t p.dropLast)

/-! ### The job document built by `WriteConfigs` -/

/-- `model.Role`, what `WriteConfigs` reads of it. -/
structure Role where
  Name : String
  Jobs : List Job

/-- Source: `initializeConfigJSON`.  The literal is valid JSON, so
`json.Unmarshal` fills the map and returns no error: objects decode to
`map[string]interface{}`, the empty array to an empty slice. -/
def initializeConfigJSON : Option Config × Option GoError :=
  (some [("job", .smap [("templates", .seq [])]),
      ("parameters", .smap []),
      ("properties", .smap []),
      ("networks", .smap [("default", .smap [])])],
    none)

/-- Go `config["job"].(map[string]interface{})[field] = v`; `none` is the panic
of the type assertion when `config["job"]` is not such a map. -/
def setJobField (config : Config) (field : String) (v : Value) : Option Config :=
  match mapGet config "job" with
  | some (.smap job) => some (mapSet config "job" (.smap (mapSet job field v)))
  | _ => none

/-- The `map[string]interface{}` returned by `getPropertiesForJob`, as the
value assigned to `config["properties"]`. -/
def propertiesValue : Option Config → Value
  | some props => .smap props
  | none => .null

/-- Source: the body of the loop over `role.Jobs` in `WriteConfigs`, from
`initializeConfigJSON()` to `config["properties"] = properties`: the
configuration that is then marshalled and written for the job.  The error of
`initializeConfigJSON` is looked at only after `config` has been used. -/
def buildJobConfig (h : Helpers) (allProps : Config) (opinions : Opinions) (role : Role)
    (job : Job) : Outcome :=
  match initializeConfigJSON with
  | (none, _) => .panicked .typeAssertion
  | (some config, err) =>
    match setJobField config "name" (.str role.Name) with
    | none => .panicked .typeAssertion
    | some config1 =>
      match setJobField config1 "templates"
          (.seq (role.Jobs.map (fun roleJob => Value.smap [("name", .str roleJob.Name)]))) with
      | none => .panicked .typeAssertion
      | some config2 =>
        match err with
        | some e => .returned none (some e)
        | none =>
          match getPropertiesForJob h job allProps opinions with
          | .panicked cause => .panicked cause
          | .returned _ (some e) => .returned none (some e)
          | .returned properties none =>
            .returned (some (mapSet config2 "properties" (propertiesValue properties))) none

/-! ### The chart values of `helm.MakeValues`

`src/helm/values.go` uses the package `model` and the configuration types of
the package `helm`, whose sources are not at hand.  They are parameters of
the embedding (`HelmDeps`). -/

/-- `model.ConfigurationVariableGenerator`, the field `Type` that `MakeValues`
reads (here `Kind`). -/
structure VariableGenerator where
  Kind : String

/-- `model.ConfigurationVariable`, the fields that `MakeValues` reads, and
its name; `Generator` is a pointer, `none` is `nil`. -/
structure ConfigurationVariable where
  Name : String
  Secret : Bool
  Generator : Option VariableGenerator
  Description : String

/-- What `MakeValues` uses and is not part of the source at hand, for a type
`Manifest` of role manifests, a type `Obj` of `ConfigObject`s and a type `Node`
of the values that can be added to one: `model.MakeMapOfVariables` (the map
as the sequence of its entries in the order of the `range` loop), the
constant `model.GeneratorTypePassword`, the method `Value` of a variable, the
empty `ConfigObject{}`, the method `Add`, the two constructors of scalars,
and the use of `&object` as a value. -/
structure HelmDeps (Manifest Obj Node : Type) where
  MakeMapOfVariables : Manifest → List (String × ConfigurationVariable)
  GeneratorTypePassword : String
  Value : ConfigurationVariable → List (String × String) → Bool × String
  emptyObject : Obj
  Add : Obj → String → Node → Obj
  NewConfigScalar : String → Node
  NewConfigScalarWithComment : String → String → Node
  objectNode : Obj → Node

/-- Source: the condition of the `if` in the loop of `MakeValues`,
`!cv.Secret || cv.Generator == nil || cv.Generator.Type != model.GeneratorTypePassword`. -/
def includedInEnv (password : String) (cv : ConfigurationVariable) : Bool :=
  !cv.Secret
    || (match cv.Generator with
        | none => true
        | some _ => false)
    || (match cv.Generator with
        | none => false
        | some g => g.Kind != password)

/-- Source: the body of the `if` in the loop of `MakeValues`: the scalar added
for the variable, its value or `"~"`. -/
def envScalar {Manifest Obj Node : Type} (deps : HelmDeps Manifest Obj Node)
    (defaults : List (String × String)) (cv : ConfigurationVariable) : Node :=
  match deps.Value cv defaults with
  | (true, value) => deps.NewConfigScalarWithComment value cv.Description
  | (false, _) => deps.NewConfigScalarWithComment "~" cv.Description

/-- Source: the loop of `MakeValues` over the variables. -/
def makeEnv {Manifest Obj Node : Type} (deps : HelmDeps Manifest Obj Node)
    (defaults : List (String × String)) :
    Obj → List (String × ConfigurationVariable) → Obj
  | env, [] => env
  | env, (name, cv) :: rest =>
    if includedInEnv deps.GeneratorTypePassword cv then
      makeEnv deps defaults (deps.Add env name (envScalar deps defaults cv)) rest
    else
      makeEnv deps defaults env rest

/-- Source: `MakeValues`; the two results of the Go function. -/
def MakeValues {Manifest Obj Node : Type} (deps : HelmDeps Manifest Obj Node)
    (rolesManifest : Manifest) (defaults : List (String × String)) :
    Obj × Option GoError :=
  let env := makeEnv deps defaults deps.emptyObject (deps.MakeMapOfVariables rolesManifest)
  let sc := deps.Add (deps.Add deps.emptyObject "persistent" (deps.NewConfigScalar "persistent"))
    "shared" (deps.NewConfigScalar "shared")
  let kube := deps.Add
    (deps.Add deps.emptyObject "external_ip" (deps.NewConfigScalar "192.168.77.77"))
    "storage_class" (deps.objectNode sc)
  let values := deps.Add (deps.Add deps.emptyObject "env" (deps.objectNode env))
    "kube" (deps.objectNode kube)
  (values, none)

/-- A variable is a generated password: it is secret and has a generator whose
type is the password type. -/
def isGeneratedPassword (password : String) (cv : ConfigurationVariable) : Prop :=
  cv.Secret = true ∧ ∃ g, cv.Generator = some g ∧ g.Kind = password

/-- The laws of a string-keyed object with the observation `get`: the empty
object has no entry, `Add` puts the value under the name and leaves the
other names alone. -/
structure ObjectLaws {Manifest Obj Node : Type} (deps : HelmDeps Manifest Obj Node)
    (get : Obj → String → Option Node) : Prop where
  get_empty : ∀ name, get deps.emptyObject name = none
  get_add_self : ∀ obj name v, get (deps.Add obj name v) name = some v
  get_add_other : ∀ obj name v other, other ≠ name → get (deps.Add obj name v) other = get obj other

/-- A `ConfigObject` as the sequence of its entries, for the examples. -/
inductive ConfigNode where
  | scalar (value : String) (comment : String)
  | object (entries : List (String × ConfigNode))

/-- Reading an entry of a `ConfigObject` given as a sequence of entries. -/
def objectGet (obj : List (String × ConfigNode)) (name : String) : Option ConfigNode :=
  match obj with
  | [] => none
  | (n, v) :: rest => if n = name then some v else objectGet rest name

/-- Adding an entry to a `ConfigObject` given as a sequence of entries. -/
def objectAdd (obj : List (String × ConfigNode)) (name : String) (v : ConfigNode) :
    List (String × ConfigNode) :=
  match obj with
  | [] => [(name, v)]
  | (n, v1) :: rest => if n = name then (name, v) :: rest else (n, v1) :: objectAdd rest name v

/-- An instance of the missing parts for the examples: the manifest is the
sequence of its variables, a variable has the value found under its name
in the defaults, a `ConfigObject` is the sequence of its entries. -/
def exampleDeps : HelmDeps (List (String × ConfigurationVariable)) (List (String × ConfigNode))
    ConfigNode where
  MakeMapOfVariables := fun manifest => manifest
  GeneratorTypePassword := "Password"
  Value := fun cv defaults =>
    match defaults.lookup cv.Name with
    | some v => (true, v)
    | none => (false, "")
  emptyObject := []
  Add := objectAdd
  NewConfigScalar := fun v => .scalar v ""
  NewConfigScalarWithComment := fun v c => .scalar v c
  objectNode := fun obj => .object obj

/-! ## Laws of the map primitives -/

theorem mapGet_mapSet_self (m : Config) (k : String) (v : Value) :
    mapGet (mapSet m k v) k = some v := by
  induction m with
  | nil => simp [mapSet, mapGet]
  | cons e rest ih =>
    obtain ⟨k1, v1⟩ := e
    by_cases h : k1 = k
    · simp [mapSet, mapGet, h]
    · simp [mapSet, mapGet, h, ih]

theorem mapGet_mapSet_ne (m : Config) (k k2 : String) (v : Value) (hne : k2 ≠ k) :
    mapGet (mapSet m k v) k2 = mapGet m k2 := by
  induction m with
  | nil => simp [mapSet, mapGet, Ne.symm hne]
  | cons e rest ih =>
    obtain ⟨k1, v1⟩ := e
    by_cases h : k1 = k
    · subst h
      simp [mapSet, mapGet, Ne.symm hne]
    · by_cases h2 : k1 = k2
      · subst h2
        simp [mapSet, mapGet, h]
      · simp [mapSet, mapGet, h, h2, ih]

theorem mapGet_mapDelete_self (m : Config) (k : String) :
    mapGet (mapDelete m k) k = none := by
  induction m with
  | nil => simp [mapDelete, mapGet]
  | cons e rest ih =>
    obtain ⟨k1, v1⟩ := e
    by_cases h : k1 = k
    · simpa [mapDelete, h] using ih
    · simpa [mapDelete, List.filter_cons, h, mapGet] using ih

theorem mapGet_mapDelete_ne (m : Config) (k k2 : String) (hne : k2 ≠ k) :
    mapGet (mapDelete m k) k2 = mapGet m k2 := by
  induction m with
  | nil => simp [mapDelete, mapGet]
  | cons e rest ih =>
    obtain ⟨k1, v1⟩ := e
    by_cases h : k1 = k
    · subst h
      simpa [mapDelete, mapGet, Ne.symm hne] using ih
    · by_cases h2 : k1 = k2
      · subst h2
        simp [mapDelete, List.filter_cons, h, mapGet]
      · simpa [mapDelete, List.filter_cons, h, mapGet, h2] using ih

theorem mapSet_eq_self (m : Config) (k : String) (v : Value) (h : mapGet m k = some v) :
    mapSet m k v = m := by
  induction m with
  | nil => simp [mapGet] at h
  | cons e rest ih =>
    obtain ⟨k1, v1⟩ := e
    by_cases h1 : k1 = k
    · simp [mapGet, h1] at h
      simp [mapSet, h1, h]
    · simp [mapGet, h1] at h
      simp [mapSet, h1, ih h]

theorem mapDelete_eq_self (m : Config) (k : String) (h : mapGet m k = none) :
    mapDelete m k = m := by
  induction m with
  | nil => simp [mapDelete]
  | cons e rest ih =>
    obtain ⟨k1, v1⟩ := e
    by_cases h1 : k1 = k
    · simp [mapGet, h1] at h
    · simp [mapGet, h1] at h
      have := ih h
      simp only [mapDelete] at this ⊢
      rw [List.filter_cons]
      simp only [ne_eq, h1, not_false_eq_true, decide_True, if_true, this]

/-! ## Following key paths -/

theorem getPath_nil (config : Config) : getPath config [] = some (.smap config) := rfl

theorem follow_smap_cons (m : Config) (k : String) (rest : List String) :
    (Value.smap m).follow (k :: rest) = (mapGet m k).bind (fun v => v.follow rest) := by
  cases h : mapGet m k <;> simp [Value.follow, h]

theorem getPath_cons (config : Config) (k : String) (rest : List String) :
    getPath config (k :: rest) = (mapGet config k).bind (fun v => v.follow rest) :=
  follow_smap_cons config k rest

theorem getPath_single (config : Config) (k : String) :
    getPath config [k] = mapGet config k := by
  rw [getPath_cons]
  cases mapGet config k <;> simp [Value.follow]

theorem follow_cons_isSome_smap (v : Value) (k : String) (rest : List String) (r : Value)
    (h : v.follow (k :: rest) = some r) : ∃ m, v = .smap m := by
  cases v <;> simp [Value.follow] at h
  exact ⟨_, rfl⟩

/-- When a path that leads to a string-keyed map starts at `v`, then `v` is
such a map itself. -/
theorem follow_smap_is_smap (v : Value) (q : List String) (parent : Config)
    (h : v.follow q = some (.smap parent)) : ∃ m, v = .smap m := by
  cases q with
  | nil =>
    simp [Value.follow] at h
    exact ⟨parent, h⟩
  | cons k rest => exact follow_cons_isSome_smap v k rest _ h

/-! ## `deleteConfig`: the walk and the full subtraction -/

theorem deleteConfig_cons (config : Config) (k : String) (rest : List String) (value : Value) :
    deleteConfig config (k :: rest) value
      = deleteConfigWalk (String.intercalate "." (k :: rest)) value config (k :: rest) := rfl

theorem deleteConfigWalk_single_full (joined : String) (value : Value) (config : Config)
    (k : String) (hv : ∀ m, value ≠ .imap m) :
    deleteConfigWalk joined value config [k] = .returned (mapDelete config k) none := by
  cases value <;> simp [deleteConfigWalk] at hv ⊢

theorem deleteConfigWalk_step (joined : String) (value : Value) (config child : Config)
    (k k2 : String) (rest : List String) (h : mapGet config k = some (.smap child)) :
    deleteConfigWalk joined value config (k :: k2 :: rest)
      = match deleteConfigWalk joined value child (k2 :: rest) with
        | .returned child1 err => .returned (mapSet config k (.smap child1)) err
        | .panicked cause => .panicked cause := by
  simp [deleteConfigWalk, h]

theorem deleteConfigWalk_stop (joined : String) (value : Value) (config : Config)
    (k k2 : String) (rest : List String) (h : ∀ child, mapGet config k ≠ some (.smap child)) :
    deleteConfigWalk joined value config (k :: k2 :: rest)
      = .returned config (some (newErrorConfigNotExist joined)) := by
  rw [deleteConfigWalk]
  split
  · next child hc => exact absurd hc (h child)
  · rfl
  · simp

/-- Full subtraction along a resolvable path: the walk returns no error, the
parent of the last segment loses that entry, and nothing changes when the
entry was not there. -/
theorem deleteConfigWalk_full (joined : String) (value : Value) (hv : ∀ m, value ≠ .imap m) :
    ∀ (path : List String) (hne : path ≠ []) (config parent : Config),
      getPath config path.dropLast = some (.smap parent) →
      ∃ config1, deleteConfigWalk joined value config path = .returned config1 none
        ∧ getPath config1 path.dropLast = some (.smap (mapDelete parent (path.getLast hne)))
        ∧ getPath config1 path = none
        ∧ (getPath config path = none → config1 = config) := by
  intro path
  induction path with
  | nil => intro hne; exact absurd rfl hne
  | cons k rest ih =>
    intro hne config parent hparent
    cases rest with
    | nil =>
      simp only [List.dropLast_single, getPath_nil, Option.some.injEq, Value.smap.injEq] at hparent
      subst hparent
      refine ⟨mapDelete config k, deleteConfigWalk_single_full joined value config k hv, ?_, ?_, ?_⟩
      · simp [getPath_nil]
      · rw [getPath_single]; exact mapGet_mapDelete_self config k
      · intro habs
        rw [getPath_single] at habs
        exact mapDelete_eq_self config k habs
    | cons k2 rest2 =>
      have hdl : (k :: k2 :: rest2).dropLast = k :: (k2 :: rest2).dropLast := by
        simp [List.dropLast]
      rw [hdl, getPath_cons] at hparent
      cases hg : mapGet config k with
      | none => simp [hg] at hparent
      | some v =>
        simp only [hg, Option.some_bind] at hparent
        obtain ⟨child, rfl⟩ := follow_smap_is_smap v _ parent hparent
        obtain ⟨child1, hrun, hpar, habsent, hsame⟩ :=
          ih (by simp) child parent hparent
        refine ⟨mapSet config k (.smap child1), ?_, ?_, ?_, ?_⟩
        · rw [deleteConfigWalk_step joined value config child k k2 rest2 hg, hrun]
        · rw [hdl, getPath_cons, mapGet_mapSet_self]
          simpa [List.getLast_cons] using hpar
        · rw [getPath_cons, mapGet_mapSet_self]
          exact habsent
        · intro habs
          rw [getPath_cons, hg] at habs
          rw [hsame habs]
          exact mapSet_eq_self config k _ hg

/-- The walk stops with the key-does-not-exist error, and with the map as it
was, at the first intermediate segment that does not resolve to a
string-keyed map. -/
theorem deleteConfigWalk_missing (joined : String) (value : Value) :
    ∀ (path : List String) (config : Config) (i : Nat), i + 1 < path.length →
      (∀ child, getPath config (path.take (i + 1)) ≠ some (.smap child)) →
      deleteConfigWalk joined value config path
        = .returned config (some (newErrorConfigNotExist joined)) := by
  intro path
  induction path with
  | nil => intro config i hi; simp at hi
  | cons k rest ih =>
    intro config i hi hbad
    cases rest with
    | nil => simp at hi
    | cons k2 rest2 =>
      by_cases hk : ∃ child, mapGet config k = some (.smap child)
      · obtain ⟨child, hc⟩ := hk
        cases i with
        | zero =>
          exfalso
          apply hbad child
          simp [getPath_single, hc]
        | succ j =>
          have hj : j + 1 < (k2 :: rest2).length := by simpa using hi
          have hbad2 : ∀ c, getPath child ((k2 :: rest2).take (j + 1)) ≠ some (.smap c) := by
            intro c hcontra
            apply hbad c
            rw [List.take_succ_cons, getPath_cons, hc]
            exact hcontra
          rw [deleteConfigWalk_step joined value config child k k2 rest2 hc,
            ih child j hj hbad2]
          simp [mapSet_eq_self config k _ hc]
      · apply deleteConfigWalk_stop
        intro child hc
        exact hk ⟨child, hc⟩

/-- Whenever the walk returns an error, the error is the key-does-not-exist
error and the map is as it was. -/
theorem deleteConfigWalk_error (joined : String) (value : Value) :
    ∀ (path : List String) (config config1 : Config) (e : GoError),
      deleteConfigWalk joined value config path = .returned config1 (some e) →
      config1 = config ∧ e = newErrorConfigNotExist joined := by
  intro path
  induction path with
  | nil => intro config config1 e h; simp [deleteConfigWalk] at h
  | cons k rest ih =>
    intro config config1 e h
    cases rest with
    | nil =>
      exfalso
      cases value with
      | imap valueMap =>
        simp only [deleteConfigWalk] at h
        split at h
        · split at h <;> simp at h
        · simp at h
      | _ => simp [deleteConfigWalk] at h
    | cons k2 rest2 =>
      by_cases hk : ∃ child, mapGet config k = some (.smap child)
      · obtain ⟨child, hc⟩ := hk
        rw [deleteConfigWalk_step joined value config child k k2 rest2 hc] at h
        cases hrun : deleteConfigWalk joined value child (k2 :: rest2) with
        | panicked => simp [hrun] at h
        | returned child1 err =>
          simp only [hrun, Run.returned.injEq] at h
          obtain ⟨h1, h2⟩ := h
          subst h2
          obtain ⟨hsame, he⟩ := ih child child1 e hrun
          subst hsame
          exact ⟨by rw [← h1]; exact mapSet_eq_self config k _ hc, he⟩
      · rw [deleteConfigWalk_stop joined value config k k2 rest2
          (fun child hc => hk ⟨child, hc⟩)] at h
        simp only [Run.returned.injEq, Option.some.injEq] at h
        exact ⟨h.1.symm, h.2.symm⟩

/-- The walk leaves the siblings of every segment of the path as they were. -/
theorem deleteConfigWalk_frame (joined : String) (value : Value) :
    ∀ (path : List String) (config config1 : Config) (err : Option GoError),
      deleteConfigWalk joined value config path = .returned config1 err →
      ∀ (pre : List String) (x : String) (rest : List String) (s : String),
        path = pre ++ x :: rest → s ≠ x →
        getPath config1 (pre ++ [s]) = getPath config (pre ++ [s]) := by
  intro path
  induction path with
  | nil => intro config config1 err h; simp [deleteConfigWalk] at h
  | cons k tail ih =>
    intro config config1 err h pre x rest s hsplit hs
    cases tail with
    | nil =>
      have hpre : pre = [] ∧ x = k := by
        cases pre with
        | nil => simp at hsplit; exact ⟨rfl, hsplit.1.symm⟩
        | cons p pre2 =>
          simp at hsplit
      obtain ⟨rfl, rfl⟩ := hpre
      simp only [List.nil_append, getPath_single]
      cases value with
      | imap d =>
        simp only [deleteConfigWalk] at h
        split at h
        · split at h
          · simp only [Run.returned.injEq] at h
            rw [← h.1]
            exact mapGet_mapSet_ne config x s _ hs
          · simp at h
        · simp at h
      | _ =>
        simp only [deleteConfigWalk, Run.returned.injEq] at h
        rw [← h.1]
        exact mapGet_mapDelete_ne config x s hs
    | cons k2 rest2 =>
      by_cases hk : ∃ child, mapGet config k = some (.smap child)
      · obtain ⟨child, hc⟩ := hk
        rw [deleteConfigWalk_step joined _ config child k k2 rest2 hc] at h
        cases hrun : deleteConfigWalk joined value child (k2 :: rest2) with
        | panicked => simp [hrun] at h
        | returned child1 err1 =>
          simp only [hrun, Run.returned.injEq] at h
          obtain ⟨h1, _⟩ := h
          subst h1
          cases pre with
          | nil =>
            simp only [List.nil_append, List.cons.injEq] at hsplit
            obtain ⟨rfl, _⟩ := hsplit
            simp only [List.nil_append, getPath_single]
            exact mapGet_mapSet_ne config k s _ hs
          | cons p pre2 =>
            simp only [List.cons_append, List.cons.injEq] at hsplit
            obtain ⟨rfl, htail⟩ := hsplit
            rw [List.cons_append, getPath_cons, getPath_cons, mapGet_mapSet_self, hc]
            exact ih child child1 err1 hrun pre2 x rest s htail hs
      · rw [deleteConfigWalk_stop joined _ config k k2 rest2
          (fun child hc => hk ⟨child, hc⟩)] at h
        simp only [Run.returned.injEq] at h
        rw [← h.1]

/-! ## Claims on `deleteConfig` -/

/-- C1 (full subtract).  For every tree, every non-empty key path whose
intermediate segments all resolve to nested trees (so that the path without
its last segment leads to a map `parent`), and every dark value that is not a
nested tree, `deleteConfig` returns no error, and the resulting tree is the
input tree with the entry at the last segment removed from its parent: the
parent of the last segment is the old parent without that entry, the path has
no entry, the siblings of every segment of the path (hence everything off the
path, at every level) have the values they had, and the tree is unchanged
when there was no entry to remove.  Neither the old entry nor the content of
the value is looked at. -/
theorem deleteConfig_full_subtract (config parent : Config) (path : List String) (value : Value)
    (hne : path ≠ []) (hparent : getPath config path.dropLast = some (.smap parent))
    (hv : ∀ m, value ≠ .imap m) :
    ∃ config1, deleteConfig config path value = .returned config1 none
      ∧ getPath config1 path.dropLast = some (.smap (mapDelete parent (path.getLast hne)))
      ∧ getPath config1 path = none
      ∧ (∀ (pre : List String) (x : String) (rest : List String) (s : String),
          path = pre ++ x :: rest → s ≠ x →
          getPath config1 (pre ++ [s]) = getPath config (pre ++ [s]))
      ∧ (getPath config path = none → config1 = config) := by
  cases path with
  | nil => exact absurd rfl hne
  | cons k rest =>
    rw [deleteConfig_cons]
    obtain ⟨config1, hrun, hpar, habsent, hsame⟩ :=
      deleteConfigWalk_full _ value hv (k :: rest) hne config parent hparent
    exact ⟨config1, hrun, hpar, habsent,
      deleteConfigWalk_frame _ value (k :: rest) config config1 none hrun, hsame⟩

/-- C1, witness: subtracting `("a", "ANY_SCALAR")` from `{a:{b:1,c:2}}`
yields `{}`; subtracting `("a.b", "ANY_SCALAR")` from `{z:9,a:{b:1,c:2}}`
yields `{z:9,a:{c:2}}`, and the theorem holds at this input. -/
theorem deleteConfig_full_subtract_witness :
    deleteConfig [("a", .smap [("b", .num 1), ("c", .num 2)])] ["a"] (.str "ANY_SCALAR")
        = .returned [] none
      ∧ deleteConfig [("z", .num 9), ("a", .smap [("b", .num 1), ("c", .num 2)])] ["a", "b"]
          (.str "ANY_SCALAR")
        = .returned [("z", .num 9), ("a", .smap [("c", .num 2)])] none
      ∧ ∃ config1,
        deleteConfig [("z", .num 9), ("a", .smap [("b", .num 1), ("c", .num 2)])] ["a", "b"]
          (.str "ANY_SCALAR") = .returned config1 none
        ∧ getPath config1 (["a", "b"] : List String).dropLast
          = some (.smap (mapDelete [("b", .num 1), ("c", .num 2)]
              ((["a", "b"] : List String).getLast (by simp))))
        ∧ getPath config1 ["a", "b"] = none
        ∧ (∀ (pre : List String) (x : String) (rest : List String) (s : String),
            ["a", "b"] = pre ++ x :: rest → s ≠ x →
            getPath config1 (pre ++ [s])
              = getPath [("z", .num 9), ("a", .smap [("b", .num 1), ("c", .num 2)])]
                (pre ++ [s]))
        ∧ (getPath [("z", .num 9), ("a", .smap [("b", .num 1), ("c", .num 2)])] ["a", "b"]
            = none →
            config1 = [("z", .num 9), ("a", .smap [("b", .num 1), ("c", .num 2)])]) :=
  ⟨by simp [deleteConfig, deleteConfigWalk, mapDelete],
    by simp [deleteConfig, deleteConfigWalk, mapDelete, mapGet, mapSet],
    deleteConfig_full_subtract [("z", .num 9), ("a", .smap [("b", .num 1), ("c", .num 2)])]
      [("b", .num 1), ("c", .num 2)] ["a", "b"] (.str "ANY_SCALAR")
      (by simp) (by simp [getPath, Value.follow, mapGet]) (by simp)⟩

/-- C3 (subtract without prior insert fails).  For every tree, key path and
dark value, if the segment at some position `i` before the last one is absent
from the tree or resolves to something that is not a nested tree, then
`deleteConfig` returns the key-does-not-exist error for the dotted path. -/
theorem deleteConfig_missing_intermediate (config : Config) (path : List String) (value : Value)
    (i : Nat) (hi : i + 1 < path.length)
    (hbad : ∀ child, getPath config (path.take (i + 1)) ≠ some (.smap child)) :
    ∃ config1, deleteConfig config path value
      = .returned config1 (some (newErrorConfigNotExist (String.intercalate "." path))) := by
  cases path with
  | nil => simp at hi
  | cons k rest =>
    rw [deleteConfig_cons]
    exact ⟨config, deleteConfigWalk_missing _ value (k :: rest) config i hi hbad⟩

/-- C3, witness: subtracting at path `["a","b"]` from `{}` fails. -/
theorem deleteConfig_missing_intermediate_witness :
    ∃ config1, deleteConfig [] ["a", "b"] (.str "x")
      = .returned config1 (some (newErrorConfigNotExist (String.intercalate "." ["a", "b"]))) :=
  deleteConfig_missing_intermediate [] ["a", "b"] (.str "x") 0 (by simp)
    (by intro child; simp [getPath, Value.follow, mapGet])

/-- C4 (atomicity of a failed subtract).  Whenever `deleteConfig` returns an
error, the error is the key-does-not-exist error and the tree is exactly the
tree that was passed in. -/
theorem deleteConfig_error_atomic (config config1 : Config) (path : List String) (value : Value)
    (e : GoError) (h : deleteConfig config path value = .returned config1 (some e)) :
    config1 = config ∧ e = newErrorConfigNotExist (String.intercalate "." path) := by
  cases path with
  | nil => simp [deleteConfig] at h
  | cons k rest =>
    rw [deleteConfig_cons] at h
    exact deleteConfigWalk_error _ value (k :: rest) config config1 e h

/-- C4, witness: the failed subtraction at `["a","b","c"]` from `{a:{x:1}}`
leaves `{a:{x:1}}`. -/
theorem deleteConfig_error_atomic_witness :
    deleteConfig [("a", .smap [("x", .num 1)])] ["a", "b", "c"] (.str "m")
        = .returned [("a", .smap [("x", .num 1)])]
            (some (newErrorConfigNotExist (String.intercalate "." ["a", "b", "c"])))
      ∧ (([("a", .smap [("x", .num 1)])] : Config) = [("a", .smap [("x", .num 1)])]
        ∧ newErrorConfigNotExist (String.intercalate "." ["a", "b", "c"])
          = newErrorConfigNotExist (String.intercalate "." ["a", "b", "c"])) :=
  ⟨by simp [deleteConfig, deleteConfigWalk, mapGet, mapSet],
    deleteConfig_error_atomic [("a", .smap [("x", .num 1)])] [("a", .smap [("x", .num 1)])]
      ["a", "b", "c"] (.str "m") _
      (by simp [deleteConfig, deleteConfigWalk, mapGet, mapSet])⟩

/-! ## `configMapDifference` -/

theorem configMapDifference_nil (config : Config) :
    configMapDifference config [] = some config := by
  simp [configMapDifference]

theorem configMapDifference_cons_leaf (config : Config) (k : String) (v : Value)
    (rest : YamlMap) (hv : ∀ m, v ≠ .imap m) :
    configMapDifference config ((.str k, v) :: rest)
      = configMapDifference (mapDelete config k) rest := by
  cases v <;> simp [configMapDifference] at hv ⊢

theorem configMapDifference_cons_tree (config child : Config) (k : String)
    (d1 rest : YamlMap) (h : mapGet config k = some (.smap child)) :
    configMapDifference config ((.str k, .imap d1) :: rest)
      = (configMapDifference child d1).bind
          (fun child1 => configMapDifference (mapSet config k (.smap child1)) rest) := by
  rw [configMapDifference]
  simp only [h]
  cases configMapDifference child d1 <;> simp

theorem configMapDifference_cons_tree_none (config : Config) (k : String)
    (d1 rest : YamlMap) (h : ∀ child, mapGet config k ≠ some (.smap child)) :
    configMapDifference config ((.str k, .imap d1) :: rest) = none := by
  rw [configMapDifference]
  split
  · next child hc => exact absurd hc (h child)
  · rfl

theorem configMapDifference_cons_badkey (config : Config) (key v : Value)
    (rest : YamlMap) (hkey : ∀ k, key ≠ .str k) :
    configMapDifference config ((key, v) :: rest) = none := by
  cases v <;> cases key <;> simp [configMapDifference] at hkey ⊢

theorem distinctKeys_cons (key v : Value) (rest : YamlMap)
    (h : DistinctKeys ((key, v) :: rest)) :
    (∀ v2, (key, v2) ∉ rest) ∧ DistinctKeys rest := by
  unfold DistinctKeys at h ⊢
  rw [List.map_cons, List.nodup_cons] at h
  refine ⟨?_, h.2⟩
  intro v2 hmem
  exact h.1 (List.mem_map.mpr ⟨(key, v2), hmem, rfl⟩)

/-- What a successful run of `configMapDifference` over pairwise different
keys has done, key by key. -/
theorem configMapDifference_inv :
    ∀ (d : YamlMap) (t r : Config), DistinctKeys d → configMapDifference t d = some r →
      (∀ k, ¬ Mentions d k → mapGet r k = mapGet t k)
      ∧ (∀ k v, (Value.str k, v) ∈ d → (∀ m, v ≠ Value.imap m) → mapGet r k = none)
      ∧ (∀ k d1, (Value.str k, Value.imap d1) ∈ d →
          ∃ t1 r1, mapGet t k = some (.smap t1) ∧ configMapDifference t1 d1 = some r1
            ∧ mapGet r k = some (.smap r1)) := by
  intro d
  induction d with
  | nil =>
    intro t r _ h
    rw [configMapDifference_nil] at h
    cases h
    refine ⟨fun _ _ => rfl, ?_, ?_⟩
    · intro k v hmem; simp at hmem
    · intro k d1 hmem; simp at hmem
  | cons e rest ih =>
    obtain ⟨key, v⟩ := e
    intro t r hd h
    obtain ⟨hfresh, hdrest⟩ := distinctKeys_cons key v rest hd
    by_cases hkey : ∃ k, key = .str k
    · obtain ⟨k, rfl⟩ := hkey
      have hnm : ¬ Mentions rest k := fun ⟨v2, hm⟩ => hfresh v2 hm
      by_cases hv : ∃ d1, v = .imap d1
      · obtain ⟨d1, rfl⟩ := hv
        by_cases hc : ∃ child, mapGet t k = some (.smap child)
        · obtain ⟨child, hc⟩ := hc
          rw [configMapDifference_cons_tree t child k d1 rest hc] at h
          cases hsub : configMapDifference child d1 with
          | none => simp [hsub] at h
          | some child1 =>
            simp only [hsub, Option.some_bind] at h
            obtain ⟨hkeep, hdrop, hdesc⟩ := ih _ r hdrest h
            refine ⟨?_, ?_, ?_⟩
            · intro k2 hm2
              have hne : k2 ≠ k := by
                rintro rfl
                exact hm2 ⟨_, List.mem_cons_self _ _⟩
              rw [hkeep k2 (fun ⟨v2, hm⟩ => hm2 ⟨v2, List.mem_cons_of_mem _ hm⟩)]
              exact mapGet_mapSet_ne t k k2 _ hne
            · intro k2 v2 hmem hv2
              rcases List.mem_cons.mp hmem with heq | _
              · simp only [Prod.mk.injEq] at heq
                exact absurd heq.2 (hv2 d1)
              · rename_i hin
                exact hdrop k2 v2 hin hv2
            · intro k2 d2 hmem
              rcases List.mem_cons.mp hmem with heq | _
              · simp only [Prod.mk.injEq, Value.str.injEq, Value.imap.injEq] at heq
                obtain ⟨rfl, rfl⟩ := heq
                refine ⟨child, child1, hc, hsub, ?_⟩
                rw [hkeep k2 hnm]
                exact mapGet_mapSet_self t k2 _
              · rename_i hin
                have hne : k2 ≠ k := by
                  rintro rfl
                  exact hfresh _ hin
                obtain ⟨t1, r1, h1, h2, h3⟩ := hdesc k2 d2 hin
                rw [mapGet_mapSet_ne t k k2 _ hne] at h1
                exact ⟨t1, r1, h1, h2, h3⟩
        · rw [configMapDifference_cons_tree_none t k d1 rest
            (fun child hcc => hc ⟨child, hcc⟩)] at h
          cases h
      · have hv2 : ∀ m, v ≠ .imap m := fun m hm => hv ⟨m, hm⟩
        rw [configMapDifference_cons_leaf t k v rest hv2] at h
        obtain ⟨hkeep, hdrop, hdesc⟩ := ih _ r hdrest h
        refine ⟨?_, ?_, ?_⟩
        · intro k2 hm2
          have hne : k2 ≠ k := by
            rintro rfl
            exact hm2 ⟨_, List.mem_cons_self _ _⟩
          rw [hkeep k2 (fun ⟨v3, hm⟩ => hm2 ⟨v3, List.mem_cons_of_mem _ hm⟩)]
          exact mapGet_mapDelete_ne t k k2 hne
        · intro k2 v3 hmem hv3
          rcases List.mem_cons.mp hmem with heq | _
          · simp only [Prod.mk.injEq, Value.str.injEq] at heq
            obtain ⟨rfl, rfl⟩ := heq
            rw [hkeep k2 hnm]
            exact mapGet_mapDelete_self t k2
          · rename_i hin
            exact hdrop k2 v3 hin hv3
        · intro k2 d2 hmem
          rcases List.mem_cons.mp hmem with heq | _
          · simp only [Prod.mk.injEq] at heq
            exact absurd heq.2.symm (hv2 d2)
          · rename_i hin
            have hne : k2 ≠ k := by
              rintro rfl
              exact hfresh _ hin
            obtain ⟨t1, r1, h1, h2, h3⟩ := hdesc k2 d2 hin
            rw [mapGet_mapDelete_ne t k k2 hne] at h1
            exact ⟨t1, r1, h1, h2, h3⟩
    · rw [configMapDifference_cons_badkey t key v rest (fun k hk => hkey ⟨k, hk⟩)] at h
      cases h

/-- A run of `configMapDifference` over string keys that are pairwise different
returns as soon as every nested tree of `d` meets a nested tree of `t` on
which the nested run returns. -/
theorem configMapDifference_returns :
    ∀ (d : YamlMap) (t : Config),
      (∀ key value, (key, value) ∈ d → ∃ k, key = Value.str k) → DistinctKeys d →
      (∀ k d1, (Value.str k, Value.imap d1) ∈ d →
        ∃ t1 r1, mapGet t k = some (.smap t1) ∧ configMapDifference t1 d1 = some r1) →
      ∃ r, configMapDifference t d = some r := by
  intro d
  induction d with
  | nil => intro t _ _ _; exact ⟨t, configMapDifference_nil t⟩
  | cons e rest ih =>
    obtain ⟨key, v⟩ := e
    intro t hkeys hd hsub
    obtain ⟨hfresh, hdrest⟩ := distinctKeys_cons key v rest hd
    obtain ⟨k, rfl⟩ := hkeys key v (List.mem_cons_self _ _)
    have hkeys2 : ∀ key value, (key, value) ∈ rest → ∃ k, key = Value.str k :=
      fun key value hm => hkeys key value (List.mem_cons_of_mem _ hm)
    by_cases hv : ∃ d1, v = .imap d1
    · obtain ⟨d1, rfl⟩ := hv
      obtain ⟨t1, r1, hget, hrun⟩ := hsub k d1 (List.mem_cons_self _ _)
      rw [configMapDifference_cons_tree t t1 k d1 rest hget, hrun, Option.some_bind]
      apply ih _ hkeys2 hdrest
      intro k2 d2 hm
      have hne : k2 ≠ k := by
        rintro rfl
        exact hfresh _ hm
      obtain ⟨t2, r2, hg2, hr2⟩ := hsub k2 d2 (List.mem_cons_of_mem _ hm)
      exact ⟨t2, r2, by rw [mapGet_mapSet_ne t k k2 _ hne]; exact hg2, hr2⟩
    · have hv2 : ∀ m, v ≠ .imap m := fun m hm => hv ⟨m, hm⟩
      rw [configMapDifference_cons_leaf t k v rest hv2]
      apply ih _ hkeys2 hdrest
      intro k2 d2 hm
      have hne : k2 ≠ k := by
        rintro rfl
        exact hfresh _ hm
      obtain ⟨t2, r2, hg2, hr2⟩ := hsub k2 d2 (List.mem_cons_of_mem _ hm)
      exact ⟨t2, r2, by rw [mapGet_mapDelete_ne t k k2 hne]; exact hg2, hr2⟩

/-- On its domain `configMapDifference` returns, and what it returns is the
recursive difference of the specification. -/
theorem configMapDifference_isDiff (t : Config) (d : YamlMap) (h : Subtractable t d) :
    ∃ r, configMapDifference t d = some r ∧ IsDiff t d r := by
  induction h with
  | intro t d keys distinct has sub ih =>
    have hsub : ∀ k d1, (Value.str k, Value.imap d1) ∈ d →
        ∃ t1 r1, mapGet t k = some (.smap t1) ∧ configMapDifference t1 d1 = some r1 := by
      intro k d1 hm
      obtain ⟨t1, ht1⟩ := has k d1 hm
      obtain ⟨r1, hr1, _⟩ := ih k d1 t1 hm ht1
      exact ⟨t1, r1, ht1, hr1⟩
    obtain ⟨r, hr⟩ := configMapDifference_returns d t keys distinct hsub
    obtain ⟨hkeep, hdrop, hdesc⟩ := configMapDifference_inv d t r distinct hr
    refine ⟨r, hr, IsDiff.intro t d r hkeep hdrop ?_ ?_⟩
    · intro k d1 hm
      obtain ⟨t1, r1, h1, _, h3⟩ := hdesc k d1 hm
      exact ⟨t1, r1, h1, h3⟩
    · intro k d1 t1 r1 hm ht hrr
      obtain ⟨t2, r2, h1, h2, h3⟩ := hdesc k d1 hm
      rw [ht] at h1
      rw [hrr] at h3
      simp only [Option.some.injEq, Value.smap.injEq] at h1 h3
      subst h1 h3
      obtain ⟨r3, hr3, hdiff⟩ := ih k d1 t1 hm ht
      rw [h2] at hr3
      simp only [Option.some.injEq] at hr3
      subst hr3
      exact hdiff

/-! ## `deleteConfig`: partial subtraction and frame -/

theorem follow_append (v : Value) (p q : List String) :
    v.follow (p ++ q) = (v.follow p).bind (fun w => w.follow q) := by
  induction p generalizing v with
  | nil => simp [Value.follow]
  | cons k rest ih =>
    cases v with
    | smap m =>
      rw [List.cons_append, follow_smap_cons, follow_smap_cons]
      cases mapGet m k with
      | none => simp
      | some w => simp [ih]
    | _ => simp [Value.follow]

theorem getPath_append (config : Config) (p q : List String) :
    getPath config (p ++ q) = (getPath config p).bind (fun w => w.follow q) :=
  follow_append _ p q

theorem deleteConfigWalk_single_tree (joined : String) (d : YamlMap) (config t t1 : Config)
    (k : String) (ht : mapGet config k = some (.smap t))
    (hrun : configMapDifference t d = some t1) :
    deleteConfigWalk joined (.imap d) config [k]
      = .returned (mapSet config k (.smap t1)) none := by
  simp [deleteConfigWalk, ht, hrun]

/-- Partial subtraction along a path that leads to a tree `t`: when the
difference returns `t1`, the walk returns no error and the path leads to
`t1` afterwards. -/
theorem deleteConfigWalk_partial (joined : String) (d : YamlMap) (t t1 : Config)
    (hrun : configMapDifference t d = some t1) :
    ∀ (path : List String) (config : Config), path ≠ [] →
      getPath config path = some (.smap t) →
      ∃ config1, deleteConfigWalk joined (.imap d) config path = .returned config1 none
        ∧ getPath config1 path = some (.smap t1) := by
  intro path
  induction path with
  | nil => intro config hne; exact absurd rfl hne
  | cons k rest ih =>
    intro config _ hpath
    cases rest with
    | nil =>
      rw [getPath_single] at hpath
      refine ⟨_, deleteConfigWalk_single_tree joined d config t t1 k hpath hrun, ?_⟩
      rw [getPath_single]
      exact mapGet_mapSet_self config k _
    | cons k2 rest2 =>
      rw [getPath_cons] at hpath
      cases hg : mapGet config k with
      | none => simp [hg] at hpath
      | some v =>
        simp only [hg, Option.some_bind] at hpath
        obtain ⟨child, rfl⟩ := follow_cons_isSome_smap v k2 rest2 _ hpath
        obtain ⟨child1, hwalk, hafter⟩ := ih child (by simp) hpath
        refine ⟨mapSet config k (.smap child1), ?_, ?_⟩
        · rw [deleteConfigWalk_step joined _ config child k k2 rest2 hg, hwalk]
        · rw [getPath_cons, mapGet_mapSet_self]
          exact hafter

/-- A walk with the value a nested tree that returns no error has found a
tree at the path and has put its difference there. -/
theorem deleteConfigWalk_partial_inv (joined : String) (d : YamlMap) :
    ∀ (path : List String) (config config1 : Config),
      deleteConfigWalk joined (.imap d) config path = .returned config1 none →
      ∃ t t1, getPath config path = some (.smap t) ∧ configMapDifference t d = some t1
        ∧ getPath config1 path = some (.smap t1) := by
  intro path
  induction path with
  | nil => intro config config1 h; simp [deleteConfigWalk] at h
  | cons k rest ih =>
    intro config config1 h
    cases rest with
    | nil =>
      simp only [deleteConfigWalk] at h
      split at h
      · next t ht =>
        split at h
        · next t1 hrun =>
          simp only [Run.returned.injEq, and_true] at h
          subst h
          refine ⟨t, t1, ?_, hrun, ?_⟩
          · rw [getPath_single]; exact ht
          · rw [getPath_single]; exact mapGet_mapSet_self config k _
        · simp at h
      · simp at h
    | cons k2 rest2 =>
      by_cases hk : ∃ child, mapGet config k = some (.smap child)
      · obtain ⟨child, hc⟩ := hk
        rw [deleteConfigWalk_step joined _ config child k k2 rest2 hc] at h
        cases hrun : deleteConfigWalk joined (.imap d) child (k2 :: rest2) with
        | panicked => simp [hrun] at h
        | returned child1 err =>
          simp only [hrun, Run.returned.injEq] at h
          obtain ⟨h1, h2⟩ := h
          subst h1 h2
          obtain ⟨t, t1, hbefore, hdiff, hafter⟩ := ih child child1 hrun
          refine ⟨t, t1, ?_, hdiff, ?_⟩
          · rw [getPath_cons, hc]; exact hbefore
          · rw [getPath_cons, mapGet_mapSet_self]; exact hafter
      · rw [deleteConfigWalk_stop joined _ config k k2 rest2
          (fun child hc => hk ⟨child, hc⟩)] at h
        simp at h

/-- Below a key that the difference does not mention, at any depth reached
through nested trees of `d`, the tree is as it was. -/
theorem configMapDifference_frame :
    ∀ (q : List String) (d d1 : YamlMap) (t r : Config) (s : String),
      DistinctKeysDeep d → configMapDifference t d = some r → Reaches d q d1 →
      ¬ Mentions d1 s →
      (Value.smap r).follow (q ++ [s]) = (Value.smap t).follow (q ++ [s]) := by
  intro q d d1 t r s hd hrun hreach
  induction hreach generalizing t r with
  | here d =>
    intro hs
    cases hd with
    | intro _ distinct sub =>
      obtain ⟨hkeep, _, _⟩ := configMapDifference_inv d t r distinct hrun
      have h1 := getPath_single r s
      have h2 := getPath_single t s
      unfold getPath at h1 h2
      rw [List.nil_append, h1, h2]
      exact hkeep s hs
  | step d k d2 q d3 mem tail ih =>
    intro hs
    cases hd with
    | intro _ distinct sub =>
      obtain ⟨_, _, hdesc⟩ := configMapDifference_inv d t r distinct hrun
      obtain ⟨t1, r1, ht1, hr1, hrk⟩ := hdesc k d2 mem
      rw [List.cons_append, follow_smap_cons, follow_smap_cons, ht1, hrk]
      exact ih t1 r1 (sub _ d2 mem) hr1 hs

/-- Partial subtraction where the shapes fit.  For every tree, every non-empty
key path that leads through nested trees to a nested tree `t`, and every dark
value that is a nested tree `d` with string keys whose nested trees meet
nested trees of `t` under the same keys at every level (`Subtractable t d`),
`deleteConfig` returns no error and afterwards the path leads to a tree `t1`
that is the recursive difference `diff(t, d)`. -/
theorem deleteConfig_partial_subtract_fitting (config t : Config) (path : List String)
    (d : YamlMap) (hne : path ≠ []) (ht : getPath config path = some (.smap t))
    (hd : Subtractable t d) :
    ∃ config1 t1, deleteConfig config path (.imap d) = .returned config1 none
      ∧ getPath config1 path = some (.smap t1) ∧ IsDiff t d t1 := by
  obtain ⟨t1, hrun, hdiff⟩ := configMapDifference_isDiff t d hd
  cases path with
  | nil => exact absurd rfl hne
  | cons k rest =>
    rw [deleteConfig_cons]
    obtain ⟨config1, hwalk, hafter⟩ :=
      deleteConfigWalk_partial _ d t t1 hrun (k :: rest) config hne ht
    exact ⟨config1, t1, hwalk, hafter, hdiff⟩

/-- C2 (partial subtract), the code at the failing input.  In `{a:{b:1}}` the
path `a` is non-empty, has no intermediate segment and holds the nested tree
`{b:1}`, and the dark value `{b:{c:"x"}}` is a nested tree: the claim asks for
a return without error.  `deleteConfig` does not return: the unchecked
assertion `config[key.(string)].(map[string]interface{})` of
`configMapDifference` fails on the number stored under `b`.  On the example of
the specification, subtracting `("a", {b: "marker"})` from `{a:{b:1,c:2}}`, the
call returns `{a:{c:2}}`. -/
theorem deleteConfig_partial_subtract :
    getPath [("a", .smap [("b", .num 1)])] ["a"] = some (.smap [("b", .num 1)])
      ∧ deleteConfig [("a", .smap [("b", .num 1)])] ["a"]
          (.imap [(.str "b", .imap [(.str "c", .str "x")])]) = .panicked .typeAssertion
      ∧ (¬ ∃ config1, deleteConfig [("a", .smap [("b", .num 1)])] ["a"]
          (.imap [(.str "b", .imap [(.str "c", .str "x")])]) = .returned config1 none)
      ∧ deleteConfig [("a", .smap [("b", .num 1), ("c", .num 2)])] ["a"]
          (.imap [(.str "b", .str "marker")])
        = .returned [("a", .smap [("c", .num 2)])] none := by
  have h : deleteConfig [("a", .smap [("b", .num 1)])] ["a"]
      (.imap [(.str "b", .imap [(.str "c", .str "x")])]) = .panicked .typeAssertion := by
    simp [deleteConfig, deleteConfigWalk, configMapDifference, mapGet]
  refine ⟨by simp [getPath, Value.follow, mapGet], h, ?_, ?_⟩
  · rintro ⟨config1, hc⟩
    rw [h] at hc
    cases hc
  · simp [deleteConfig, deleteConfigWalk, configMapDifference, mapGet, mapSet, mapDelete]

/-- C5 (frame of a subtract).  Whenever `deleteConfig` returns no error, the
siblings of every segment of the path have the values they had; and when the
value is a nested tree (a Go map, so with pairwise different keys at every
level), every key that the value does not mention, at any depth reached
through the nested trees of the value, has below the path the value it
had. -/
theorem deleteConfig_frame (config config1 : Config) (path : List String) (value : Value)
    (hok : deleteConfig config path value = .returned config1 none) :
    (∀ (pre : List String) (x : String) (rest : List String) (s : String),
        path = pre ++ x :: rest → s ≠ x →
        getPath config1 (pre ++ [s]) = getPath config (pre ++ [s]))
      ∧ (∀ (d : YamlMap), value = .imap d → DistinctKeysDeep d →
          ∀ (q : List String) (d1 : YamlMap) (s : String), Reaches d q d1 → ¬ Mentions d1 s →
          getPath config1 (path ++ (q ++ [s])) = getPath config (path ++ (q ++ [s]))) := by
  cases path with
  | nil => simp [deleteConfig] at hok
  | cons k rest =>
    rw [deleteConfig_cons] at hok
    refine ⟨deleteConfigWalk_frame _ value (k :: rest) config config1 none hok, ?_⟩
    rintro d rfl hd q d1 s hreach hs
    obtain ⟨t, t1, hbefore, hrun, hafter⟩ :=
      deleteConfigWalk_partial_inv _ d (k :: rest) config config1 hok
    rw [getPath_append, getPath_append, hbefore, hafter]
    exact configMapDifference_frame q d d1 t t1 s hd hrun hreach hs

/-- C5, witness: subtracting `("a.b", {x: "m"})` from
`{a:{b:{x:1,y:2},c:3},d:4}` keeps `d`, `a.c` and `a.b.y`. -/
theorem deleteConfig_frame_witness :
    deleteConfig [("a", .smap [("b", .smap [("x", .num 1), ("y", .num 2)]), ("c", .num 3)]),
          ("d", .num 4)] ["a", "b"] (.imap [(.str "x", .str "m")])
        = .returned [("a", .smap [("b", .smap [("y", .num 2)]), ("c", .num 3)]), ("d", .num 4)]
            none
      ∧ ((∀ (pre : List String) (x : String) (rest : List String) (s : String),
          ["a", "b"] = pre ++ x :: rest → s ≠ x →
          getPath [("a", .smap [("b", .smap [("y", .num 2)]), ("c", .num 3)]), ("d", .num 4)]
              (pre ++ [s])
            = getPath [("a", .smap [("b", .smap [("x", .num 1), ("y", .num 2)]), ("c", .num 3)]),
              ("d", .num 4)] (pre ++ [s]))
        ∧ (∀ (d : YamlMap), Value.imap [(.str "x", .str "m")] = .imap d → DistinctKeysDeep d →
          ∀ (q : List String) (d1 : YamlMap) (s : String), Reaches d q d1 → ¬ Mentions d1 s →
          getPath [("a", .smap [("b", .smap [("y", .num 2)]), ("c", .num 3)]), ("d", .num 4)]
              (["a", "b"] ++ (q ++ [s]))
            = getPath [("a", .smap [("b", .smap [("x", .num 1), ("y", .num 2)]), ("c", .num 3)]),
              ("d", .num 4)] (["a", "b"] ++ (q ++ [s])))) :=
  ⟨by simp [deleteConfig, deleteConfigWalk, configMapDifference, mapGet, mapSet, mapDelete],
    deleteConfig_frame _ _ ["a", "b"] (.imap [(.str "x", .str "m")])
      (by simp [deleteConfig, deleteConfigWalk, configMapDifference, mapGet, mapSet,
        mapDelete])⟩

/-! ## The assembler: control flow, for any helpers -/

theorem insertProperties_append (h : Helpers) (ps1 ps2 : List JobProperty) (props : Config) :
    insertProperties h props (ps1 ++ ps2)
      = match insertProperties h props ps1 with
        | .returned props1 none => insertProperties h props1 ps2
        | .returned props1 (some err) => .returned props1 (some err)
        | .panicked cause => .panicked cause := by
  induction ps1 generalizing props with
  | nil => simp [insertProperties]
  | cons p rest ih =>
    simp only [List.cons_append, insertProperties]
    cases hrun : h.insertConfig props p.Name p.Default with
    | panicked => rfl
    | returned props1 err =>
      cases err with
      | none => exact ih props1
      | some e => rfl

theorem applyOpinions_append (h : Helpers) (opinions : Opinions)
    (ks1 ks2 : List ReleaseConfig) (props : Config) :
    applyOpinions h opinions props (ks1 ++ ks2)
      = match applyOpinions h opinions props ks1 with
        | .returned props1 none => applyOpinions h opinions props1 ks2
        | .returned props1 (some err) => .returned props1 (some err)
        | .panicked cause => .panicked cause := by
  induction ks1 generalizing props with
  | nil => simp [applyOpinions]
  | cons k rest ih =>
    simp only [List.cons_append, applyOpinions]
    cases hrun : applyOpinion h opinions props k with
    | panicked => rfl
    | returned props1 err =>
      cases err with
      | none => exact ih props1
      | some e => rfl

/-- A key without an opinion in either layer leaves the tree as it is. -/
theorem applyOpinion_no_opinion (h : Helpers) (opinions : Opinions) (props : Config)
    (uniqueConfig : ReleaseConfig) (keyPieces : List String)
    (hkey : h.getKeyGrams uniqueConfig.Name = .ok keyPieces)
    (hlight : h.GetOpinionForKey opinions.Light keyPieces = .null)
    (hdark : h.GetOpinionForKey opinions.Dark keyPieces = .null) :
    applyOpinion h opinions props uniqueConfig = .returned props none := by
  simp [applyOpinion, hkey, addLightOpinion, hlight, subtractDarkOpinion, hdark]

theorem applyOpinions_no_opinion (h : Helpers) (opinions : Opinions)
    (keys : List ReleaseConfig) (props : Config)
    (hnone : ∀ uniqueConfig ∈ keys, ∃ keyPieces,
      h.getKeyGrams uniqueConfig.Name = .ok keyPieces
        ∧ h.GetOpinionForKey opinions.Light keyPieces = .null
        ∧ h.GetOpinionForKey opinions.Dark keyPieces = .null) :
    applyOpinions h opinions props keys = .returned props none := by
  induction keys with
  | nil => rfl
  | cons k rest ih =>
    obtain ⟨keyPieces, hkey, hlight, hdark⟩ := hnone k (List.mem_cons_self _ _)
    simp only [applyOpinions,
      applyOpinion_no_opinion h opinions props k keyPieces hkey hlight hdark]
    exact ih (fun uc hm => hnone uc (List.mem_cons_of_mem _ hm))

/-- C8 (missing opinion is a no-op).  For every tree and unique key whose name
resolves to a key path at which the lookup is absent in both layers,
processing the key returns the tree unchanged and without error; and when
this is so for every unique key of the job, `getPropertiesForJob` returns the
clone of the base tree with the declared defaults inserted. -/
theorem getPropertiesForJob_missing_opinion (h : Helpers) (opinions : Opinions) :
    (∀ (props : Config) (uniqueConfig : ReleaseConfig) (keyPieces : List String),
        h.getKeyGrams uniqueConfig.Name = .ok keyPieces →
        h.GetOpinionForKey opinions.Light keyPieces = .null →
        h.GetOpinionForKey opinions.Dark keyPieces = .null →
        applyOpinion h opinions props uniqueConfig = .returned props none)
      ∧ (∀ (job : Job) (allProps clone withDefaults : Config),
        (∀ uniqueConfig ∈ job.UniqueConfigs, ∃ keyPieces,
          h.getKeyGrams uniqueConfig.Name = .ok keyPieces
            ∧ h.GetOpinionForKey opinions.Light keyPieces = .null
            ∧ h.GetOpinionForKey opinions.Dark keyPieces = .null) →
        h.deepCopy allProps = .ok clone →
        insertProperties h clone job.Properties = .returned withDefaults none →
        getPropertiesForJob h job allProps opinions = .returned (some withDefaults) none) := by
  refine ⟨applyOpinion_no_opinion h opinions, ?_⟩
  intro job allProps clone withDefaults hnone hclone hdefaults
  simp [getPropertiesForJob, hclone, hdefaults,
    applyOpinions_no_opinion h opinions job.UniqueConfigs withDefaults hnone]

/-- C8, witness: with empty opinion layers, the base tree `{x:0, a:{c:7}}`, the
declared default `a.b = 1` and the unique keys `a.b` and `x`, the result is
`{x:0, a:{c:7, b:1}}`. -/
theorem getPropertiesForJob_missing_opinion_witness :
    getPropertiesForJob specHelpers
        { Properties := [⟨"a.b", .num 1⟩], UniqueConfigs := [⟨"a.b"⟩, ⟨"x"⟩] }
        [("x", .num 0), ("a", .smap [("c", .num 7)])] ⟨[], []⟩
        = .returned (some [("x", .num 0), ("a", .smap [("c", .num 7), ("b", .num 1)])]) none
      ∧ applyOpinion specHelpers ⟨[], []⟩ [("x", .num 0)] ⟨"a.b"⟩
        = .returned [("x", .num 0)] none :=
  ⟨(getPropertiesForJob_missing_opinion specHelpers ⟨[], []⟩).2
      { Properties := [⟨"a.b", .num 1⟩], UniqueConfigs := [⟨"a.b"⟩, ⟨"x"⟩] }
      [("x", .num 0), ("a", .smap [("c", .num 7)])]
      [("x", .num 0), ("a", .smap [("c", .num 7)])]
      [("x", .num 0), ("a", .smap [("c", .num 7), ("b", .num 1)])]
      (by
        intro uc hm
        simp only [List.mem_cons, List.mem_singleton, List.not_mem_nil, or_false] at hm
        rcases hm with rfl | rfl
        · exact ⟨["a", "b"], rfl, rfl, rfl⟩
        · exact ⟨["x"], rfl, rfl, rfl⟩)
      rfl rfl,
    (getPropertiesForJob_missing_opinion specHelpers ⟨[], []⟩).1
      [("x", .num 0)] ⟨"a.b"⟩ ["a", "b"] rfl rfl rfl⟩

theorem insertProperties_first_failure (h : Helpers) (ps1 ps2 : List JobProperty)
    (p : JobProperty) (props props1 props2 : Config) (e : GoError)
    (hbefore : insertProperties h props ps1 = .returned props1 none)
    (hfail : h.insertConfig props1 p.Name p.Default = .returned props2 (some e)) :
    insertProperties h props (ps1 ++ p :: ps2) = .returned props2 (some e) := by
  rw [insertProperties_append, hbefore]
  simp [insertProperties, hfail]

theorem applyOpinions_first_failure (h : Helpers) (opinions : Opinions)
    (ks1 ks2 : List ReleaseConfig) (k : ReleaseConfig) (props props1 props2 : Config)
    (e : GoError) (hbefore : applyOpinions h opinions props ks1 = .returned props1 none)
    (hfail : applyOpinion h opinions props1 k = .returned props2 (some e)) :
    applyOpinions h opinions props (ks1 ++ k :: ks2) = .returned props2 (some e) := by
  rw [applyOpinions_append, hbefore]
  simp [applyOpinions, hfail]

/-- C9 (no partial output).  `getPropertiesForJob` returns either an error and
no tree, or a tree and no error.  It returns the error of the first step
that fails and no tree: the clone, the first failing insertion of a declared
default, or the first unique key at which the key resolution, the light
insertion or the dark subtraction fails.  When it returns a tree, the clone,
the insertion of all defaults and the processing of all unique keys have
returned without error. -/
theorem getPropertiesForJob_no_partial_output (h : Helpers) (job : Job) (allProps : Config)
    (opinions : Opinions) :
    (∀ props err, getPropertiesForJob h job allProps opinions = .returned props err →
        (props = none ∧ ∃ e, err = some e) ∨ ((∃ tree, props = some tree) ∧ err = none))
      ∧ (∀ e, h.deepCopy allProps = .error e →
        getPropertiesForJob h job allProps opinions = .returned none (some e))
      ∧ (∀ clone ps1 p ps2 props1 props2 e, h.deepCopy allProps = .ok clone →
        job.Properties = ps1 ++ p :: ps2 →
        insertProperties h clone ps1 = .returned props1 none →
        h.insertConfig props1 p.Name p.Default = .returned props2 (some e) →
        getPropertiesForJob h job allProps opinions = .returned none (some e))
      ∧ (∀ clone withDefaults ks1 k ks2 props1 props2 e, h.deepCopy allProps = .ok clone →
        insertProperties h clone job.Properties = .returned withDefaults none →
        job.UniqueConfigs = ks1 ++ k :: ks2 →
        applyOpinions h opinions withDefaults ks1 = .returned props1 none →
        applyOpinion h opinions props1 k = .returned props2 (some e) →
        getPropertiesForJob h job allProps opinions = .returned none (some e))
      ∧ (∀ props k e, h.getKeyGrams k.Name = .error e →
        applyOpinion h opinions props k = .returned props (some e))
      ∧ (∀ props k keyPieces props1 e, h.getKeyGrams k.Name = .ok keyPieces →
        h.GetOpinionForKey opinions.Light keyPieces ≠ .null →
        h.insertConfig props k.Name (h.GetOpinionForKey opinions.Light keyPieces)
          = .returned props1 (some e) →
        applyOpinion h opinions props k = .returned props1 (some e))
      ∧ (∀ props k keyPieces props1 props2 e, h.getKeyGrams k.Name = .ok keyPieces →
        addLightOpinion h opinions props k keyPieces = .returned props1 none →
        h.GetOpinionForKey opinions.Dark keyPieces ≠ .null →
        deleteConfig props1 keyPieces (h.GetOpinionForKey opinions.Dark keyPieces)
          = .returned props2 (some e) →
        applyOpinion h opinions props k = .returned props2 (some e))
      ∧ (∀ tree, getPropertiesForJob h job allProps opinions = .returned (some tree) none →
        ∃ clone withDefaults, h.deepCopy allProps = .ok clone
          ∧ insertProperties h clone job.Properties = .returned withDefaults none
          ∧ applyOpinions h opinions withDefaults job.UniqueConfigs = .returned tree none) := by
  refine ⟨?_, ?_, ?_, ?_, ?_, ?_, ?_, ?_⟩
  · intro props err hret
    unfold getPropertiesForJob at hret
    split at hret
    · cases hret
      exact Or.inl ⟨rfl, _, rfl⟩
    · split at hret
      · cases hret
      · cases hret
        exact Or.inl ⟨rfl, _, rfl⟩
      · split at hret
        · cases hret
        · cases hret
          exact Or.inl ⟨rfl, _, rfl⟩
        · cases hret
          exact Or.inr ⟨⟨_, rfl⟩, rfl⟩
  · intro e hclone
    simp [getPropertiesForJob, hclone]
  · intro clone ps1 p ps2 props1 props2 e hclone hsplit hbefore hfail
    simp [getPropertiesForJob, hclone, hsplit,
      insertProperties_first_failure h ps1 ps2 p clone props1 props2 e hbefore hfail]
  · intro clone withDefaults ks1 k ks2 props1 props2 e hclone hdefaults hsplit hbefore hfail
    simp [getPropertiesForJob, hclone, hdefaults, hsplit,
      applyOpinions_first_failure h opinions ks1 ks2 k withDefaults props1 props2 e hbefore
        hfail]
  · intro props k e hkey
    simp [applyOpinion, hkey]
  · intro props k keyPieces props1 e hkey hlight hfail
    have hadd : addLightOpinion h opinions props k keyPieces = .returned props1 (some e) := by
      unfold addLightOpinion
      split
      · next hnull => exact absurd hnull hlight
      · exact hfail
    simp [applyOpinion, hkey, hadd]
  · intro props k keyPieces props1 props2 e hkey hadd hdark hfail
    have hsub : subtractDarkOpinion h opinions props1 keyPieces = .returned props2 (some e) := by
      unfold subtractDarkOpinion
      split
      · next hnull => exact absurd hnull hdark
      · exact hfail
    simp [applyOpinion, hkey, hadd, hsub]
  · intro tree hret
    unfold getPropertiesForJob at hret
    split at hret
    · cases hret
    · next clone hclone =>
      split at hret
      · cases hret
      · cases hret
      · next withDefaults hdefaults =>
        split at hret
        · cases hret
        · cases hret
        · next props2 hops =>
          simp only [Outcome.returned.injEq, Option.some.injEq, and_true] at hret
          subst hret
          exact ⟨clone, withDefaults, hclone, hdefaults, hops⟩

/-- C9, witness: the dark subtraction at `a.b` fails on the base tree `{}` (no
light opinion has created `a`), and `getPropertiesForJob` returns that error
and no tree, although the later key `x` would have succeeded. -/
theorem getPropertiesForJob_no_partial_output_witness :
    getPropertiesForJob specHelpers { Properties := [], UniqueConfigs := [⟨"a.b"⟩, ⟨"x"⟩] } []
        ⟨[(.str "x", .num 5)], [(.str "a", .imap [(.str "b", .str "m")])]⟩
      = .returned none (some (newErrorConfigNotExist "a.b")) :=
  (getPropertiesForJob_no_partial_output specHelpers
      { Properties := [], UniqueConfigs := [⟨"a.b"⟩, ⟨"x"⟩] } []
      ⟨[(.str "x", .num 5)], [(.str "a", .imap [(.str "b", .str "m")])]⟩).2.2.2.1
    [] [] [] ⟨"a.b"⟩ [⟨"x"⟩] [] [] (newErrorConfigNotExist "a.b") rfl rfl rfl rfl rfl

/-! ## The helpers of the specification -/

theorem getPath_nil_cons (k : String) (rest : List String) :
    getPath [] (k :: rest) = none := by
  simp [getPath_cons, mapGet]

theorem splitDots_ne_nil (cs : List Char) : splitDots cs ≠ [] := by
  cases cs with
  | nil => simp [splitDots]
  | cons c rest =>
    unfold splitDots
    split
    · simp
    · split <;> simp

theorem specGetKeyGrams_ne_nil (name : String) (path : List String)
    (h : specGetKeyGrams name = .ok path) : path ≠ [] := by
  unfold specGetKeyGrams at h
  split at h
  · cases h
  · simp only [Except.ok.injEq] at h
    subst h
    simpa using splitDots_ne_nil name.toList

theorem specInsertWalk_step_some (joined : String) (value : Value) (config child : Config)
    (k k2 : String) (rest : List String) (h : mapGet config k = some (.smap child)) :
    specInsertWalk joined value config (k :: k2 :: rest)
      = match specInsertWalk joined value child (k2 :: rest) with
        | .returned child1 err => .returned (mapSet config k (.smap child1)) err
        | .panicked cause => .panicked cause := by
  simp [specInsertWalk, h]

theorem specInsertWalk_step_none (joined : String) (value : Value) (config : Config)
    (k k2 : String) (rest : List String) (h : mapGet config k = none) :
    specInsertWalk joined value config (k :: k2 :: rest)
      = match specInsertWalk joined value [] (k2 :: rest) with
        | .returned child1 err => .returned (mapSet config k (.smap child1)) err
        | .panicked cause => .panicked cause := by
  simp [specInsertWalk, h]

theorem specInsertWalk_step_conflict (joined : String) (value : Value) (config : Config)
    (k k2 : String) (rest : List String) (v : Value) (h : mapGet config k = some v)
    (hv : ∀ child, v ≠ .smap child) :
    specInsertWalk joined value config (k :: k2 :: rest)
      = .returned config (some (.pathConflict joined)) := by
  cases v <;> simp [specInsertWalk, h] at hv ⊢

/-- The three ways in which the walk of the mutator passes an intermediate
segment: it descends into the child found or created there, or it stops with
the tree as it was. -/
theorem specInsertWalk_cases (joined : String) (value : Value) (config : Config)
    (k k2 : String) (rest : List String) :
    (∃ child, (mapGet config k = some (.smap child) ∨ (mapGet config k = none ∧ child = []))
        ∧ specInsertWalk joined value config (k :: k2 :: rest)
          = match specInsertWalk joined value child (k2 :: rest) with
            | .returned child1 err => .returned (mapSet config k (.smap child1)) err
            | .panicked cause => .panicked cause)
      ∨ ((∃ v, mapGet config k = some v ∧ ∀ child, v ≠ .smap child)
        ∧ specInsertWalk joined value config (k :: k2 :: rest)
          = .returned config (some (.pathConflict joined))) := by
  cases hg : mapGet config k with
  | none =>
    exact Or.inl ⟨[], Or.inr ⟨rfl, rfl⟩, specInsertWalk_step_none joined value config k k2 rest hg⟩
  | some v =>
    by_cases hv : ∃ child, v = .smap child
    · obtain ⟨child, rfl⟩ := hv
      exact Or.inl ⟨child, Or.inl rfl,
        specInsertWalk_step_some joined value config child k k2 rest hg⟩
    · exact Or.inr ⟨⟨v, rfl, fun child hc => hv ⟨child, hc⟩⟩,
        specInsertWalk_step_conflict joined value config k k2 rest v hg
          (fun child hc => hv ⟨child, hc⟩)⟩

/-- After an insertion without error the path holds the inserted value. -/
theorem specInsertWalk_post (joined : String) (value : Value) :
    ∀ (path : List String) (config config1 : Config), path ≠ [] →
      specInsertWalk joined value config path = .returned config1 none →
      getPath config1 path = some value := by
  intro path
  induction path with
  | nil => intro config config1 hne; exact absurd rfl hne
  | cons k rest ih =>
    intro config config1 _ hrun
    cases rest with
    | nil =>
      simp only [specInsertWalk, Run.returned.injEq, and_true] at hrun
      subst hrun
      rw [getPath_single]
      exact mapGet_mapSet_self config k value
    | cons k2 rest2 =>
      rcases specInsertWalk_cases joined value config k k2 rest2 with
        ⟨child, _, heq⟩ | ⟨_, heq⟩
      · rw [heq] at hrun
        cases hsub : specInsertWalk joined value child (k2 :: rest2) with
        | panicked => simp [hsub] at hrun
        | returned child1 err =>
          simp only [hsub, Run.returned.injEq] at hrun
          obtain ⟨h1, h2⟩ := hrun
          subst h1 h2
          rw [getPath_cons, mapGet_mapSet_self]
          exact ih child child1 (by simp) hsub
      · rw [heq] at hrun
        simp at hrun

/-- The walk of the mutator leaves the siblings of every segment of the path
as they were. -/
theorem specInsertWalk_frame (joined : String) (value : Value) :
    ∀ (path : List String) (config config1 : Config) (err : Option GoError),
      specInsertWalk joined value config path = .returned config1 err →
      ∀ (pre : List String) (x : String) (rest : List String) (s : String),
        path = pre ++ x :: rest → s ≠ x →
        getPath config1 (pre ++ [s]) = getPath config (pre ++ [s]) := by
  intro path
  induction path with
  | nil =>
    intro config config1 err _ pre x rest s hsplit
    simp at hsplit
  | cons k tail ih =>
    intro config config1 err hrun pre x rest s hsplit hs
    cases tail with
    | nil =>
      have hpre : pre = [] ∧ x = k := by
        cases pre with
        | nil => simp at hsplit; exact ⟨rfl, hsplit.1.symm⟩
        | cons p pre2 => simp at hsplit
      obtain ⟨rfl, rfl⟩ := hpre
      simp only [specInsertWalk, Run.returned.injEq] at hrun
      rw [← hrun.1]
      simp only [List.nil_append, getPath_single]
      exact mapGet_mapSet_ne config x s _ hs
    | cons k2 rest2 =>
      rcases specInsertWalk_cases joined value config k k2 rest2 with
        ⟨child, hchild, heq⟩ | ⟨_, heq⟩
      · rw [heq] at hrun
        cases hsub : specInsertWalk joined value child (k2 :: rest2) with
        | panicked => simp [hsub] at hrun
        | returned child1 err1 =>
          simp only [hsub, Run.returned.injEq] at hrun
          obtain ⟨h1, _⟩ := hrun
          subst h1
          cases pre with
          | nil =>
            simp only [List.nil_append, List.cons.injEq] at hsplit
            obtain ⟨rfl, _⟩ := hsplit
            simp only [List.nil_append, getPath_single]
            exact mapGet_mapSet_ne config k s _ hs
          | cons p pre2 =>
            simp only [List.cons_append, List.cons.injEq] at hsplit
            obtain ⟨rfl, htail⟩ := hsplit
            have hih := ih child child1 err1 hsub pre2 x rest s htail hs
            rw [List.cons_append, getPath_cons, getPath_cons, mapGet_mapSet_self]
            rcases hchild with hc | ⟨hc, rfl⟩
            · rw [hc]; exact hih
            · rw [hc]
              have hnil : getPath [] (pre2 ++ [s]) = none := by
                cases pre2 <;> simp [getPath_nil_cons]
              rw [hnil] at hih
              simpa [getPath] using hih
      · rw [heq] at hrun
        simp only [Run.returned.injEq] at hrun
        rw [← hrun.1]

theorem specInsertConfig_post (props props1 : Config) (name : String) (value : Value)
    (path : List String) (hkey : specGetKeyGrams name = .ok path)
    (hrun : specInsertConfig props name value = .returned props1 none) :
    getPath props1 path = some value := by
  simp only [specInsertConfig, hkey] at hrun
  exact specInsertWalk_post name value path props props1
    (specGetKeyGrams_ne_nil name path hkey) hrun

/-! ## The assembler: one key -/

theorem getPath_parent (config : Config) (path : List String) (v : Value) (hne : path ≠ [])
    (h : getPath config path = some v) :
    ∃ parent, getPath config path.dropLast = some (.smap parent) := by
  have hsplit : path = path.dropLast ++ [path.getLast hne] :=
    (List.dropLast_append_getLast hne).symm
  rw [hsplit, getPath_append] at h
  cases hp : getPath config path.dropLast with
  | none => simp [hp] at h
  | some w =>
    simp only [hp, Option.some_bind] at h
    obtain ⟨parent, rfl⟩ := follow_cons_isSome_smap w _ [] v h
    exact ⟨parent, rfl⟩

theorem addLightOpinion_present (h : Helpers) (opinions : Opinions) (props : Config)
    (k : ReleaseConfig) (path : List String)
    (hlight : h.GetOpinionForKey opinions.Light path ≠ .null) :
    addLightOpinion h opinions props k path
      = h.insertConfig props k.Name (h.GetOpinionForKey opinions.Light path) := by
  unfold addLightOpinion
  split
  · next hnull => exact absurd hnull hlight
  · rfl

theorem subtractDarkOpinion_present (h : Helpers) (opinions : Opinions) (props : Config)
    (path : List String) (hdark : h.GetOpinionForKey opinions.Dark path ≠ .null) :
    subtractDarkOpinion h opinions props path
      = deleteConfig props path (h.GetOpinionForKey opinions.Dark path) := by
  unfold subtractDarkOpinion
  split
  · next hnull => exact absurd hnull hdark
  · rfl

/-- C6 (light before dark).  Let the helpers be such that a resolved key path
is never empty and that, after an insertion without error, the path of the
key holds the inserted value.  For every tree and every unique key with a
light and a dark opinion, processing the key is the insertion of the light
opinion followed, when it returned without error, by the subtraction of the
dark opinion from the tree so obtained.  When moreover the dark opinion is
not a nested tree, the subtraction returns without error whenever the
insertion did, and the tree obtained after the key is processed has no entry
at the path of the key. -/
theorem applyOpinion_light_before_dark (h : Helpers)
    (hpath : ∀ name path, h.getKeyGrams name = .ok path → path ≠ [])
    (hinsert : ∀ props name value props1 path, h.getKeyGrams name = .ok path →
      h.insertConfig props name value = .returned props1 none →
      getPath props1 path = some value)
    (opinions : Opinions) (props : Config) (k : ReleaseConfig) (path : List String)
    (hkey : h.getKeyGrams k.Name = .ok path)
    (hlight : h.GetOpinionForKey opinions.Light path ≠ .null)
    (hdark : h.GetOpinionForKey opinions.Dark path ≠ .null) :
    applyOpinion h opinions props k
        = (match h.insertConfig props k.Name (h.GetOpinionForKey opinions.Light path) with
          | .returned props1 none =>
            deleteConfig props1 path (h.GetOpinionForKey opinions.Dark path)
          | .returned props1 (some err) => .returned props1 (some err)
          | .panicked cause => .panicked cause)
      ∧ ((∀ m, h.GetOpinionForKey opinions.Dark path ≠ .imap m) →
        (∀ props1,
            h.insertConfig props k.Name (h.GetOpinionForKey opinions.Light path)
              = .returned props1 none →
            ∃ props2, applyOpinion h opinions props k = .returned props2 none
              ∧ getPath props2 path = none)
          ∧ (∀ props2, applyOpinion h opinions props k = .returned props2 none →
            getPath props2 path = none)) := by
  have horder : applyOpinion h opinions props k
      = (match h.insertConfig props k.Name (h.GetOpinionForKey opinions.Light path) with
        | .returned props1 none =>
          deleteConfig props1 path (h.GetOpinionForKey opinions.Dark path)
        | .returned props1 (some err) => .returned props1 (some err)
        | .panicked cause => .panicked cause) := by
    simp only [applyOpinion, hkey, addLightOpinion_present h opinions props k path hlight]
    cases h.insertConfig props k.Name (h.GetOpinionForKey opinions.Light path) with
    | panicked => rfl
    | returned props1 err =>
      cases err with
      | none => exact subtractDarkOpinion_present h opinions props1 path hdark
      | some e => rfl
  have hne := hpath k.Name path hkey
  have hfull : ∀ props1, (∀ m, h.GetOpinionForKey opinions.Dark path ≠ .imap m) →
      h.insertConfig props k.Name (h.GetOpinionForKey opinions.Light path)
        = .returned props1 none →
      ∃ props2, applyOpinion h opinions props k = .returned props2 none
        ∧ getPath props2 path = none := by
    intro props1 htree hins
    obtain ⟨parent, hparent⟩ := getPath_parent props1 path _ hne
      (hinsert props k.Name _ props1 path hkey hins)
    obtain ⟨props2, hrun, _, habsent, _⟩ :=
      deleteConfigWalk_full (String.intercalate "." path) _ htree path hne props1 parent hparent
    refine ⟨props2, ?_, habsent⟩
    rw [horder, hins]
    cases path with
    | nil => exact absurd rfl hne
    | cons k1 rest => exact hrun
  refine ⟨horder, fun htree => ⟨fun props1 hins => hfull props1 htree hins, ?_⟩⟩
  intro props2 hret
  cases hins : h.insertConfig props k.Name (h.GetOpinionForKey opinions.Light path) with
  | panicked =>
    rw [horder, hins] at hret
    cases hret
  | returned props1 err =>
    cases err with
    | some e =>
      rw [horder, hins] at hret
      cases hret
    | none =>
      obtain ⟨props3, hrun, habsent⟩ := hfull props1 htree hins
      rw [hrun] at hret
      simp only [Run.returned.injEq, and_true] at hret
      subst hret
      exact habsent

/-- C6, witness: the key `a.b` with the light opinion `7` and the dark opinion
`"marker"`, processed on the tree `{a:{b:1,c:2}}`, leaves `{a:{c:2}}`. -/
theorem applyOpinion_light_before_dark_witness :
    applyOpinion specHelpers
        ⟨[(.str "a", .imap [(.str "b", .num 7)])], [(.str "a", .imap [(.str "b", .str "marker")])]⟩
        [("a", .smap [("b", .num 1), ("c", .num 2)])] ⟨"a.b"⟩
        = .returned [("a", .smap [("c", .num 2)])] none
      ∧ getPath [("a", .smap [("c", .num 2)])] ["a", "b"] = none :=
  have hrun : applyOpinion specHelpers
      ⟨[(.str "a", .imap [(.str "b", .num 7)])], [(.str "a", .imap [(.str "b", .str "marker")])]⟩
      [("a", .smap [("b", .num 1), ("c", .num 2)])] ⟨"a.b"⟩
      = .returned [("a", .smap [("c", .num 2)])] none := rfl
  ⟨hrun,
    ((applyOpinion_light_before_dark specHelpers specGetKeyGrams_ne_nil
        (fun props name value props1 path hkey hins =>
          specInsertConfig_post props props1 name value path hkey hins)
        ⟨[(.str "a", .imap [(.str "b", .num 7)])],
          [(.str "a", .imap [(.str "b", .str "marker")])]⟩
        [("a", .smap [("b", .num 1), ("c", .num 2)])] ⟨"a.b"⟩ ["a", "b"] rfl
        (by simp [specHelpers, specGetOpinionForKey, yamlGet])
        (by simp [specHelpers, specGetOpinionForKey, yamlGet])).2
      (by simp [specHelpers, specGetOpinionForKey, yamlGet])).2 _ hrun⟩

/-! ## Keys that do not interfere -/

theorem diverge_split : ∀ (p q : List String), diverge p q = true →
    ∃ pre s x rp rq, p = pre ++ s :: rp ∧ q = pre ++ x :: rq ∧ s ≠ x := by
  intro p
  induction p with
  | nil => intro q h; simp [diverge] at h
  | cons a p ih =>
    intro q h
    cases q with
    | nil => simp [diverge] at h
    | cons b q =>
      by_cases hab : a = b
      · subst hab
        simp only [diverge, if_true] at h
        obtain ⟨pre, s, x, rp, rq, hp, hq, hne⟩ := ih q h
        exact ⟨a :: pre, s, x, rp, rq, by simp [hp], by simp [hq], hne⟩
      · exact ⟨[], a, b, p, q, rfl, rfl, hab⟩

/-- From the siblings to every path that diverges: what leaves the siblings of
the segments of `path2` alone leaves alone the entry at every path that
diverges from `path2`. -/
theorem getPath_of_sibling_frame (t r : Config) (path2 path : List String)
    (hframe : ∀ (pre : List String) (x : String) (rest : List String) (s : String),
      path2 = pre ++ x :: rest → s ≠ x → getPath r (pre ++ [s]) = getPath t (pre ++ [s]))
    (hdiv : diverge path2 path = true) : getPath r path = getPath t path := by
  obtain ⟨pre, x, s, rest, more, h2, h1, hne⟩ := diverge_split path2 path hdiv
  subst h1
  have hsplit : pre ++ s :: more = (pre ++ [s]) ++ more := by simp
  rw [hsplit, getPath_append r (pre ++ [s]) more, getPath_append t (pre ++ [s]) more,
    hframe pre x rest s h2 (Ne.symm hne)]

theorem deleteConfig_frame_diverge (t r : Config) (path2 path : List String) (value : Value)
    (hrun : deleteConfig t path2 value = .returned r none)
    (hdiv : diverge path2 path = true) : getPath r path = getPath t path := by
  cases path2 with
  | nil => simp [deleteConfig] at hrun
  | cons k rest =>
    rw [deleteConfig_cons] at hrun
    exact getPath_of_sibling_frame t r (k :: rest) path
      (deleteConfigWalk_frame _ value (k :: rest) t r none hrun) hdiv

theorem specInsertConfig_frame_diverge (t r : Config) (name : String) (value : Value)
    (path2 path : List String) (hkey : specGetKeyGrams name = .ok path2)
    (hrun : specInsertConfig t name value = .returned r none)
    (hdiv : diverge path2 path = true) : getPath r path = getPath t path := by
  simp only [specInsertConfig, hkey] at hrun
  exact getPath_of_sibling_frame t r path2 path
    (specInsertWalk_frame name value path2 t r none hrun) hdiv

theorem specInsertConfig_resolves (t r : Config) (name : String) (value : Value)
    (hrun : specInsertConfig t name value = .returned r none) :
    ∃ path, specGetKeyGrams name = .ok path := by
  unfold specInsertConfig at hrun
  cases hkey : specGetKeyGrams name with
  | error e => simp [hkey] at hrun
  | ok path => exact ⟨path, rfl⟩

/-- A unique key that has no opinion, or whose path diverges from `path`,
leaves the entry at `path` as it was. -/
theorem applyOpinion_frame_diverge (opinions : Opinions) (t r : Config) (k : ReleaseConfig)
    (path : List String) (hrun : applyOpinion specHelpers opinions t k = .returned r none)
    (hfree : ∀ path2, specGetKeyGrams k.Name = .ok path2 →
      (specGetOpinionForKey opinions.Light path2 = .null
          ∧ specGetOpinionForKey opinions.Dark path2 = .null)
        ∨ diverge path2 path = true) :
    getPath r path = getPath t path := by
  cases hkey : specGetKeyGrams k.Name with
  | error e => simp [applyOpinion, specHelpers, hkey] at hrun
  | ok path2 =>
    have hkey2 : specHelpers.getKeyGrams k.Name = .ok path2 := hkey
    rcases hfree path2 hkey with ⟨hl, hd⟩ | hdiv
    · rw [applyOpinion_no_opinion specHelpers opinions t k path2 hkey2 hl hd] at hrun
      simp only [Run.returned.injEq, and_true] at hrun
      rw [hrun]
    · simp only [applyOpinion, hkey2] at hrun
      cases hadd : addLightOpinion specHelpers opinions t k path2 with
      | panicked => simp [hadd] at hrun
      | returned t1 err =>
        cases err with
        | some e => simp [hadd] at hrun
        | none =>
          simp only [hadd] at hrun
          have h1 : getPath t1 path = getPath t path := by
            unfold addLightOpinion at hadd
            split at hadd
            · simp only [Run.returned.injEq, and_true] at hadd
              rw [hadd]
            · exact specInsertConfig_frame_diverge t t1 k.Name _ path2 path hkey hadd hdiv
          have h2 : getPath r path = getPath t1 path := by
            unfold subtractDarkOpinion at hrun
            split at hrun
            · simp only [Run.returned.injEq, and_true] at hrun
              rw [hrun]
            · exact deleteConfig_frame_diverge t1 r path2 path _ hrun hdiv
          rw [h2, h1]

theorem applyOpinions_cons_inv (h : Helpers) (opinions : Opinions) (t r : Config)
    (k : ReleaseConfig) (rest : List ReleaseConfig)
    (hrun : applyOpinions h opinions t (k :: rest) = .returned r none) :
    ∃ t1, applyOpinion h opinions t k = .returned t1 none
      ∧ applyOpinions h opinions t1 rest = .returned r none := by
  simp only [applyOpinions] at hrun
  cases hstep : applyOpinion h opinions t k with
  | panicked => simp [hstep] at hrun
  | returned t1 err =>
    cases err with
    | some e => simp [hstep] at hrun
    | none =>
      simp only [hstep] at hrun
      exact ⟨t1, rfl, hrun⟩

theorem insertProperties_cons_inv (h : Helpers) (t r : Config) (p : JobProperty)
    (rest : List JobProperty)
    (hrun : insertProperties h t (p :: rest) = .returned r none) :
    ∃ t1, h.insertConfig t p.Name p.Default = .returned t1 none
      ∧ insertProperties h t1 rest = .returned r none := by
  simp only [insertProperties] at hrun
  cases hstep : h.insertConfig t p.Name p.Default with
  | panicked => simp [hstep] at hrun
  | returned t1 err =>
    cases err with
    | some e => simp [hstep] at hrun
    | none =>
      simp only [hstep] at hrun
      exact ⟨t1, rfl, hrun⟩

theorem applyOpinions_frame_diverge (opinions : Opinions) (path : List String) :
    ∀ (keys : List ReleaseConfig) (t r : Config),
      applyOpinions specHelpers opinions t keys = .returned r none →
      (∀ k ∈ keys, ∀ path2, specGetKeyGrams k.Name = .ok path2 →
        (specGetOpinionForKey opinions.Light path2 = .null
            ∧ specGetOpinionForKey opinions.Dark path2 = .null)
          ∨ diverge path2 path = true) →
      getPath r path = getPath t path := by
  intro keys
  induction keys with
  | nil =>
    intro t r hrun _
    simp only [applyOpinions, Run.returned.injEq, and_true] at hrun
    rw [hrun]
  | cons k rest ih =>
    intro t r hrun hfree
    obtain ⟨t1, hstep, hrest⟩ := applyOpinions_cons_inv specHelpers opinions t r k rest hrun
    rw [ih t1 r hrest (fun k2 hm => hfree k2 (List.mem_cons_of_mem _ hm))]
    exact applyOpinion_frame_diverge opinions t t1 k path hstep
      (hfree k (List.mem_cons_self _ _))

theorem insertProperties_frame_diverge (path : List String) :
    ∀ (ps : List JobProperty) (t r : Config),
      insertProperties specHelpers t ps = .returned r none →
      (∀ p ∈ ps, ∀ path2, specGetKeyGrams p.Name = .ok path2 → diverge path2 path = true) →
      getPath r path = getPath t path := by
  intro ps
  induction ps with
  | nil =>
    intro t r hrun _
    simp only [insertProperties, Run.returned.injEq, and_true] at hrun
    rw [hrun]
  | cons p rest ih =>
    intro t r hrun hfree
    obtain ⟨t1, hstep, hrest⟩ := insertProperties_cons_inv specHelpers t r p rest hrun
    rw [ih t1 r hrest (fun p2 hm => hfree p2 (List.mem_cons_of_mem _ hm))]
    have hstep2 : specInsertConfig t p.Name p.Default = .returned t1 none := hstep
    obtain ⟨path2, hkey⟩ := specInsertConfig_resolves t t1 p.Name p.Default hstep2
    exact specInsertConfig_frame_diverge t t1 p.Name p.Default path2 path hkey hstep2
      (hfree p (List.mem_cons_self _ _) path2 hkey)

theorem applyOpinions_split_inv (h : Helpers) (opinions : Opinions) (t r : Config)
    (ks1 ks2 : List ReleaseConfig) (k : ReleaseConfig)
    (hrun : applyOpinions h opinions t (ks1 ++ k :: ks2) = .returned r none) :
    ∃ t1 t2, applyOpinions h opinions t ks1 = .returned t1 none
      ∧ applyOpinion h opinions t1 k = .returned t2 none
      ∧ applyOpinions h opinions t2 ks2 = .returned r none := by
  rw [applyOpinions_append] at hrun
  cases hbefore : applyOpinions h opinions t ks1 with
  | panicked => simp [hbefore] at hrun
  | returned t1 err =>
    cases err with
    | some e => simp [hbefore] at hrun
    | none =>
      simp only [hbefore] at hrun
      obtain ⟨t2, hstep, hrest⟩ := applyOpinions_cons_inv h opinions t1 r k ks2 hrun
      exact ⟨t1, t2, rfl, hstep, hrest⟩

theorem insertProperties_split_inv (h : Helpers) (t r : Config)
    (ps1 ps2 : List JobProperty) (p : JobProperty)
    (hrun : insertProperties h t (ps1 ++ p :: ps2) = .returned r none) :
    ∃ t1 t2, insertProperties h t ps1 = .returned t1 none
      ∧ h.insertConfig t1 p.Name p.Default = .returned t2 none
      ∧ insertProperties h t2 ps2 = .returned r none := by
  rw [insertProperties_append] at hrun
  cases hbefore : insertProperties h t ps1 with
  | panicked => simp [hbefore] at hrun
  | returned t1 err =>
    cases err with
    | some e => simp [hbefore] at hrun
    | none =>
      simp only [hbefore] at hrun
      obtain ⟨t2, hstep, hrest⟩ := insertProperties_cons_inv h t1 r p ps2 hrun
      exact ⟨t1, t2, rfl, hstep, hrest⟩

theorem getPropertiesForJob_returned_inv (h : Helpers) (job : Job) (allProps : Config)
    (opinions : Opinions) (tree : Config)
    (hret : getPropertiesForJob h job allProps opinions = .returned (some tree) none) :
    ∃ clone withDefaults, h.deepCopy allProps = .ok clone
      ∧ insertProperties h clone job.Properties = .returned withDefaults none
      ∧ applyOpinions h opinions withDefaults job.UniqueConfigs = .returned tree none := by
  unfold getPropertiesForJob at hret
  split at hret
  · cases hret
  · next clone hclone =>
    split at hret
    · cases hret
    · cases hret
    · next withDefaults hdefaults =>
      split at hret
      · cases hret
      · cases hret
      · next props2 hops =>
        simp only [Outcome.returned.injEq, Option.some.injEq, and_true] at hret
        subst hret
        exact ⟨clone, withDefaults, hclone, hdefaults, hops⟩

/-! ## Claims on the layers -/

/-- C7, counterexample: the job declares `a.b` with default `1` and then `a`
with default `2`; there is no opinion at all.  The returned tree is `{a:2}`:
the declared property `a.b` without opinion does not have its default. -/
theorem getPropertiesForJob_layer_precedence_counterexample :
    getPropertiesForJob specHelpers
        { Properties := [⟨"a.b", .num 1⟩, ⟨"a", .num 2⟩], UniqueConfigs := [] } [] ⟨[], []⟩
        = .returned (some [("a", .num 2)]) none
      ∧ specGetKeyGrams "a.b" = .ok ["a", "b"]
      ∧ getPath [("a", .num 2)] ["a", "b"] = none :=
  ⟨rfl, rfl, rfl⟩

/-- C7 (layer precedence), amended.  With the helpers of the specification,
let `getPropertiesForJob` return a tree.  The declared defaults are inserted
into the clone before any opinion is applied (the tree is the result of the
opinions on the result of the defaults on the clone).  For every unique key
with a light opinion and no dark opinion, such that every unique key
processed after it has no opinion or a path that diverges from its path, the
returned tree holds the light opinion at its path, whatever default was
declared.  For every declared property such that every property declared
after it has a path that diverges from its path, and every unique key has no
opinion or a path that diverges from its path, the returned tree holds the
declared default at its path, whatever the base tree held. -/
theorem getPropertiesForJob_layer_precedence (job : Job) (allProps : Config)
    (opinions : Opinions) (tree : Config)
    (hret : getPropertiesForJob specHelpers job allProps opinions = .returned (some tree) none) :
    (∃ withDefaults,
        insertProperties specHelpers allProps job.Properties = .returned withDefaults none
          ∧ applyOpinions specHelpers opinions withDefaults job.UniqueConfigs
            = .returned tree none)
      ∧ (∀ (ks1 : List ReleaseConfig) (k : ReleaseConfig) (ks2 : List ReleaseConfig)
          (path : List String),
        job.UniqueConfigs = ks1 ++ k :: ks2 → specGetKeyGrams k.Name = .ok path →
        specGetOpinionForKey opinions.Light path ≠ .null →
        specGetOpinionForKey opinions.Dark path = .null →
        (∀ k2 ∈ ks2, ∀ path2, specGetKeyGrams k2.Name = .ok path2 →
          (specGetOpinionForKey opinions.Light path2 = .null
              ∧ specGetOpinionForKey opinions.Dark path2 = .null)
            ∨ diverge path2 path = true) →
        getPath tree path = some (specGetOpinionForKey opinions.Light path))
      ∧ (∀ (ps1 : List JobProperty) (p : JobProperty) (ps2 : List JobProperty)
          (path : List String),
        job.Properties = ps1 ++ p :: ps2 → specGetKeyGrams p.Name = .ok path →
        (∀ p2 ∈ ps2, ∀ path2, specGetKeyGrams p2.Name = .ok path2 →
          diverge path2 path = true) →
        (∀ k ∈ job.UniqueConfigs, ∀ path2, specGetKeyGrams k.Name = .ok path2 →
          (specGetOpinionForKey opinions.Light path2 = .null
              ∧ specGetOpinionForKey opinions.Dark path2 = .null)
            ∨ diverge path2 path = true) →
        getPath tree path = some p.Default) := by
  obtain ⟨clone, withDefaults, hclone, hdefaults, hops⟩ :=
    getPropertiesForJob_returned_inv specHelpers job allProps opinions tree hret
  have hc : clone = allProps := by
    simp only [specHelpers, specDeepCopy, Except.ok.injEq] at hclone
    exact hclone.symm
  subst hc
  refine ⟨⟨withDefaults, hdefaults, hops⟩, ?_, ?_⟩
  · intro ks1 k ks2 path hsplit hkey hlight hdark hlater
    rw [hsplit] at hops
    obtain ⟨t1, t2, _, hstep, hrest⟩ :=
      applyOpinions_split_inv specHelpers opinions withDefaults tree ks1 ks2 k hops
    rw [applyOpinions_frame_diverge opinions path ks2 t2 tree hrest hlater]
    have hkey2 : specHelpers.getKeyGrams k.Name = .ok path := hkey
    have hl2 : specHelpers.GetOpinionForKey opinions.Light path ≠ .null := hlight
    have hd2 : specHelpers.GetOpinionForKey opinions.Dark path = .null := hdark
    simp only [applyOpinion, hkey2,
      addLightOpinion_present specHelpers opinions t1 k path hl2] at hstep
    cases hins : specHelpers.insertConfig t1 k.Name
        (specHelpers.GetOpinionForKey opinions.Light path) with
    | panicked => simp [hins] at hstep
    | returned t3 err =>
      cases err with
      | some e => simp [hins] at hstep
      | none =>
        simp only [hins, subtractDarkOpinion, hd2, Run.returned.injEq, and_true] at hstep
        subst hstep
        exact specInsertConfig_post t1 t3 k.Name _ path hkey hins
  · intro ps1 p ps2 path hsplit hkey hlater hkeys
    rw [hsplit] at hdefaults
    obtain ⟨t1, t2, _, hstep, hrest⟩ :=
      insertProperties_split_inv specHelpers clone withDefaults ps1 ps2 p hdefaults
    rw [applyOpinions_frame_diverge opinions path job.UniqueConfigs withDefaults tree hops hkeys,
      insertProperties_frame_diverge path ps2 t2 withDefaults hrest hlater]
    exact specInsertConfig_post t1 t2 p.Name p.Default path hkey hstep

/-- C7, witness: base tree `{nats:{user:"base"}}`, declared defaults
`nats.user = "default"` and `nats.port = 4222`, unique keys `nats.user` (light
opinion `"light"`, no dark opinion) and `nats.port` (no opinion).  The result
holds `"light"` at `nats.user` and `4222` at `nats.port`. -/
theorem getPropertiesForJob_layer_precedence_witness :
    getPropertiesForJob specHelpers
        { Properties := [⟨"nats.user", .str "default"⟩, ⟨"nats.port", .num 4222⟩],
          UniqueConfigs := [⟨"nats.user"⟩, ⟨"nats.port"⟩] }
        [("nats", .smap [("user", .str "base")])]
        ⟨[(.str "nats", .imap [(.str "user", .str "light")])], []⟩
        = .returned (some [("nats", .smap [("user", .str "light"), ("port", .num 4222)])]) none
      ∧ getPath [("nats", .smap [("user", .str "light"), ("port", .num 4222)])] ["nats", "user"]
        = some (.str "light")
      ∧ getPath [("nats", .smap [("user", .str "light"), ("port", .num 4222)])] ["nats", "port"]
        = some (.num 4222) :=
  have hret : getPropertiesForJob specHelpers
      { Properties := [⟨"nats.user", .str "default"⟩, ⟨"nats.port", .num 4222⟩],
        UniqueConfigs := [⟨"nats.user"⟩, ⟨"nats.port"⟩] }
      [("nats", .smap [("user", .str "base")])]
      ⟨[(.str "nats", .imap [(.str "user", .str "light")])], []⟩
      = .returned (some [("nats", .smap [("user", .str "light"), ("port", .num 4222)])]) none :=
    rfl
  have hall := getPropertiesForJob_layer_precedence _ _ _ _ hret
  have huser : ∀ path2, specGetKeyGrams "nats.user" = .ok path2 → path2 = ["nats", "user"] := by
    intro path2 hkey
    have h3 : specGetKeyGrams "nats.user" = .ok ["nats", "user"] := rfl
    rw [h3] at hkey
    simp only [Except.ok.injEq] at hkey
    exact hkey.symm
  have hport : ∀ path2, specGetKeyGrams "nats.port" = .ok path2 → path2 = ["nats", "port"] := by
    intro path2 hkey
    have h3 : specGetKeyGrams "nats.port" = .ok ["nats", "port"] := rfl
    rw [h3] at hkey
    simp only [Except.ok.injEq] at hkey
    exact hkey.symm
  ⟨hret,
    hall.2.1 [] ⟨"nats.user"⟩ [⟨"nats.port"⟩] ["nats", "user"] rfl rfl
      (by simp [specGetOpinionForKey, yamlGet]) rfl
      (by
        intro k2 hm path2 hkey
        simp only [List.mem_singleton] at hm
        subst hm
        have h2 := hport path2 hkey
        subst h2
        exact Or.inr rfl),
    hall.2.2 [⟨"nats.user", .str "default"⟩] ⟨"nats.port", .num 4222⟩ [] ["nats", "port"]
      rfl rfl (by intro p2 hm; simp at hm)
      (by
        intro k hm path2 hkey
        simp only [List.mem_cons, List.mem_singleton, List.not_mem_nil, or_false] at hm
        rcases hm with rfl | rfl
        · have h2 := huser path2 hkey
          subst h2
          exact Or.inr rfl
        · have h2 := hport path2 hkey
          subst h2
          exact Or.inl ⟨rfl, rfl⟩)⟩

/-! ## The loop over the unique keys, one step -/

theorem applyOpinions_cons_ok (h : Helpers) (opinions : Opinions) (t t1 : Config)
    (k : ReleaseConfig) (rest : List ReleaseConfig)
    (hstep : applyOpinion h opinions t k = .returned t1 none) :
    applyOpinions h opinions t (k :: rest) = applyOpinions h opinions t1 rest := by
  simp [applyOpinions, hstep]

/-! ## Claims on the failures of `deleteConfig` -/

/-- A partial subtraction whose difference leaves the target tree as it is
leaves the whole tree as it is. -/
theorem deleteConfigWalk_partial_same (joined : String) (d : YamlMap) (t : Config)
    (hrun : configMapDifference t d = some t) :
    ∀ (path : List String) (config : Config), path ≠ [] →
      getPath config path = some (.smap t) →
      deleteConfigWalk joined (.imap d) config path = .returned config none := by
  intro path
  induction path with
  | nil => intro config hne; exact absurd rfl hne
  | cons k rest ih =>
    intro config _ hpath
    cases rest with
    | nil =>
      rw [getPath_single] at hpath
      rw [deleteConfigWalk_single_tree joined d config t t k hpath hrun,
        mapSet_eq_self config k _ hpath]
    | cons k2 rest2 =>
      rw [getPath_cons] at hpath
      cases hg : mapGet config k with
      | none => simp [hg] at hpath
      | some v =>
        simp only [hg, Option.some_bind] at hpath
        obtain ⟨child, rfl⟩ := follow_cons_isSome_smap v k2 rest2 _ hpath
        rw [deleteConfigWalk_step joined _ config child k k2 rest2 hg,
          ih child (by simp) hpath]
        simp only
        rw [mapSet_eq_self config k _ hg]

/-- Where the path leads to a nested tree, the empty dark tree removes
nothing: no error, and the tree is as it was. -/
theorem deleteConfig_empty_tree_on_tree (config t : Config) (path : List String)
    (hne : path ≠ []) (ht : getPath config path = some (.smap t)) :
    deleteConfig config path (.imap []) = .returned config none := by
  cases path with
  | nil => exact absurd rfl hne
  | cons k rest =>
    rw [deleteConfig_cons]
    exact deleteConfigWalk_partial_same _ [] t (configMapDifference_nil t) (k :: rest) config
      hne ht

/-- C11 (empty-tree dark opinion), the code at the failing input: the path
`a` resolves in `{a:1}`, to a number; `deleteConfig` with the empty nested
tree as dark value does not return, the assertion
`config[lastKey].(map[string]interface{})` fails.  Where the path holds a
nested tree, as in `{a:{b:1}}`, the call returns no error and the tree is
unchanged. -/
theorem deleteConfig_empty_tree_on_scalar :
    getPath [("a", .num 1)] ["a"] = some (.num 1)
      ∧ deleteConfig [("a", .num 1)] ["a"] (.imap []) = .panicked .typeAssertion
      ∧ deleteConfig [("a", .smap [("b", .num 1)])] ["a"] (.imap [])
        = .returned [("a", .smap [("b", .num 1)])] none :=
  ⟨rfl, rfl,
    deleteConfig_empty_tree_on_tree [("a", .smap [("b", .num 1)])] [("b", .num 1)] ["a"]
      (by simp) rfl⟩

/-- C12 (only caller-visible failures), the code at the failing inputs: with a
nested tree as dark value, `deleteConfig` does not return when the entry at
the last segment is absent (`{}`, path `a`), when it is not a nested tree
(`{a:"x"}`, path `a`), or when a nested key named by the value is not a nested
tree (`{a:{b:"x"}}`, value `{b:{c:"m"}}`). -/
theorem deleteConfig_failed_assertion :
    deleteConfig [] ["a"] (.imap [(.str "b", .str "m")]) = .panicked .typeAssertion
      ∧ deleteConfig [("a", .str "x")] ["a"] (.imap [(.str "b", .str "m")])
        = .panicked .typeAssertion
      ∧ deleteConfig [("a", .smap [("b", .str "x")])] ["a"]
          (.imap [(.str "b", .imap [(.str "c", .str "m")])]) = .panicked .typeAssertion := by
  refine ⟨rfl, rfl, ?_⟩
  simp [deleteConfig, deleteConfigWalk, configMapDifference, mapGet]

/-- A panic of the walk along a non-empty path is a failed type assertion,
with a nested tree as value. -/
theorem deleteConfigWalk_panic_cause (joined : String) (value : Value) :
    ∀ (path : List String) (config : Config) (cause : Panic), path ≠ [] →
      deleteConfigWalk joined value config path = .panicked cause →
      cause = .typeAssertion ∧ ∃ d, value = .imap d := by
  intro path
  induction path with
  | nil => intro config cause hne; exact absurd rfl hne
  | cons k rest ih =>
    intro config cause _ h
    cases rest with
    | nil =>
      cases value with
      | imap d =>
        simp only [deleteConfigWalk] at h
        split at h
        · split at h
          · simp at h
          · simp only [Run.panicked.injEq] at h
            exact ⟨h.symm, d, rfl⟩
        · simp only [Run.panicked.injEq] at h
          exact ⟨h.symm, d, rfl⟩
      | _ => simp [deleteConfigWalk] at h
    | cons k2 rest2 =>
      by_cases hk : ∃ child, mapGet config k = some (.smap child)
      · obtain ⟨child, hc⟩ := hk
        rw [deleteConfigWalk_step joined value config child k k2 rest2 hc] at h
        cases hrun : deleteConfigWalk joined value child (k2 :: rest2) with
        | returned child1 err => simp [hrun] at h
        | panicked cause2 =>
          simp only [hrun, Run.panicked.injEq] at h
          subst h
          exact ih child cause2 (by simp) hrun
      · rw [deleteConfigWalk_stop joined value config k k2 rest2
          (fun child hc => hk ⟨child, hc⟩)] at h
        simp at h

/-- The mutator of the specification does not panic. -/
theorem specInsertWalk_returns (joined : String) (value : Value) :
    ∀ (path : List String) (config : Config),
      ∃ config1 err, specInsertWalk joined value config path = .returned config1 err := by
  intro path
  induction path with
  | nil => intro config; exact ⟨config, none, rfl⟩
  | cons k rest ih =>
    intro config
    cases rest with
    | nil => exact ⟨_, none, rfl⟩
    | cons k2 rest2 =>
      rcases specInsertWalk_cases joined value config k k2 rest2 with
        ⟨child, _, hrun⟩ | ⟨_, hrun⟩
      · obtain ⟨child1, err, hchild⟩ := ih child
        rw [hchild] at hrun
        exact ⟨_, err, hrun⟩
      · exact ⟨_, _, hrun⟩

theorem specInsertConfig_returns (config : Config) (name : String) (value : Value) :
    ∃ config1 err, specInsertConfig config name value = .returned config1 err := by
  unfold specInsertConfig
  cases specGetKeyGrams name with
  | error e => exact ⟨config, some e, rfl⟩
  | ok path => exact specInsertWalk_returns name value path config

/-- With a resolver that returns no empty key path and a mutator that does not
index out of range, the loop over the defaults does not index out of
range. -/
theorem insertProperties_in_range (h : Helpers)
    (hins : ∀ c n v, h.insertConfig c n v ≠ .panicked .outOfRange) :
    ∀ (ps : List JobProperty) (props : Config),
      insertProperties h props ps ≠ .panicked .outOfRange := by
  intro ps
  induction ps with
  | nil => intro props hcontra; simp [insertProperties] at hcontra
  | cons p rest ih =>
    intro props hcontra
    rw [insertProperties] at hcontra
    cases hstep : h.insertConfig props p.Name p.Default with
    | panicked cause =>
      simp only [hstep, Run.panicked.injEq] at hcontra
      subst hcontra
      exact hins _ _ _ hstep
    | returned props1 err =>
      cases err with
      | none =>
        simp only [hstep] at hcontra
        exact ih props1 hcontra
      | some e => simp [hstep] at hcontra

/-- With such helpers, processing one key does not index out of range. -/
theorem applyOpinion_in_range (h : Helpers)
    (hkeys : ∀ name path, h.getKeyGrams name = .ok path → path ≠ [])
    (hins : ∀ c n v, h.insertConfig c n v ≠ .panicked .outOfRange)
    (opinions : Opinions) (props : Config) (k : ReleaseConfig) :
    applyOpinion h opinions props k ≠ .panicked .outOfRange := by
  intro hcontra
  unfold applyOpinion at hcontra
  cases hkey : h.getKeyGrams k.Name with
  | error e => simp [hkey] at hcontra
  | ok path =>
    have hne := hkeys _ _ hkey
    simp only [hkey] at hcontra
    cases hadd : addLightOpinion h opinions props k path with
    | panicked cause =>
      simp only [hadd, Run.panicked.injEq] at hcontra
      subst hcontra
      unfold addLightOpinion at hadd
      split at hadd
      · simp at hadd
      · exact hins _ _ _ hadd
    | returned props1 err =>
      cases err with
      | some e => simp [hadd] at hcontra
      | none =>
        simp only [hadd] at hcontra
        unfold subtractDarkOpinion at hcontra
        split at hcontra
        · simp at hcontra
        · cases path with
          | nil => exact hne rfl
          | cons seg rest =>
            rw [deleteConfig_cons] at hcontra
            have hcause := (deleteConfigWalk_panic_cause _ _ (seg :: rest) props1 .outOfRange
              (by simp) hcontra).1
            cases hcause

theorem applyOpinions_in_range (h : Helpers)
    (hkeys : ∀ name path, h.getKeyGrams name = .ok path → path ≠ [])
    (hins : ∀ c n v, h.insertConfig c n v ≠ .panicked .outOfRange)
    (opinions : Opinions) :
    ∀ (keys : List ReleaseConfig) (props : Config),
      applyOpinions h opinions props keys ≠ .panicked .outOfRange := by
  intro keys
  induction keys with
  | nil => intro props hcontra; simp [applyOpinions] at hcontra
  | cons k rest ih =>
    intro props hcontra
    rw [applyOpinions] at hcontra
    cases hstep : applyOpinion h opinions props k with
    | panicked cause =>
      simp only [hstep, Run.panicked.injEq] at hcontra
      subst hcontra
      exact applyOpinion_in_range h hkeys hins opinions props k hstep
    | returned props1 err =>
      cases err with
      | none =>
        simp only [hstep] at hcontra
        exact ih props1 hcontra
      | some e => simp [hstep] at hcontra

/-- C14, counterexample: on the empty key path `deleteConfig` does not return an
error; the slice expression `keyPieces[:len(keyPieces)-1]` is out of range. -/
theorem deleteConfig_empty_path_counterexample :
    deleteConfig [("a", .num 1)] [] (.str "m") = .panicked .outOfRange
      ∧ ¬ ∃ config1 err, deleteConfig [("a", .num 1)] [] (.str "m")
          = .returned config1 (some err) :=
  ⟨rfl, fun ⟨_, _, h⟩ => (by cases h)⟩

/-- C14 (zero-length key path), amended.  The subtractor has no guard of its
own; the empty key path is kept away from it.  On every non-empty key path
`deleteConfig` does not index outside the path: when it panics, the cause is
the failed type assertion, never the slice bound, and the value is a nested
tree; with a value that is not a nested tree it returns.  And with a resolver
that returns no empty key path (and a mutator that does not index out of
range), `getPropertiesForJob` never ends in the out-of-range panic: no empty
key path reaches `deleteConfig`. -/
theorem deleteConfig_nonempty_path_only :
    (∀ (config : Config) (path : List String) (value : Value) (cause : Panic), path ≠ [] →
        deleteConfig config path value = .panicked cause →
        cause = .typeAssertion ∧ ∃ d, value = .imap d)
      ∧ (∀ (config : Config) (path : List String) (value : Value), path ≠ [] →
          (∀ d, value ≠ .imap d) →
          ∃ config1 err, deleteConfig config path value = .returned config1 err)
      ∧ (∀ (h : Helpers) (job : Job) (allProps : Config) (opinions : Opinions),
          (∀ name path, h.getKeyGrams name = .ok path → path ≠ []) →
          (∀ c n v, h.insertConfig c n v ≠ .panicked .outOfRange) →
          getPropertiesForJob h job allProps opinions ≠ .panicked .outOfRange) := by
  have hcause : ∀ (config : Config) (path : List String) (value : Value) (cause : Panic),
      path ≠ [] → deleteConfig config path value = .panicked cause →
      cause = .typeAssertion ∧ ∃ d, value = .imap d := by
    intro config path value cause hne hp
    cases path with
    | nil => exact absurd rfl hne
    | cons k rest =>
      rw [deleteConfig_cons] at hp
      exact deleteConfigWalk_panic_cause _ value (k :: rest) config cause hne hp
  refine ⟨hcause, ?_, ?_⟩
  · intro config path value hne hv
    cases hrun : deleteConfig config path value with
    | returned config1 err => exact ⟨config1, err, rfl⟩
    | panicked cause =>
      obtain ⟨_, d, hd⟩ := hcause config path value cause hne hrun
      exact absurd hd (hv d)
  · intro h job allProps opinions hkeys hins hcontra
    unfold getPropertiesForJob at hcontra
    cases hcopy : h.deepCopy allProps with
    | error e => simp [hcopy] at hcontra
    | ok props =>
      simp only [hcopy] at hcontra
      cases hdef : insertProperties h props job.Properties with
      | panicked cause =>
        simp only [hdef, Outcome.panicked.injEq] at hcontra
        subst hcontra
        exact insertProperties_in_range h hins _ _ hdef
      | returned props1 err =>
        cases err with
        | some e => simp [hdef] at hcontra
        | none =>
          simp only [hdef] at hcontra
          cases hops : applyOpinions h opinions props1 job.UniqueConfigs with
          | panicked cause =>
            simp only [hops, Outcome.panicked.injEq] at hcontra
            subst hcontra
            exact applyOpinions_in_range h hkeys hins opinions _ _ hops
          | returned props2 err2 =>
            cases err2 <;> simp [hops] at hcontra

/-- C14, witness: on the path `a`, with the value `"m"`, `deleteConfig` returns
(here `{}` and no error); with the helpers of the specification the assembly
never ends in the out-of-range panic, and the unique key with the empty name
is rejected by the resolver, with an error and no tree, although a dark
opinion for `a` exists. -/
theorem deleteConfig_nonempty_path_only_witness :
    deleteConfig [("a", .num 1)] ["a"] (.str "m") = .returned [] none
      ∧ (∃ config1 err, deleteConfig [("a", .num 1)] ["a"] (.str "m") = .returned config1 err)
      ∧ getPropertiesForJob specHelpers { Properties := [], UniqueConfigs := [⟨""⟩] }
          [("a", .num 1)] ⟨[], [(.str "a", .str "m")]⟩
        = .returned none (some (.malformedKey ""))
      ∧ getPropertiesForJob specHelpers { Properties := [], UniqueConfigs := [⟨""⟩] }
          [("a", .num 1)] ⟨[], [(.str "a", .str "m")]⟩ ≠ .panicked .outOfRange :=
  ⟨rfl,
    deleteConfig_nonempty_path_only.2.1 [("a", .num 1)] ["a"] (.str "m") (by simp)
      (fun d hd => (by cases hd)),
    rfl,
    deleteConfig_nonempty_path_only.2.2 specHelpers _ _ _ specGetKeyGrams_ne_nil
      (fun c n v hp => (by
        obtain ⟨config1, err, hr⟩ := specInsertConfig_returns c n v
        have hp2 : specInsertConfig c n v = .panicked .outOfRange := hp
        rw [hr] at hp2
        cases hp2))⟩

/-- C15, counterexample: the units `nats` and `router` fail at the same key
`a.b` and get one and the same error, `The configuration key a.b does not
exist`: the error names the key path and no unit. -/
theorem deleteConfig_error_counterexample :
    deleteConfig [] ["a", "b"] (.str "m")
        = .returned [] (some (.configNotExist "The configuration key a.b does not exist"))
      ∧ getPropertiesForJob specHelpers
          { Properties := [], UniqueConfigs := [⟨"a.b"⟩], Name := "nats" } []
          ⟨[], [(.str "a", .imap [(.str "b", .str "m")])]⟩
        = .returned none (some (.configNotExist "The configuration key a.b does not exist"))
      ∧ getPropertiesForJob specHelpers
          { Properties := [], UniqueConfigs := [⟨"a.b"⟩], Name := "router" } []
          ⟨[], [(.str "a", .imap [(.str "b", .str "m")])]⟩
        = .returned none (some (.configNotExist "The configuration key a.b does not exist")) :=
  ⟨rfl, rfl, rfl⟩

/-- C15 (diagnostics of a failed subtract), amended.  For every failing call,
the error returned by `deleteConfig` is the key-does-not-exist error whose
message carries the offending key path, all segments of the path joined with
`.`; the message is made of the path alone. -/
theorem deleteConfig_error_message (config config1 : Config) (path : List String)
    (value : Value) (e : GoError)
    (h : deleteConfig config path value = .returned config1 (some e)) :
    e = .configNotExist
      ("The configuration key " ++ String.intercalate "." path ++ " does not exist") := by
  cases path with
  | nil => simp [deleteConfig] at h
  | cons k rest =>
    rw [deleteConfig_cons] at h
    exact (deleteConfigWalk_error _ value (k :: rest) config config1 e h).2

/-- C15, witness: the failed subtraction at `["nats","user","name"]` from
`{nats:{}}` returns the error for `nats.user.name`. -/
theorem deleteConfig_error_message_witness :
    deleteConfig [("nats", .smap [])] ["nats", "user", "name"] (.str "m")
        = .returned [("nats", .smap [])]
            (some (.configNotExist "The configuration key nats.user.name does not exist"))
      ∧ GoError.configNotExist "The configuration key nats.user.name does not exist"
        = .configNotExist ("The configuration key "
            ++ String.intercalate "." ["nats", "user", "name"] ++ " does not exist") :=
  ⟨rfl,
    deleteConfig_error_message [("nats", .smap [])] [("nats", .smap [])]
      ["nats", "user", "name"] (.str "m") _ rfl⟩

/-! ## Claims on the shape of a partial subtraction -/

/-- Every nested tree that the difference descends into is a nested tree
afterwards. -/
theorem configMapDifference_keeps_trees :
    ∀ (q : List String) (d d1 : YamlMap) (t r : Config),
      DistinctKeysDeep d → configMapDifference t d = some r → Reaches d q d1 →
      ∃ t2, (Value.smap r).follow q = some (.smap t2) := by
  intro q d d1 t r hd hrun hreach
  induction hreach generalizing t r with
  | here d => exact ⟨r, rfl⟩
  | step d k d2 q d3 mem tail ih =>
    cases hd with
    | intro _ distinct sub =>
      obtain ⟨_, _, hdesc⟩ := configMapDifference_inv d t r distinct hrun
      obtain ⟨t1, r1, _, hr1, hrk⟩ := hdesc k d2 mem
      rw [follow_smap_cons, hrk]
      exact ih t1 r1 (sub _ d2 mem) hr1

/-- C16 (partial subtraction never prunes).  Whenever `deleteConfig` returns no
error for a dark value that is a nested tree (a Go map, so with pairwise
different keys at every level), the entry at the last segment of the path is
a nested tree afterwards, and so is the entry below the path at every
sequence of keys along which the value holds nested trees. -/
theorem deleteConfig_never_prunes (config config1 : Config) (path : List String)
    (d : YamlMap) (hok : deleteConfig config path (.imap d) = .returned config1 none)
    (hd : DistinctKeysDeep d) :
    (∃ t1, getPath config1 path = some (.smap t1))
      ∧ (∀ (q : List String) (d1 : YamlMap), Reaches d q d1 →
          ∃ t2, getPath config1 (path ++ q) = some (.smap t2)) := by
  cases path with
  | nil => simp [deleteConfig] at hok
  | cons k rest =>
    rw [deleteConfig_cons] at hok
    obtain ⟨t, t1, _, hrun, hafter⟩ :=
      deleteConfigWalk_partial_inv _ d (k :: rest) config config1 hok
    refine ⟨⟨t1, hafter⟩, ?_⟩
    intro q d1 hreach
    rw [getPath_append, hafter]
    exact configMapDifference_keeps_trees q d d1 t t1 hd hrun hreach

/-- C16, witness: subtracting `("a", {b: "marker"})` from `{a:{b:1}}` yields
`{a:{}}`, not `{}`. -/
theorem deleteConfig_never_prunes_witness :
    deleteConfig [("a", .smap [("b", .num 1)])] ["a"] (.imap [(.str "b", .str "marker")])
        = .returned [("a", .smap [])] none
      ∧ ((∃ t1, getPath [("a", .smap [])] ["a"] = some (.smap t1))
        ∧ (∀ (q : List String) (d1 : YamlMap), Reaches [(.str "b", .str "marker")] q d1 →
            ∃ t2, getPath [("a", .smap [])] (["a"] ++ q) = some (.smap t2))) :=
  have hok : deleteConfig [("a", .smap [("b", .num 1)])] ["a"]
      (.imap [(.str "b", .str "marker")]) = .returned [("a", .smap [])] none := by
    simp [deleteConfig, deleteConfigWalk, configMapDifference, mapGet, mapSet, mapDelete]
  ⟨hok,
    deleteConfig_never_prunes _ _ ["a"] [(.str "b", .str "marker")] hok
      (DistinctKeysDeep.intro _ (by simp [DistinctKeys])
        (by intro key d1 hm; simp at hm))⟩

theorem configMapDifference_keys (d : YamlMap) :
    ∀ (t r : Config), configMapDifference t d = some r →
      ∀ key v, (key, v) ∈ d → ∃ k, key = Value.str k := by
  induction d with
  | nil => intro t r _ key v hm; simp at hm
  | cons e rest ih =>
    obtain ⟨key0, v0⟩ := e
    intro t r hrun key v hm
    by_cases hkey : ∃ k, key0 = .str k
    · rcases List.mem_cons.mp hm with heq | hin
      · simp only [Prod.mk.injEq] at heq
        rw [heq.1]
        exact hkey
      · obtain ⟨k, rfl⟩ := hkey
        by_cases hv : ∃ d1, v0 = .imap d1
        · obtain ⟨d1, rfl⟩ := hv
          by_cases hc : ∃ child, mapGet t k = some (.smap child)
          · obtain ⟨child, hc⟩ := hc
            rw [configMapDifference_cons_tree t child k d1 rest hc] at hrun
            cases hsub : configMapDifference child d1 with
            | none => simp [hsub] at hrun
            | some child1 =>
              simp only [hsub, Option.some_bind] at hrun
              exact ih _ r hrun key v hin
          · rw [configMapDifference_cons_tree_none t k d1 rest
              (fun child hcc => hc ⟨child, hcc⟩)] at hrun
            cases hrun
        · rw [configMapDifference_cons_leaf t k v0 rest (fun m hm2 => hv ⟨m, hm2⟩)] at hrun
          exact ih _ r hrun key v hin
    · rw [configMapDifference_cons_badkey t key0 v0 rest (fun k hk => hkey ⟨k, hk⟩)] at hrun
      cases hrun

/-- A run of `configMapDifference` over entries whose work is already done in
`r` returns `r`. -/
theorem configMapDifference_fixed (l : YamlMap) (r : Config)
    (hdone : ∀ key v, (key, v) ∈ l → ∃ k, key = Value.str k
      ∧ ((∀ m, v ≠ Value.imap m) → mapGet r k = none)
      ∧ (∀ d1, v = Value.imap d1 →
          ∃ r1, mapGet r k = some (.smap r1) ∧ configMapDifference r1 d1 = some r1)) :
    configMapDifference r l = some r := by
  induction l with
  | nil => exact configMapDifference_nil r
  | cons e rest ih =>
    obtain ⟨key, v⟩ := e
    obtain ⟨k, rfl, hleaf, htree⟩ := hdone key v (List.mem_cons_self _ _)
    have hrest := ih (fun key2 v2 hm => hdone key2 v2 (List.mem_cons_of_mem _ hm))
    by_cases hv : ∃ d1, v = .imap d1
    · obtain ⟨d1, rfl⟩ := hv
      obtain ⟨r1, hget, hrun⟩ := htree d1 rfl
      rw [configMapDifference_cons_tree r r1 k d1 rest hget, hrun, Option.some_bind,
        mapSet_eq_self r k _ hget]
      exact hrest
    · have hv2 : ∀ m, v ≠ .imap m := fun m hm => hv ⟨m, hm⟩
      rw [configMapDifference_cons_leaf r k v rest hv2, mapDelete_eq_self r k (hleaf hv2)]
      exact hrest

/-- The difference is idempotent: run again on its result, it returns the
result. -/
theorem configMapDifference_idem (d : YamlMap) (hd : DistinctKeysDeep d) :
    ∀ (t r : Config), configMapDifference t d = some r → configMapDifference r d = some r := by
  induction hd with
  | intro d distinct _ ih =>
    intro t r hrun
    obtain ⟨_, hdrop, hdesc⟩ := configMapDifference_inv d t r distinct hrun
    apply configMapDifference_fixed
    intro key v hm
    obtain ⟨k, rfl⟩ := configMapDifference_keys d t r hrun key v hm
    refine ⟨k, rfl, fun hv => hdrop k v hm hv, ?_⟩
    rintro d1 rfl
    obtain ⟨t1, r1, _, hr1, hrk⟩ := hdesc k d1 hm
    exact ⟨r1, hrk, ih _ d1 hm t1 r1 hr1⟩

/-- The walk of `deleteConfig` is idempotent. -/
theorem deleteConfigWalk_idem (joined : String) (value : Value)
    (hgo : ∀ d, value = .imap d → DistinctKeysDeep d) :
    ∀ (path : List String) (config config1 : Config),
      deleteConfigWalk joined value config path = .returned config1 none →
      deleteConfigWalk joined value config1 path = .returned config1 none := by
  intro path
  induction path with
  | nil => intro config config1 h; simp [deleteConfigWalk] at h
  | cons k rest ih =>
    intro config config1 h
    cases rest with
    | nil =>
      by_cases hv : ∃ d, value = .imap d
      · obtain ⟨d, rfl⟩ := hv
        obtain ⟨t, t1, _, hrun, hafter⟩ :=
          deleteConfigWalk_partial_inv joined d [k] config config1 h
        exact deleteConfigWalk_partial_same joined d t1
          (configMapDifference_idem d (hgo d rfl) t t1 hrun) [k] config1 (by simp) hafter
      · have hv2 : ∀ m, value ≠ .imap m := fun m hm => hv ⟨m, hm⟩
        rw [deleteConfigWalk_single_full joined value config k hv2] at h
        simp only [Run.returned.injEq, and_true] at h
        subst h
        rw [deleteConfigWalk_single_full joined value _ k hv2,
          mapDelete_eq_self _ k (mapGet_mapDelete_self config k)]
    | cons k2 rest2 =>
      by_cases hk : ∃ child, mapGet config k = some (.smap child)
      · obtain ⟨child, hc⟩ := hk
        rw [deleteConfigWalk_step joined value config child k k2 rest2 hc] at h
        cases hrun : deleteConfigWalk joined value child (k2 :: rest2) with
        | panicked => simp [hrun] at h
        | returned child1 err =>
          simp only [hrun, Run.returned.injEq] at h
          obtain ⟨h1, h2⟩ := h
          subst h1 h2
          have hget : mapGet (mapSet config k (.smap child1)) k = some (.smap child1) :=
            mapGet_mapSet_self config k _
          rw [deleteConfigWalk_step joined value _ child1 k k2 rest2 hget,
            ih child child1 hrun]
          simp only
          rw [mapSet_eq_self _ k _ hget]
      · rw [deleteConfigWalk_stop joined value config k k2 rest2
          (fun child hc => hk ⟨child, hc⟩)] at h
        simp at h

/-- C17 (subtract is idempotent).  Whenever `deleteConfig` returns no error
(the dark value, when a nested tree, being a Go map with pairwise different
keys at every level), calling it again with the same key path and value on
the resulting tree returns no error and leaves that tree unchanged. -/
theorem deleteConfig_idempotent (config config1 : Config) (path : List String)
    (value : Value) (hgo : ∀ d, value = .imap d → DistinctKeysDeep d)
    (hok : deleteConfig config path value = .returned config1 none) :
    deleteConfig config1 path value = .returned config1 none := by
  cases path with
  | nil => simp [deleteConfig] at hok
  | cons k rest =>
    rw [deleteConfig_cons] at hok ⊢
    exact deleteConfigWalk_idem _ value hgo (k :: rest) config config1 hok

/-- C17, witness: subtracting `("a", {b: "m", c: {d: "m"}})` from
`{a:{b:1, c:{d:2, e:3}}}` gives `{a:{c:{e:3}}}`, and doing it again gives the
same tree. -/
theorem deleteConfig_idempotent_witness :
    deleteConfig [("a", .smap [("b", .num 1), ("c", .smap [("d", .num 2), ("e", .num 3)])])]
        ["a"] (.imap [(.str "b", .str "m"), (.str "c", .imap [(.str "d", .str "m")])])
        = .returned [("a", .smap [("c", .smap [("e", .num 3)])])] none
      ∧ deleteConfig [("a", .smap [("c", .smap [("e", .num 3)])])]
          ["a"] (.imap [(.str "b", .str "m"), (.str "c", .imap [(.str "d", .str "m")])])
        = .returned [("a", .smap [("c", .smap [("e", .num 3)])])] none :=
  have hok : deleteConfig
      [("a", .smap [("b", .num 1), ("c", .smap [("d", .num 2), ("e", .num 3)])])]
      ["a"] (.imap [(.str "b", .str "m"), (.str "c", .imap [(.str "d", .str "m")])])
      = .returned [("a", .smap [("c", .smap [("e", .num 3)])])] none := by
    simp [deleteConfig, deleteConfigWalk, configMapDifference, mapGet, mapSet, mapDelete]
  ⟨hok,
    deleteConfig_idempotent _ _ ["a"] _
      (by
        intro d hd
        simp only [Value.imap.injEq] at hd
        subst hd
        refine DistinctKeysDeep.intro _ (by simp [DistinctKeys]) ?_
        intro key d1 hm
        simp only [List.mem_cons, Prod.mk.injEq, Value.imap.injEq, List.mem_singleton,
          List.not_mem_nil, or_false, reduceCtorEq, and_false, false_or] at hm
        obtain ⟨_, rfl⟩ := hm
        exact DistinctKeysDeep.intro _ (by simp [DistinctKeys])
          (by intro key2 d2 hm2; simp at hm2))
      hok⟩

/-! ## The chart values of `MakeValues` -/

theorem includedInEnv_iff (password : String) (cv : ConfigurationVariable) :
    includedInEnv password cv = true ↔ ¬ isGeneratedPassword password cv := by
  obtain ⟨name, secret, generator, description⟩ := cv
  cases secret <;> cases generator <;> simp [includedInEnv, isGeneratedPassword]

/-- What the loop of `MakeValues` leaves under every name, for variables with
pairwise different names. -/
theorem makeEnv_get {Manifest Obj Node : Type} (deps : HelmDeps Manifest Obj Node)
    (get : Obj → String → Option Node) (laws : ObjectLaws deps get)
    (defaults : List (String × String)) :
    ∀ (vars : List (String × ConfigurationVariable)) (env : Obj),
      (vars.map Prod.fst).Nodup →
      (∀ name cv, (name, cv) ∈ vars →
          get (makeEnv deps defaults env vars) name
            = if includedInEnv deps.GeneratorTypePassword cv then
                some (envScalar deps defaults cv)
              else get env name)
        ∧ (∀ name, (∀ cv, (name, cv) ∉ vars) →
          get (makeEnv deps defaults env vars) name = get env name) := by
  intro vars
  induction vars with
  | nil =>
    intro env _
    exact ⟨fun name cv hm => by simp at hm, fun name _ => rfl⟩
  | cons e rest ih =>
    obtain ⟨n0, cv0⟩ := e
    intro env hnodup
    rw [List.map_cons, List.nodup_cons] at hnodup
    obtain ⟨hfresh, hrest⟩ := hnodup
    have hnot : ∀ cv, (n0, cv) ∉ rest := fun cv hm =>
      hfresh (List.mem_map.mpr ⟨(n0, cv), hm, rfl⟩)
    by_cases hinc : includedInEnv deps.GeneratorTypePassword cv0 = true
    · have hstep : makeEnv deps defaults env ((n0, cv0) :: rest)
          = makeEnv deps defaults (deps.Add env n0 (envScalar deps defaults cv0)) rest := by
        simp [makeEnv, hinc]
      obtain ⟨ih1, ih2⟩ := ih (deps.Add env n0 (envScalar deps defaults cv0)) hrest
      rw [hstep]
      refine ⟨?_, ?_⟩
      · intro name cv hm
        rcases List.mem_cons.mp hm with heq | hin
        · simp only [Prod.mk.injEq] at heq
          obtain ⟨rfl, rfl⟩ := heq
          rw [ih2 name hnot, laws.get_add_self, if_pos hinc]
        · have hne : name ≠ n0 := by
            rintro rfl
            exact hnot cv hin
          rw [ih1 name cv hin, laws.get_add_other env n0 _ name hne]
      · intro name hnone
        have hne : name ≠ n0 := by
          rintro rfl
          exact hnone cv0 (List.mem_cons_self _ _)
        rw [ih2 name (fun cv hm => hnone cv (List.mem_cons_of_mem _ hm)),
          laws.get_add_other env n0 _ name hne]
    · have hstep : makeEnv deps defaults env ((n0, cv0) :: rest)
          = makeEnv deps defaults env rest := by
        simp [makeEnv, hinc]
      obtain ⟨ih1, ih2⟩ := ih env hrest
      rw [hstep]
      refine ⟨?_, ?_⟩
      · intro name cv hm
        rcases List.mem_cons.mp hm with heq | hin
        · simp only [Prod.mk.injEq] at heq
          obtain ⟨rfl, rfl⟩ := heq
          rw [ih2 name hnot, if_neg hinc]
        · exact ih1 name cv hin
      · intro name hnone
        exact ih2 name (fun cv hm => hnone cv (List.mem_cons_of_mem _ hm))

/-- C18 (generated passwords are left out of chart values).  For every role
manifest (its variables being a Go map, so with pairwise different names)
and defaults map, `MakeValues` returns no error, and the object it adds under
`"env"` has an entry for a name if and only if the name is that of a variable
that is not a generated password (secret, with a generator whose type is the
password type); the entry of such a variable is the scalar of its resolved
value, or of `"~"` when it has no value, with its description as comment. -/
theorem MakeValues_env {Manifest Obj Node : Type} (deps : HelmDeps Manifest Obj Node)
    (get : Obj → String → Option Node) (laws : ObjectLaws deps get)
    (rolesManifest : Manifest) (defaults : List (String × String))
    (hnames : ((deps.MakeMapOfVariables rolesManifest).map Prod.fst).Nodup) :
    (MakeValues deps rolesManifest defaults).2 = none
      ∧ ∃ env, get (MakeValues deps rolesManifest defaults).1 "env" = some (deps.objectNode env)
        ∧ (∀ name, (∃ node, get env name = some node)
            ↔ ∃ cv, (name, cv) ∈ deps.MakeMapOfVariables rolesManifest
              ∧ ¬ isGeneratedPassword deps.GeneratorTypePassword cv)
        ∧ (∀ name cv, (name, cv) ∈ deps.MakeMapOfVariables rolesManifest →
            ¬ isGeneratedPassword deps.GeneratorTypePassword cv →
            get env name = some (deps.NewConfigScalarWithComment
              (if (deps.Value cv defaults).1 then (deps.Value cv defaults).2 else "~")
              cv.Description)) := by
  obtain ⟨h1, h2⟩ := makeEnv_get deps get laws defaults (deps.MakeMapOfVariables rolesManifest)
    deps.emptyObject hnames
  have hscalar : ∀ cv, envScalar deps defaults cv
      = deps.NewConfigScalarWithComment
          (if (deps.Value cv defaults).1 then (deps.Value cv defaults).2 else "~")
          cv.Description := by
    intro cv
    unfold envScalar
    cases hv : deps.Value cv defaults with
    | mk ok value => cases ok <;> simp
  refine ⟨rfl, makeEnv deps defaults deps.emptyObject (deps.MakeMapOfVariables rolesManifest),
    ?_, ?_, ?_⟩
  · simp only [MakeValues]
    rw [laws.get_add_other _ "kube" _ "env" (by decide), laws.get_add_self]
  · intro name
    constructor
    · rintro ⟨node, hnode⟩
      by_cases hex : ∃ cv, (name, cv) ∈ deps.MakeMapOfVariables rolesManifest
      · obtain ⟨cv, hm⟩ := hex
        refine ⟨cv, hm, (includedInEnv_iff _ cv).mp ?_⟩
        by_contra hinc
        rw [h1 name cv hm, if_neg hinc, laws.get_empty] at hnode
        cases hnode
      · rw [h2 name (fun cv hm => hex ⟨cv, hm⟩), laws.get_empty] at hnode
        cases hnode
    · rintro ⟨cv, hm, hnot⟩
      rw [h1 name cv hm, if_pos ((includedInEnv_iff _ cv).mpr hnot)]
      exact ⟨_, rfl⟩
  · intro name cv hm hnot
    rw [h1 name cv hm, if_pos ((includedInEnv_iff _ cv).mpr hnot), hscalar]

theorem objectGet_objectAdd_self (obj : List (String × ConfigNode)) (name : String)
    (v : ConfigNode) : objectGet (objectAdd obj name v) name = some v := by
  induction obj with
  | nil => simp [objectAdd, objectGet]
  | cons e rest ih =>
    obtain ⟨n, v1⟩ := e
    by_cases h : n = name
    · simp [objectAdd, objectGet, h]
    · simp [objectAdd, objectGet, h, ih]

theorem objectGet_objectAdd_other (obj : List (String × ConfigNode)) (name : String)
    (v : ConfigNode) (other : String) (hne : other ≠ name) :
    objectGet (objectAdd obj name v) other = objectGet obj other := by
  induction obj with
  | nil => simp [objectAdd, objectGet, Ne.symm hne]
  | cons e rest ih =>
    obtain ⟨n, v1⟩ := e
    by_cases h : n = name
    · subst h
      simp [objectAdd, objectGet, Ne.symm hne]
    · by_cases h2 : n = other
      · subst h2
        simp [objectAdd, objectGet, h]
      · simp [objectAdd, objectGet, h, h2, ih]

theorem exampleDeps_laws : ObjectLaws exampleDeps objectGet where
  get_empty := fun _ => rfl
  get_add_self := objectGet_objectAdd_self
  get_add_other := objectGet_objectAdd_other

/-- C18, witness: of the variables `HOST` (plain, value `h`), `TOKEN` (secret,
no generator, no value) and `PASS` (secret, password generator), the values
have `HOST` and `TOKEN` under `env`, `TOKEN` with `"~"`, and not `PASS`. -/
theorem MakeValues_env_witness :
    MakeValues exampleDeps
        [("HOST", ⟨"HOST", false, none, "the host"⟩),
          ("TOKEN", ⟨"TOKEN", true, none, "a token"⟩),
          ("PASS", ⟨"PASS", true, some ⟨"Password"⟩, "a password"⟩)]
        [("HOST", "h")]
        = ([("env", .object [("HOST", .scalar "h" "the host"),
                ("TOKEN", .scalar "~" "a token")]),
            ("kube", .object [("external_ip", .scalar "192.168.77.77" ""),
                ("storage_class", .object [("persistent", .scalar "persistent" ""),
                  ("shared", .scalar "shared" "")])])], none)
      ∧ (MakeValues exampleDeps
          [("HOST", ⟨"HOST", false, none, "the host"⟩),
            ("TOKEN", ⟨"TOKEN", true, none, "a token"⟩),
            ("PASS", ⟨"PASS", true, some ⟨"Password"⟩, "a password"⟩)]
          [("HOST", "h")]).2 = none :=
  ⟨rfl,
    (MakeValues_env exampleDeps objectGet exampleDeps_laws
      [("HOST", ⟨"HOST", false, none, "the host"⟩),
        ("TOKEN", ⟨"TOKEN", true, none, "a token"⟩),
        ("PASS", ⟨"PASS", true, some ⟨"Password"⟩, "a password"⟩)]
      [("HOST", "h")] (by decide)).1⟩

/-! ## The job document of `WriteConfigs` -/

/-- C19 (envelope of a job document).  For every role and job for which
`getPropertiesForJob` returns a tree, the configuration that `WriteConfigs`
builds for the job has `job.name` equal to the name of the role,
`job.templates` equal to the list of `{name: jobName}` for all jobs of the
role in their order, `properties` equal to the returned tree, `parameters`
equal to `{}` and `networks` equal to `{default: {}}`. -/
theorem buildJobConfig_envelope (h : Helpers) (allProps : Config) (opinions : Opinions)
    (role : Role) (job : Job) (properties : Config)
    (hprops : getPropertiesForJob h job allProps opinions = .returned (some properties) none) :
    ∃ config, buildJobConfig h allProps opinions role job = .returned (some config) none
      ∧ getPath config ["job", "name"] = some (.str role.Name)
      ∧ getPath config ["job", "templates"]
        = some (.seq (role.Jobs.map (fun roleJob => Value.smap [("name", .str roleJob.Name)])))
      ∧ getPath config ["properties"] = some (.smap properties)
      ∧ getPath config ["parameters"] = some (.smap [])
      ∧ getPath config ["networks"] = some (.smap [("default", .smap [])]) := by
  refine ⟨[("job", .smap [("templates",
        .seq (role.Jobs.map (fun roleJob => Value.smap [("name", .str roleJob.Name)]))),
        ("name", .str role.Name)]),
      ("parameters", .smap []),
      ("properties", .smap properties),
      ("networks", .smap [("default", .smap [])])], ?_, ?_, ?_, ?_, ?_, ?_⟩
  · simp [buildJobConfig, initializeConfigJSON, setJobField, mapGet, mapSet, hprops,
      propertiesValue]
  · simp [getPath, Value.follow, mapGet]
  · simp [getPath, Value.follow, mapGet]
  · simp [getPath, Value.follow, mapGet]
  · simp [getPath, Value.follow, mapGet]
  · simp [getPath, Value.follow, mapGet]

/-- C19, witness: the role `api` with the jobs `nats` and `router`; the
document of the job `router`, whose only declared default is `port = 80`. -/
theorem buildJobConfig_envelope_witness :
    buildJobConfig specHelpers [] ⟨[], []⟩
        { Name := "api",
          Jobs := [{ Properties := [], UniqueConfigs := [], Name := "nats" },
            { Properties := [⟨"port", .num 80⟩], UniqueConfigs := [], Name := "router" }] }
        { Properties := [⟨"port", .num 80⟩], UniqueConfigs := [], Name := "router" }
      = .returned (some [("job", .smap [("templates",
              .seq [.smap [("name", .str "nats")], .smap [("name", .str "router")]]),
            ("name", .str "api")]),
          ("parameters", .smap []),
          ("properties", .smap [("port", .num 80)]),
          ("networks", .smap [("default", .smap [])])]) none
      ∧ ∃ config, buildJobConfig specHelpers [] ⟨[], []⟩
          { Name := "api",
            Jobs := [{ Properties := [], UniqueConfigs := [], Name := "nats" },
              { Properties := [⟨"port", .num 80⟩], UniqueConfigs := [], Name := "router" }] }
          { Properties := [⟨"port", .num 80⟩], UniqueConfigs := [], Name := "router" }
          = .returned (some config) none
        ∧ getPath config ["job", "name"] = some (.str "api")
        ∧ getPath config ["job", "templates"]
          = some (.seq (([{ Properties := [], UniqueConfigs := [], Name := "nats" },
              { Properties := [⟨"port", .num 80⟩], UniqueConfigs := [], Name := "router" }]
                : List Job).map
              (fun roleJob => Value.smap [("name", .str roleJob.Name)])))
        ∧ getPath config ["properties"] = some (.smap [("port", .num 80)])
        ∧ getPath config ["parameters"] = some (.smap [])
        ∧ getPath config ["networks"] = some (.smap [("default", .smap [])]) :=
  ⟨rfl,
    buildJobConfig_envelope specHelpers [] ⟨[], []⟩
      { Name := "api",
        Jobs := [{ Properties := [], UniqueConfigs := [], Name := "nats" },
          { Properties := [⟨"port", .num 80⟩], UniqueConfigs := [], Name := "router" }] }
      { Properties := [⟨"port", .num 80⟩], UniqueConfigs := [], Name := "router" }
      [("port", .num 80)] rfl⟩

/-! ## Key paths none of which is a prefix of another -/

theorem diverge_symm : ∀ (p q : List String), diverge p q = diverge q p := by
  intro p
  induction p with
  | nil => intro q; cases q <;> rfl
  | cons a p ih =>
    intro q
    cases q with
    | nil => rfl
    | cons b q =>
      by_cases hab : a = b
      · subst hab
        simp [diverge, ih q]
      · have hba : ¬ b = a := fun h => hab h.symm
        simp [diverge, hab, hba]

theorem diverge_self_append : ∀ (a more : List String), diverge a (a ++ more) = false := by
  intro a
  induction a with
  | nil => intro more; cases more <;> rfl
  | cons x a ih => intro more; simp [diverge, ih more]

/-- Two key paths: the first is a prefix of the second, or the second is a
proper prefix of the first, or they diverge. -/
theorem prefix_or_diverge : ∀ (a obs : List String),
    (∃ more, obs = a ++ more) ∨ (∃ x rest, a = obs ++ x :: rest) ∨ diverge a obs = true := by
  intro a
  induction a with
  | nil => intro obs; exact Or.inl ⟨obs, rfl⟩
  | cons x a ih =>
    intro obs
    cases obs with
    | nil => exact Or.inr (Or.inl ⟨x, a, rfl⟩)
    | cons y obs =>
      by_cases hxy : x = y
      · subst hxy
        rcases ih obs with ⟨more, h⟩ | ⟨z, rest, h⟩ | h
        · exact Or.inl ⟨more, by simp [h]⟩
        · exact Or.inr (Or.inl ⟨z, rest, by simp [h]⟩)
        · exact Or.inr (Or.inr (by simp [diverge, h]))
      · exact Or.inr (Or.inr (by simp [diverge, hxy]))

/-- A key path that diverges from `p` is no prefix of a prefix of `p`. -/
theorem diverge_not_leading (a p pre more : List String) (hdiv : diverge a p = true)
    (hp : p = pre ++ more) : ¬ ∃ more2, pre = a ++ more2 := by
  rintro ⟨more2, rfl⟩
  subst hp
  rw [List.append_assoc, diverge_self_append] at hdiv
  cases hdiv

/-- A key path that diverges from `p` has a prefix of `p` as a proper prefix,
or diverges from it. -/
theorem diverge_prefix_cases (a p pre more : List String) (hdiv : diverge a p = true)
    (hp : p = pre ++ more) :
    (∃ x rest, a = pre ++ x :: rest) ∨ diverge a pre = true := by
  rcases prefix_or_diverge a pre with h | h | h
  · exact absurd h (diverge_not_leading a p pre more hdiv hp)
  · exact Or.inl h
  · exact Or.inr h

theorem isTreeAt_nil (t : Config) : IsTreeAt t [] := ⟨t, rfl⟩

theorem isTreeAt_leading (t : Config) (pre more : List String)
    (h : IsTreeAt t (pre ++ more)) : IsTreeAt t pre := by
  obtain ⟨m, hm⟩ := h
  rw [getPath_append] at hm
  unfold IsTreeAt
  cases hp : getPath t pre with
  | none => simp [hp] at hm
  | some w =>
    simp only [hp, Option.some_bind] at hm
    obtain ⟨m2, rfl⟩ := follow_smap_is_smap w more m hm
    exact ⟨m2, rfl⟩

theorem passable_of_isTreeAt (t : Config) (path : List String) (h : IsTreeAt t path) :
    Passable t path := by
  obtain ⟨m, hm⟩ := h
  intro v hv
  rw [hm] at hv
  simp only [Option.some.injEq] at hv
  exact ⟨m, hv.symm⟩

/-- Where the parent of the last segment is a nested tree, every proper prefix
of the path leads to a nested tree. -/
theorem isTreeAt_of_parent (t : Config) (p pre : List String) (x : String)
    (rest : List String) (hp : p = pre ++ x :: rest) (h : IsTreeAt t p.dropLast) :
    IsTreeAt t pre := by
  subst hp
  rw [List.dropLast_append_cons] at h
  exact isTreeAt_leading t pre _ h

theorem noConflict_of_parent (t : Config) (p : List String) (h : IsTreeAt t p.dropLast) :
    NoConflict t p := by
  intro pre x rest hp
  exact passable_of_isTreeAt t pre (isTreeAt_of_parent t p pre x rest hp h)

/-! ## What a step needs of the tree -/

theorem getPath_cons_smap (config child : Config) (k : String) (q : List String)
    (h : mapGet config k = some (.smap child)) :
    getPath config (k :: q) = getPath child q := by
  rw [getPath_cons, h]
  rfl

theorem getPath_cons_none (config : Config) (k : String) (q : List String)
    (h : mapGet config k = none) : getPath config (k :: q) = none := by
  rw [getPath_cons, h]
  rfl

/-- An insertion that returns no error has met no conflict: every proper
prefix of the path was absent or a nested tree. -/
theorem specInsertWalk_ok_noConflict (joined : String) (value : Value) :
    ∀ (path : List String) (config config1 : Config),
      specInsertWalk joined value config path = .returned config1 none →
      NoConflict config path := by
  intro path
  induction path with
  | nil =>
    intro config config1 _ pre x rest hp
    simp at hp
  | cons k tail ih =>
    intro config config1 hrun pre x rest hp
    cases pre with
    | nil => exact passable_of_isTreeAt config [] (isTreeAt_nil config)
    | cons k0 pre2 =>
      simp only [List.cons_append, List.cons.injEq] at hp
      obtain ⟨rfl, htail⟩ := hp
      cases tail with
      | nil => simp at htail
      | cons k2 rest2 =>
        rcases specInsertWalk_cases joined value config k k2 rest2 with
          ⟨child, hchild, heq⟩ | ⟨_, heq⟩
        · rw [heq] at hrun
          cases hsub : specInsertWalk joined value child (k2 :: rest2) with
          | panicked cause => simp [hsub] at hrun
          | returned child1 err =>
            simp only [hsub, Run.returned.injEq] at hrun
            obtain ⟨_, herr⟩ := hrun
            subst herr
            rcases hchild with hc | ⟨hnone, _⟩
            · intro v hv
              rw [getPath_cons_smap config child k pre2 hc] at hv
              exact ih child child1 hsub pre2 x rest htail v hv
            · intro v hv
              rw [getPath_cons_none config k pre2 hnone] at hv
              cases hv
        · rw [heq] at hrun
          simp at hrun

theorem noConflict_nil_tree (path : List String) : NoConflict [] path := by
  intro pre x rest _ v hv
  cases pre with
  | nil =>
    simp only [getPath_nil, Option.some.injEq] at hv
    exact ⟨[], hv.symm⟩
  | cons k pre2 =>
    rw [getPath_nil_cons] at hv
    cases hv

/-- An insertion that meets no conflict returns no error. -/
theorem specInsertWalk_of_noConflict (joined : String) (value : Value) :
    ∀ (path : List String) (config : Config), NoConflict config path →
      ∃ config1, specInsertWalk joined value config path = .returned config1 none := by
  intro path
  induction path with
  | nil => intro config _; exact ⟨config, rfl⟩
  | cons k tail ih =>
    intro config hno
    cases tail with
    | nil => exact ⟨_, rfl⟩
    | cons k2 rest2 =>
      rcases specInsertWalk_cases joined value config k k2 rest2 with
        ⟨child, hchild, heq⟩ | ⟨⟨v, hv, hbad⟩, _⟩
      · have hno2 : NoConflict child (k2 :: rest2) := by
          rcases hchild with hc | ⟨_, hempty⟩
          · intro pre x rest hp w hw
            apply hno (k :: pre) x rest (by simp [hp]) w
            rw [getPath_cons_smap config child k pre hc]
            exact hw
          · rw [hempty]
            exact noConflict_nil_tree _
        obtain ⟨child1, hsub⟩ := ih child hno2
        rw [hsub] at heq
        exact ⟨_, heq⟩
      · exfalso
        obtain ⟨m, hm⟩ := hno [k] k2 rest2 rfl v (by rw [getPath_single]; exact hv)
        exact hbad m hm

/-- A subtraction that returns no error has found the parent of the last
segment, a nested tree, and leaves a nested tree there. -/
theorem deleteConfigWalk_ok_parent (joined : String) (value : Value) :
    ∀ (path : List String) (config config1 : Config),
      deleteConfigWalk joined value config path = .returned config1 none →
      IsTreeAt config path.dropLast ∧ IsTreeAt config1 path.dropLast := by
  intro path
  induction path with
  | nil => intro config config1 h; simp [deleteConfigWalk] at h
  | cons k tail ih =>
    intro config config1 h
    cases tail with
    | nil => exact ⟨isTreeAt_nil config, isTreeAt_nil config1⟩
    | cons k2 rest2 =>
      have hdl : (k :: k2 :: rest2).dropLast = k :: (k2 :: rest2).dropLast := by
        simp [List.dropLast]
      by_cases hk : ∃ child, mapGet config k = some (.smap child)
      · obtain ⟨child, hc⟩ := hk
        rw [deleteConfigWalk_step joined value config child k k2 rest2 hc] at h
        cases hrun : deleteConfigWalk joined value child (k2 :: rest2) with
        | panicked cause => simp [hrun] at h
        | returned child1 err =>
          simp only [hrun, Run.returned.injEq] at h
          obtain ⟨h1, h2⟩ := h
          subst h1 h2
          obtain ⟨⟨m, hm⟩, ⟨m1, hm1⟩⟩ := ih child child1 hrun
          rw [hdl]
          refine ⟨⟨m, ?_⟩, ⟨m1, ?_⟩⟩
          · rw [getPath_cons_smap config child k _ hc]
            exact hm
          · rw [getPath_cons_smap _ child1 k _ (mapGet_mapSet_self config k _)]
            exact hm1
      · rw [deleteConfigWalk_stop joined value config k k2 rest2
          (fun child hc => hk ⟨child, hc⟩)] at h
        simp at h

/-- Whether a subtraction returns without error, and what it leaves at its key
path, is decided by what it finds there, once the parent of the last segment
is a nested tree. -/
theorem deleteConfigWalk_transfer (joined : String) (value : Value) (path : List String)
    (s s1 u : Config) (hne : path ≠ [])
    (hrun : deleteConfigWalk joined value s path = .returned s1 none)
    (heq : getPath u path = getPath s path) (hpar : IsTreeAt u path.dropLast) :
    ∃ u1, deleteConfigWalk joined value u path = .returned u1 none
      ∧ getPath u1 path = getPath s1 path := by
  by_cases hv : ∃ d, value = .imap d
  · obtain ⟨d, rfl⟩ := hv
    obtain ⟨t, t1, hbefore, hdiff, hafter⟩ :=
      deleteConfigWalk_partial_inv joined d path s s1 hrun
    rw [hbefore] at heq
    obtain ⟨u1, hu1, hafter2⟩ := deleteConfigWalk_partial joined d t t1 hdiff path u hne heq
    exact ⟨u1, hu1, by rw [hafter, hafter2]⟩
  · have hv2 : ∀ m, value ≠ .imap m := fun m hm => hv ⟨m, hm⟩
    obtain ⟨parent, hparent⟩ := hpar
    obtain ⟨u1, hu1, _, habsent, _⟩ :=
      deleteConfigWalk_full joined value hv2 path hne u parent hparent
    obtain ⟨⟨parent2, hparent2⟩, _⟩ := deleteConfigWalk_ok_parent joined value path s s1 hrun
    obtain ⟨s2, hs2, _, habsent2, _⟩ :=
      deleteConfigWalk_full joined value hv2 path hne s parent2 hparent2
    rw [hrun] at hs2
    simp only [Run.returned.injEq, and_true] at hs2
    subst hs2
    exact ⟨u1, hu1, by rw [habsent, habsent2]⟩

/-! ## One key, with the helpers of the specification -/

theorem applyOpinion_ok_inv (opinions : Opinions) (s s2 : Config) (k : ReleaseConfig)
    (hstep : applyOpinion specHelpers opinions s k = .returned s2 none) :
    ∃ p s1, specGetKeyGrams k.Name = .ok p
      ∧ addLightOpinion specHelpers opinions s k p = .returned s1 none
      ∧ subtractDarkOpinion specHelpers opinions s1 p = .returned s2 none := by
  cases hkey : specGetKeyGrams k.Name with
  | error e => simp [applyOpinion, specHelpers, hkey] at hstep
  | ok p =>
    have hkey2 : specHelpers.getKeyGrams k.Name = .ok p := hkey
    simp only [applyOpinion, hkey2] at hstep
    cases hadd : addLightOpinion specHelpers opinions s k p with
    | panicked cause => simp [hadd] at hstep
    | returned s1 err =>
      cases err with
      | some e => simp [hadd] at hstep
      | none =>
        simp only [hadd] at hstep
        exact ⟨p, s1, rfl, hadd, hstep⟩

theorem applyOpinion_ok_intro (opinions : Opinions) (s s1 s2 : Config) (k : ReleaseConfig)
    (p : List String) (hkey : specGetKeyGrams k.Name = .ok p)
    (hadd : addLightOpinion specHelpers opinions s k p = .returned s1 none)
    (hsub : subtractDarkOpinion specHelpers opinions s1 p = .returned s2 none) :
    applyOpinion specHelpers opinions s k = .returned s2 none := by
  have hkey2 : specHelpers.getKeyGrams k.Name = .ok p := hkey
  simp [applyOpinion, hkey2, hadd, hsub]

theorem addLightOpinion_null (opinions : Opinions) (s : Config) (k : ReleaseConfig)
    (p : List String) (hl : specGetOpinionForKey opinions.Light p = .null) :
    addLightOpinion specHelpers opinions s k p = .returned s none := by
  have hl2 : specHelpers.GetOpinionForKey opinions.Light p = .null := hl
  simp [addLightOpinion, hl2]

theorem addLightOpinion_walk (opinions : Opinions) (s : Config) (k : ReleaseConfig)
    (p : List String) (hkey : specGetKeyGrams k.Name = .ok p)
    (hl : specGetOpinionForKey opinions.Light p ≠ .null) :
    addLightOpinion specHelpers opinions s k p
      = specInsertWalk k.Name (specGetOpinionForKey opinions.Light p) s p := by
  rw [addLightOpinion_present specHelpers opinions s k p hl]
  show specInsertConfig s k.Name (specGetOpinionForKey opinions.Light p) = _
  simp [specInsertConfig, hkey]

theorem subtractDarkOpinion_null (opinions : Opinions) (s : Config) (p : List String)
    (hd : specGetOpinionForKey opinions.Dark p = .null) :
    subtractDarkOpinion specHelpers opinions s p = .returned s none := by
  have hd2 : specHelpers.GetOpinionForKey opinions.Dark p = .null := hd
  simp [subtractDarkOpinion, hd2]

theorem subtractDarkOpinion_walk (opinions : Opinions) (s : Config) (p : List String)
    (hne : p ≠ []) (hd : specGetOpinionForKey opinions.Dark p ≠ .null) :
    subtractDarkOpinion specHelpers opinions s p
      = deleteConfigWalk (String.intercalate "." p) (specGetOpinionForKey opinions.Dark p)
        s p := by
  rw [subtractDarkOpinion_present specHelpers opinions s p hd]
  cases p with
  | nil => exact absurd rfl hne
  | cons seg rest => rfl

/-- The light half of a step: without a light opinion the tree stays as it is;
with one, the walk met no conflict and the key path holds the opinion. -/
theorem addLightOpinion_ok (opinions : Opinions) (s s1 : Config) (k : ReleaseConfig)
    (p : List String) (hkey : specGetKeyGrams k.Name = .ok p)
    (hadd : addLightOpinion specHelpers opinions s k p = .returned s1 none) :
    (specGetOpinionForKey opinions.Light p = .null ∧ s1 = s)
      ∨ (specGetOpinionForKey opinions.Light p ≠ .null
        ∧ getPath s1 p = some (specGetOpinionForKey opinions.Light p)
        ∧ NoConflict s p) := by
  by_cases hl : specGetOpinionForKey opinions.Light p = .null
  · rw [addLightOpinion_null opinions s k p hl] at hadd
    simp only [Run.returned.injEq, and_true] at hadd
    exact Or.inl ⟨hl, hadd.symm⟩
  · rw [addLightOpinion_walk opinions s k p hkey hl] at hadd
    exact Or.inr ⟨hl,
      specInsertWalk_post k.Name _ p s s1 (specGetKeyGrams_ne_nil _ _ hkey) hadd,
      specInsertWalk_ok_noConflict k.Name _ p s s1 hadd⟩

/-- The light half of a step returns without error on every tree on which the
walk meets no conflict. -/
theorem addLightOpinion_of_noConflict (opinions : Opinions) (u : Config) (k : ReleaseConfig)
    (p : List String) (hkey : specGetKeyGrams k.Name = .ok p)
    (hno : specGetOpinionForKey opinions.Light p ≠ .null → NoConflict u p) :
    ∃ u1, addLightOpinion specHelpers opinions u k p = .returned u1 none := by
  by_cases hl : specGetOpinionForKey opinions.Light p = .null
  · exact ⟨u, addLightOpinion_null opinions u k p hl⟩
  · rw [addLightOpinion_walk opinions u k p hkey hl]
    exact specInsertWalk_of_noConflict k.Name _ p u (hno hl)

/-- The dark half of a step: without a dark opinion the tree stays as it is;
with one, the parent of the last segment was a nested tree and is one. -/
theorem subtractDarkOpinion_ok (opinions : Opinions) (s s1 : Config) (p : List String)
    (hne : p ≠ [])
    (hsub : subtractDarkOpinion specHelpers opinions s p = .returned s1 none) :
    (specGetOpinionForKey opinions.Dark p = .null ∧ s1 = s)
      ∨ (specGetOpinionForKey opinions.Dark p ≠ .null
        ∧ IsTreeAt s p.dropLast ∧ IsTreeAt s1 p.dropLast) := by
  by_cases hd : specGetOpinionForKey opinions.Dark p = .null
  · rw [subtractDarkOpinion_null opinions s p hd] at hsub
    simp only [Run.returned.injEq, and_true] at hsub
    exact Or.inl ⟨hd, hsub.symm⟩
  · rw [subtractDarkOpinion_walk opinions s p hne hd] at hsub
    exact Or.inr ⟨hd, deleteConfigWalk_ok_parent _ _ p s s1 hsub⟩

/-- The dark half of a step carries over to every tree that holds the same
at the key path and, where there is a dark opinion, a nested tree as parent
of the last segment. -/
theorem subtractDarkOpinion_transfer (opinions : Opinions) (s s1 u : Config)
    (p : List String) (hne : p ≠ [])
    (hsub : subtractDarkOpinion specHelpers opinions s p = .returned s1 none)
    (heq : getPath u p = getPath s p)
    (hpar : specGetOpinionForKey opinions.Dark p ≠ .null → IsTreeAt u p.dropLast) :
    ∃ u1, subtractDarkOpinion specHelpers opinions u p = .returned u1 none
      ∧ getPath u1 p = getPath s1 p := by
  by_cases hd : specGetOpinionForKey opinions.Dark p = .null
  · rw [subtractDarkOpinion_null opinions s p hd] at hsub
    simp only [Run.returned.injEq, and_true] at hsub
    subst hsub
    exact ⟨u, subtractDarkOpinion_null opinions u p hd, heq⟩
  · rw [subtractDarkOpinion_walk opinions s p hne hd] at hsub
    rw [subtractDarkOpinion_walk opinions u p hne hd]
    exact deleteConfigWalk_transfer _ _ p s s1 u hne hsub heq (hpar hd)

/-- Whether a key is processed without error, and what is then at its key
path, is decided by what the tree holds at the key path, by the absence of
a conflict on the way when there is a light opinion, and by the parent of
the last segment being a nested tree when there is a dark opinion only. -/
theorem applyOpinion_transfer (opinions : Opinions) (s s2 u : Config) (k : ReleaseConfig)
    (p : List String) (hkey : specGetKeyGrams k.Name = .ok p)
    (hstep : applyOpinion specHelpers opinions s k = .returned s2 none)
    (heq : getPath u p = getPath s p)
    (hno : specGetOpinionForKey opinions.Light p ≠ .null → NoConflict u p)
    (hpar : specGetOpinionForKey opinions.Light p = .null →
      specGetOpinionForKey opinions.Dark p ≠ .null → IsTreeAt u p.dropLast) :
    ∃ u2, applyOpinion specHelpers opinions u k = .returned u2 none
      ∧ getPath u2 p = getPath s2 p := by
  have hne := specGetKeyGrams_ne_nil _ _ hkey
  obtain ⟨p2, s1, hkey2, hadd, hsub⟩ := applyOpinion_ok_inv opinions s s2 k hstep
  rw [hkey] at hkey2
  simp only [Except.ok.injEq] at hkey2
  subst hkey2
  obtain ⟨u1, hadd2⟩ := addLightOpinion_of_noConflict opinions u k p hkey hno
  have heq1 : getPath u1 p = getPath s1 p := by
    rcases addLightOpinion_ok opinions s s1 k p hkey hadd with ⟨hl, hs⟩ | ⟨hl, hs, _⟩
    · rcases addLightOpinion_ok opinions u u1 k p hkey hadd2 with ⟨_, hu⟩ | ⟨hl2, _, _⟩
      · rw [hs, hu]
        exact heq
      · exact absurd hl hl2
    · rcases addLightOpinion_ok opinions u u1 k p hkey hadd2 with ⟨hl2, _⟩ | ⟨_, hu, _⟩
      · exact absurd hl2 hl
      · rw [hs, hu]
  have hpar1 : specGetOpinionForKey opinions.Dark p ≠ .null → IsTreeAt u1 p.dropLast := by
    intro hd
    rcases addLightOpinion_ok opinions u u1 k p hkey hadd2 with ⟨hl, hu⟩ | ⟨_, hu, _⟩
    · rw [hu]
      exact hpar hl hd
    · exact getPath_parent u1 p _ hne hu
  obtain ⟨u2, hsub2, heq2⟩ :=
    subtractDarkOpinion_transfer opinions s1 s2 u1 p hne hsub heq1 hpar1
  exact ⟨u2, applyOpinion_ok_intro opinions u u1 u2 k p hkey hadd2 hsub2, heq2⟩

/-- A key with an opinion that is processed without error met no conflict on
the way to its key path. -/
theorem applyOpinion_ok_noConflict (opinions : Opinions) (s s2 : Config) (k : ReleaseConfig)
    (p : List String) (hkey : specGetKeyGrams k.Name = .ok p)
    (hstep : applyOpinion specHelpers opinions s k = .returned s2 none)
    (hop : specGetOpinionForKey opinions.Light p ≠ .null
      ∨ specGetOpinionForKey opinions.Dark p ≠ .null) :
    NoConflict s p := by
  have hne := specGetKeyGrams_ne_nil _ _ hkey
  obtain ⟨p2, s1, hkey2, hadd, hsub⟩ := applyOpinion_ok_inv opinions s s2 k hstep
  rw [hkey] at hkey2
  simp only [Except.ok.injEq] at hkey2
  subst hkey2
  rcases addLightOpinion_ok opinions s s1 k p hkey hadd with ⟨hl, hs⟩ | ⟨_, _, hno⟩
  · subst hs
    rcases subtractDarkOpinion_ok opinions s1 s2 p hne hsub with ⟨hd, _⟩ | ⟨_, hbefore, _⟩
    · rcases hop with h | h
      · exact absurd hl h
      · exact absurd hd h
    · exact noConflict_of_parent s1 p hbefore
  · exact hno

/-- A key with a dark and no light opinion that is processed without error
found a nested tree as parent of its last segment. -/
theorem applyOpinion_ok_parent_before (opinions : Opinions) (s s2 : Config)
    (k : ReleaseConfig) (p : List String) (hkey : specGetKeyGrams k.Name = .ok p)
    (hstep : applyOpinion specHelpers opinions s k = .returned s2 none)
    (hl : specGetOpinionForKey opinions.Light p = .null)
    (hd : specGetOpinionForKey opinions.Dark p ≠ .null) :
    IsTreeAt s p.dropLast := by
  have hne := specGetKeyGrams_ne_nil _ _ hkey
  obtain ⟨p2, s1, hkey2, hadd, hsub⟩ := applyOpinion_ok_inv opinions s s2 k hstep
  rw [hkey] at hkey2
  simp only [Except.ok.injEq] at hkey2
  subst hkey2
  rcases addLightOpinion_ok opinions s s1 k p hkey hadd with ⟨_, hs⟩ | ⟨hl2, _, _⟩
  · subst hs
    rcases subtractDarkOpinion_ok opinions s1 s2 p hne hsub with ⟨hd2, _⟩ | ⟨_, hbefore, _⟩
    · exact absurd hd2 hd
    · exact hbefore
  · exact absurd hl hl2

/-- A key with an opinion that is processed without error leaves a nested tree
as parent of its last segment. -/
theorem applyOpinion_ok_parent_after (opinions : Opinions) (s s2 : Config)
    (k : ReleaseConfig) (p : List String) (hkey : specGetKeyGrams k.Name = .ok p)
    (hstep : applyOpinion specHelpers opinions s k = .returned s2 none)
    (hop : specGetOpinionForKey opinions.Light p ≠ .null
      ∨ specGetOpinionForKey opinions.Dark p ≠ .null) :
    IsTreeAt s2 p.dropLast := by
  have hne := specGetKeyGrams_ne_nil _ _ hkey
  obtain ⟨p2, s1, hkey2, hadd, hsub⟩ := applyOpinion_ok_inv opinions s s2 k hstep
  rw [hkey] at hkey2
  simp only [Except.ok.injEq] at hkey2
  subst hkey2
  rcases subtractDarkOpinion_ok opinions s1 s2 p hne hsub with ⟨hd, hs⟩ | ⟨_, _, hafter⟩
  · subst hs
    rcases addLightOpinion_ok opinions s s2 k p hkey hadd with ⟨hl, _⟩ | ⟨_, hpost, _⟩
    · rcases hop with h | h
      · exact absurd hl h
      · exact absurd hd h
    · exact getPath_parent s2 p _ hne hpost
  · exact hafter

/-- Two trees that hold the same at the key path of a key, both processed
without error, hold the same at the key path afterwards. -/
theorem applyOpinion_local (opinions : Opinions) (s s2 u u2 : Config) (k : ReleaseConfig)
    (p : List String) (hkey : specGetKeyGrams k.Name = .ok p)
    (hs : applyOpinion specHelpers opinions s k = .returned s2 none)
    (hu : applyOpinion specHelpers opinions u k = .returned u2 none)
    (heq : getPath u p = getPath s p) : getPath u2 p = getPath s2 p := by
  obtain ⟨u3, hu3, heq3⟩ := applyOpinion_transfer opinions s s2 u k p hkey hs heq
    (fun hl => applyOpinion_ok_noConflict opinions u u2 k p hkey hu (Or.inl hl))
    (fun hl hd => applyOpinion_ok_parent_before opinions u u2 k p hkey hu hl hd)
  rw [hu] at hu3
  simp only [Run.returned.injEq, and_true] at hu3
  subst hu3
  exact heq3

/-! ## Keys whose paths diverge: what one key changes for another -/

/-- Processing a key leaves alone the entry at every key path from which the
path of the key diverges, and every entry when the key has no opinion. -/
theorem applyOpinion_frame_cases (opinions : Opinions) (s s2 : Config) (k : ReleaseConfig)
    (p obs : List String) (hkey : specGetKeyGrams k.Name = .ok p)
    (hstep : applyOpinion specHelpers opinions s k = .returned s2 none)
    (h : (specGetOpinionForKey opinions.Light p = .null
        ∧ specGetOpinionForKey opinions.Dark p = .null) ∨ diverge p obs = true) :
    getPath s2 obs = getPath s obs := by
  apply applyOpinion_frame_diverge opinions s s2 k obs hstep
  intro path2 hkey2
  rw [hkey] at hkey2
  simp only [Except.ok.injEq] at hkey2
  subst hkey2
  exact h

/-- A key path `obs` that does not begin with the path of the key: the key has
no opinion or its path diverges from `obs`, and `obs` holds what it held; or
the key has an opinion and `obs` is a proper prefix of its path. -/
theorem applyOpinion_off_path_cases (opinions : Opinions) (p obs : List String)
    (hno : ¬ ∃ more, obs = p ++ more) :
    ((specGetOpinionForKey opinions.Light p = .null
        ∧ specGetOpinionForKey opinions.Dark p = .null) ∨ diverge p obs = true)
      ∨ ((specGetOpinionForKey opinions.Light p ≠ .null
          ∨ specGetOpinionForKey opinions.Dark p ≠ .null)
        ∧ ∃ x rest, p = obs ++ x :: rest) := by
  by_cases hop : specGetOpinionForKey opinions.Light p ≠ .null
      ∨ specGetOpinionForKey opinions.Dark p ≠ .null
  · rcases prefix_or_diverge p obs with h | h | h
    · exact absurd h hno
    · exact Or.inr ⟨hop, h⟩
    · exact Or.inl (Or.inr h)
  · simp only [not_or, not_not] at hop
    exact Or.inl (Or.inl hop)

/-- Processing a key keeps the nested trees at the key paths that do not begin
with the path of the key. -/
theorem applyOpinion_isTreeAt_mono (opinions : Opinions) (s s2 : Config) (k : ReleaseConfig)
    (p obs : List String) (hkey : specGetKeyGrams k.Name = .ok p)
    (hstep : applyOpinion specHelpers opinions s k = .returned s2 none)
    (hno : ¬ ∃ more, obs = p ++ more) (h : IsTreeAt s obs) : IsTreeAt s2 obs := by
  rcases applyOpinion_off_path_cases opinions p obs hno with hfr | ⟨hop, x, rest, hp⟩
  · unfold IsTreeAt
    rw [applyOpinion_frame_cases opinions s s2 k p obs hkey hstep hfr]
    exact h
  · exact isTreeAt_of_parent s2 p obs x rest hp
      (applyOpinion_ok_parent_after opinions s s2 k p hkey hstep hop)

/-- Processing a key changes nothing to whether a walk can pass a key path that
does not begin with the path of the key. -/
theorem applyOpinion_passable_iff (opinions : Opinions) (s s2 : Config) (k : ReleaseConfig)
    (p obs : List String) (hkey : specGetKeyGrams k.Name = .ok p)
    (hstep : applyOpinion specHelpers opinions s k = .returned s2 none)
    (hno : ¬ ∃ more, obs = p ++ more) : Passable s2 obs ↔ Passable s obs := by
  rcases applyOpinion_off_path_cases opinions p obs hno with hfr | ⟨hop, x, rest, hp⟩
  · unfold Passable
    rw [applyOpinion_frame_cases opinions s s2 k p obs hkey hstep hfr]
  · exact ⟨fun _ => applyOpinion_ok_noConflict opinions s s2 k p hkey hstep hop obs x rest hp,
      fun _ => passable_of_isTreeAt s2 obs (isTreeAt_of_parent s2 p obs x rest hp
        (applyOpinion_ok_parent_after opinions s s2 k p hkey hstep hop))⟩

theorem prefixFree_head (k : ReleaseConfig) (rest : List ReleaseConfig)
    (hfree : PrefixFree (k :: rest)) (j : ReleaseConfig) (hj : j ∈ rest) (p q : List String)
    (hp : specGetKeyGrams k.Name = .ok p) (hq : specGetKeyGrams j.Name = .ok q) :
    diverge p q = true :=
  (List.pairwise_cons.mp hfree).1 j hj p q hp hq

theorem prefixFree_tail (k : ReleaseConfig) (rest : List ReleaseConfig)
    (hfree : PrefixFree (k :: rest)) : PrefixFree rest :=
  (List.pairwise_cons.mp hfree).2

theorem asAtStart_refl (opinions : Opinions) (t : Config) (keys : List ReleaseConfig) :
    AsAtStart opinions t t keys :=
  fun _ _ _ _ => ⟨rfl, Iff.rfl, fun h => h, fun _ _ h => h⟩

/-- Processing a key keeps the tree, for the keys that follow, what it was at
the start. -/
theorem asAtStart_step (opinions : Opinions) (t s s2 : Config) (k : ReleaseConfig)
    (rest all : List ReleaseConfig)
    (hstep : applyOpinion specHelpers opinions s k = .returned s2 none)
    (hfree : PrefixFree (k :: rest)) (hk : k ∈ all) (hrest : ∀ j ∈ rest, j ∈ all)
    (hind : DarkIndependent opinions t all) (hrel : AsAtStart opinions t s rest) :
    AsAtStart opinions t s2 rest := by
  obtain ⟨p0, _, hkey0, _, _⟩ := applyOpinion_ok_inv opinions s s2 k hstep
  intro j hj p hp
  have hne := specGetKeyGrams_ne_nil _ _ hp
  have hdiv : diverge p0 p = true := prefixFree_head k rest hfree j hj p0 p hkey0 hp
  have hlast : p = p.dropLast ++ [p.getLast hne] := (List.dropLast_append_getLast hne).symm
  have hnodl : ¬ ∃ more, p.dropLast = p0 ++ more :=
    diverge_not_leading p0 p p.dropLast [p.getLast hne] hdiv hlast
  obtain ⟨h1, h2, h3, h4⟩ := hrel j hj p hp
  refine ⟨?_, ?_, ?_, ?_⟩
  · rw [applyOpinion_frame_cases opinions s s2 k p0 p hkey0 hstep (Or.inr hdiv)]
    exact h1
  · rw [← h2]
    constructor
    · intro hno pre x rest2 hsplit
      exact (applyOpinion_passable_iff opinions s s2 k p0 pre hkey0 hstep
        (diverge_not_leading p0 p pre (x :: rest2) hdiv hsplit)).mp (hno pre x rest2 hsplit)
    · intro hno pre x rest2 hsplit
      exact (applyOpinion_passable_iff opinions s s2 k p0 pre hkey0 hstep
        (diverge_not_leading p0 p pre (x :: rest2) hdiv hsplit)).mpr (hno pre x rest2 hsplit)
  · intro ht
    exact applyOpinion_isTreeAt_mono opinions s s2 k p0 p.dropLast hkey0 hstep hnodl (h3 ht)
  · intro hl hd hs2
    rcases applyOpinion_off_path_cases opinions p0 p.dropLast hnodl with
      hfr | ⟨hop, x, rest2, hp0⟩
    · apply h4 hl hd
      unfold IsTreeAt at hs2 ⊢
      rw [← applyOpinion_frame_cases opinions s s2 k p0 p.dropLast hkey0 hstep hfr]
      exact hs2
    · by_cases hl0 : specGetOpinionForKey opinions.Light p0 = .null
      · have hd0 : specGetOpinionForKey opinions.Dark p0 ≠ .null := by
          rcases hop with h | h
          · exact absurd hl0 h
          · exact h
        exact h4 hl hd (isTreeAt_of_parent s p0 p.dropLast x rest2 hp0
          (applyOpinion_ok_parent_before opinions s s2 k p0 hkey0 hstep hl0 hd0))
      · exact hind j (hrest j hj) k hk p p0 hp hkey0 hl hd hl0 p.dropLast (p.getLast hne) []
          x rest2 hlast hp0

/-- With key paths that diverge and subtractions that need no insertion for
another key, the loop over the unique keys returns without error exactly when
every key is processed without error on the tree at the start. -/
theorem applyOpinions_ok_iff (opinions : Opinions) (t : Config) (all : List ReleaseConfig)
    (hind : DarkIndependent opinions t all) :
    ∀ (keys : List ReleaseConfig) (s : Config), (∀ j ∈ keys, j ∈ all) → PrefixFree keys →
      AsAtStart opinions t s keys →
      ((∃ r, applyOpinions specHelpers opinions s keys = .returned r none)
        ↔ ∀ k ∈ keys, ∃ r, applyOpinion specHelpers opinions t k = .returned r none) := by
  intro keys
  induction keys with
  | nil =>
    intro s _ _ _
    exact ⟨fun _ k hk => (by cases hk), fun _ => ⟨s, rfl⟩⟩
  | cons k rest ih =>
    intro s hall hfree hrel
    have hk : k ∈ all := hall k (List.mem_cons_self _ _)
    have hrestall : ∀ j ∈ rest, j ∈ all := fun j hj => hall j (List.mem_cons_of_mem _ hj)
    have hrelrest : AsAtStart opinions t s rest :=
      fun j hj => hrel j (List.mem_cons_of_mem _ hj)
    constructor
    · rintro ⟨r, hrun⟩
      obtain ⟨s1, hstep, hrestrun⟩ :=
        applyOpinions_cons_inv specHelpers opinions s r k rest hrun
      obtain ⟨p, _, hkey, _, _⟩ := applyOpinion_ok_inv opinions s s1 k hstep
      obtain ⟨h1, h2, _, h4⟩ := hrel k (List.mem_cons_self _ _) p hkey
      obtain ⟨r0, hr0, _⟩ := applyOpinion_transfer opinions s s1 t k p hkey hstep h1.symm
        (fun hl => h2.mp (applyOpinion_ok_noConflict opinions s s1 k p hkey hstep (Or.inl hl)))
        (fun hl hd => h4 hl hd
          (applyOpinion_ok_parent_before opinions s s1 k p hkey hstep hl hd))
      have hothers := (ih s1 hrestall (prefixFree_tail k rest hfree)
        (asAtStart_step opinions t s s1 k rest all hstep hfree hk hrestall hind hrelrest)).mp
        ⟨r, hrestrun⟩
      intro j hj
      rcases List.mem_cons.mp hj with rfl | hj2
      · exact ⟨r0, hr0⟩
      · exact hothers j hj2
    · intro hok
      obtain ⟨r0, hr0⟩ := hok k (List.mem_cons_self _ _)
      obtain ⟨p, _, hkey, _, _⟩ := applyOpinion_ok_inv opinions t r0 k hr0
      obtain ⟨h1, h2, h3, _⟩ := hrel k (List.mem_cons_self _ _) p hkey
      obtain ⟨s1, hstep, _⟩ := applyOpinion_transfer opinions t r0 s k p hkey hr0 h1
        (fun hl => h2.mpr (applyOpinion_ok_noConflict opinions t r0 k p hkey hr0 (Or.inl hl)))
        (fun hl hd => h3 (applyOpinion_ok_parent_before opinions t r0 k p hkey hr0 hl hd))
      obtain ⟨r, hr⟩ := (ih s1 hrestall (prefixFree_tail k rest hfree)
        (asAtStart_step opinions t s s1 k rest all hstep hfree hk hrestall hind hrelrest)).mpr
        (fun j hj => hok j (List.mem_cons_of_mem _ hj))
      exact ⟨r, by rw [applyOpinions_cons_ok specHelpers opinions s s1 k rest hstep]; exact hr⟩

/-! ## Two orderings of the same keys -/

theorem prefixFree_perm (keys1 keys2 : List ReleaseConfig) (hperm : keys1.Perm keys2)
    (hfree : PrefixFree keys1) : PrefixFree keys2 := by
  unfold PrefixFree at hfree ⊢
  refine (List.Perm.pairwise_iff ?_ hperm).mp hfree
  intro a b hab p q hp hq
  rw [diverge_symm]
  exact hab q p hq hp

/-- In a list of keys whose paths diverge, the path of each key diverges from
the paths of the keys before and after it. -/
theorem prefixFree_split (pre post : List ReleaseConfig) (k : ReleaseConfig)
    (hfree : PrefixFree (pre ++ k :: post)) (j : ReleaseConfig) (hj : j ∈ pre ∨ j ∈ post)
    (p q : List String) (hp : specGetKeyGrams k.Name = .ok p)
    (hq : specGetKeyGrams j.Name = .ok q) : diverge q p = true := by
  obtain ⟨_, htail, hcross⟩ := List.pairwise_append.mp hfree
  rcases hj with hj | hj
  · exact hcross j hj k (List.mem_cons_self _ _) q p hq hp
  · rw [diverge_symm]
    exact (List.pairwise_cons.mp htail).1 j hj p q hp hq

/-- In a loop over keys whose paths diverge that returns without error, the
key `k` is processed on a tree that holds at its key path what the tree at the
start held, and what it leaves at its key path is there at the end. -/
theorem applyOpinions_at_key (opinions : Opinions) (keys : List ReleaseConfig) (t r : Config)
    (hrun : applyOpinions specHelpers opinions t keys = .returned r none)
    (hfree : PrefixFree keys) (k : ReleaseConfig) (hk : k ∈ keys) (p : List String)
    (hkey : specGetKeyGrams k.Name = .ok p) :
    ∃ s s2, applyOpinion specHelpers opinions s k = .returned s2 none
      ∧ getPath s p = getPath t p ∧ getPath r p = getPath s2 p := by
  obtain ⟨pre, post, rfl⟩ := List.append_of_mem hk
  obtain ⟨s, s2, hpre, hstep, hpost⟩ :=
    applyOpinions_split_inv specHelpers opinions t r pre post k hrun
  refine ⟨s, s2, hstep, ?_, ?_⟩
  · exact applyOpinions_frame_diverge opinions p pre t s hpre
      (fun j hj path2 hkey2 =>
        Or.inr (prefixFree_split pre post k hfree j (Or.inl hj) p path2 hkey hkey2))
  · exact applyOpinions_frame_diverge opinions p post s2 r hpost
      (fun j hj path2 hkey2 =>
        Or.inr (prefixFree_split pre post k hfree j (Or.inr hj) p path2 hkey hkey2))

/-- A loop that returns without error keeps the nested trees at the key paths
that begin with the path of none of the keys. -/
theorem applyOpinions_isTreeAt_mono (opinions : Opinions) (obs : List String) :
    ∀ (keys : List ReleaseConfig) (t r : Config),
      applyOpinions specHelpers opinions t keys = .returned r none →
      (∀ k ∈ keys, ∀ p, specGetKeyGrams k.Name = .ok p → ¬ ∃ more, obs = p ++ more) →
      IsTreeAt t obs → IsTreeAt r obs := by
  intro keys
  induction keys with
  | nil =>
    intro t r hrun _ h
    simp only [applyOpinions, Run.returned.injEq, and_true] at hrun
    rw [← hrun]
    exact h
  | cons k rest ih =>
    intro t r hrun hno h
    obtain ⟨t1, hstep, hrest⟩ := applyOpinions_cons_inv specHelpers opinions t r k rest hrun
    obtain ⟨p, _, hkey, _, _⟩ := applyOpinion_ok_inv opinions t t1 k hstep
    exact ih t1 r hrest (fun j hj => hno j (List.mem_cons_of_mem _ hj))
      (applyOpinion_isTreeAt_mono opinions t t1 k p obs hkey hstep
        (hno k (List.mem_cons_self _ _) p hkey) h)

/-- After a loop that returned without error, a key path that begins with the
path of none of the keys and is a proper prefix of the path of a key with an
opinion leads to a nested tree. -/
theorem applyOpinions_isTreeAt_above (opinions : Opinions) (obs : List String) :
    ∀ (keys : List ReleaseConfig) (t r : Config),
      applyOpinions specHelpers opinions t keys = .returned r none →
      (∀ k ∈ keys, ∀ p, specGetKeyGrams k.Name = .ok p → ¬ ∃ more, obs = p ++ more) →
      (∃ k ∈ keys, ∃ p x rest, specGetKeyGrams k.Name = .ok p ∧ p = obs ++ x :: rest
        ∧ (specGetOpinionForKey opinions.Light p ≠ .null
          ∨ specGetOpinionForKey opinions.Dark p ≠ .null)) →
      IsTreeAt r obs := by
  intro keys
  induction keys with
  | nil =>
    rintro t r _ _ ⟨k, hk, _⟩
    cases hk
  | cons k0 rest ih =>
    rintro t r hrun hno ⟨k, hk, p, x, more, hkey, hp, hop⟩
    obtain ⟨t1, hstep, hrest⟩ := applyOpinions_cons_inv specHelpers opinions t r k0 rest hrun
    have hnorest : ∀ j ∈ rest, ∀ q, specGetKeyGrams j.Name = .ok q →
        ¬ ∃ more2, obs = q ++ more2 := fun j hj => hno j (List.mem_cons_of_mem _ hj)
    rcases List.mem_cons.mp hk with rfl | hk2
    · exact applyOpinions_isTreeAt_mono opinions obs rest t1 r hrest hnorest
        (isTreeAt_of_parent t1 p obs x more hp
          (applyOpinion_ok_parent_after opinions t t1 k p hkey hstep hop))
    · exact ih t1 r hrest hnorest ⟨k, hk2, p, x, more, hkey, hp, hop⟩

/-- After a loop that returned without error, a key path that begins with the
path of none of the keys and is a proper prefix of the path of no key with an
opinion holds what it held. -/
theorem applyOpinions_frame_off_keys (opinions : Opinions) (obs : List String)
    (keys : List ReleaseConfig) (t r : Config)
    (hrun : applyOpinions specHelpers opinions t keys = .returned r none)
    (hno : ∀ k ∈ keys, ∀ p, specGetKeyGrams k.Name = .ok p → ¬ ∃ more, obs = p ++ more)
    (hnone : ¬ ∃ k ∈ keys, ∃ p x rest, specGetKeyGrams k.Name = .ok p ∧ p = obs ++ x :: rest
      ∧ (specGetOpinionForKey opinions.Light p ≠ .null
        ∨ specGetOpinionForKey opinions.Dark p ≠ .null)) :
    getPath r obs = getPath t obs := by
  apply applyOpinions_frame_diverge opinions obs keys t r hrun
  intro k hk p hkey
  rcases applyOpinion_off_path_cases opinions p obs (hno k hk p hkey) with
    hfr | ⟨hop, x, rest, hp⟩
  · exact hfr
  · exact absurd ⟨k, hk, p, x, rest, hkey, hp, hop⟩ hnone

/-- Two orderings of the same keys, whose paths diverge, that both return
without error from the same tree, leave the same tree. -/
theorem applyOpinions_sameTree (opinions : Opinions) (keys1 keys2 : List ReleaseConfig)
    (t r1 r2 : Config) (hperm : keys1.Perm keys2) (hfree : PrefixFree keys1)
    (h1 : applyOpinions specHelpers opinions t keys1 = .returned r1 none)
    (h2 : applyOpinions specHelpers opinions t keys2 = .returned r2 none) :
    SameTree r1 r2 := by
  have hfree2 := prefixFree_perm keys1 keys2 hperm hfree
  intro obs
  by_cases hpre : ∃ k ∈ keys1, ∃ p more, specGetKeyGrams k.Name = .ok p ∧ obs = p ++ more
  · obtain ⟨k, hk, p, more, hkey, rfl⟩ := hpre
    obtain ⟨s, s2, hs, hsbefore, hsafter⟩ :=
      applyOpinions_at_key opinions keys1 t r1 h1 hfree k hk p hkey
    obtain ⟨u, u2, hu, hubefore, huafter⟩ :=
      applyOpinions_at_key opinions keys2 t r2 h2 hfree2 k (hperm.subset hk) p hkey
    have hloc := applyOpinion_local opinions s s2 u u2 k p hkey hs hu
      (by rw [hubefore, hsbefore])
    rw [getPath_append, getPath_append, hsafter, huafter, hloc]
  · have hno1 : ∀ k ∈ keys1, ∀ p, specGetKeyGrams k.Name = .ok p →
        ¬ ∃ more, obs = p ++ more :=
      fun k hk p hkey ⟨more, hm⟩ => hpre ⟨k, hk, p, more, hkey, hm⟩
    have hno2 : ∀ k ∈ keys2, ∀ p, specGetKeyGrams k.Name = .ok p →
        ¬ ∃ more, obs = p ++ more :=
      fun k hk => hno1 k (hperm.symm.subset hk)
    by_cases habove : ∃ k ∈ keys1, ∃ p x rest, specGetKeyGrams k.Name = .ok p
        ∧ p = obs ++ x :: rest
        ∧ (specGetOpinionForKey opinions.Light p ≠ .null
          ∨ specGetOpinionForKey opinions.Dark p ≠ .null)
    · have habove2 : ∃ k ∈ keys2, ∃ p x rest, specGetKeyGrams k.Name = .ok p
          ∧ p = obs ++ x :: rest
          ∧ (specGetOpinionForKey opinions.Light p ≠ .null
            ∨ specGetOpinionForKey opinions.Dark p ≠ .null) := by
        obtain ⟨k, hk, hrest⟩ := habove
        exact ⟨k, hperm.subset hk, hrest⟩
      obtain ⟨m1, hm1⟩ := applyOpinions_isTreeAt_above opinions obs keys1 t r1 h1 hno1 habove
      obtain ⟨m2, hm2⟩ := applyOpinions_isTreeAt_above opinions obs keys2 t r2 h2 hno2 habove2
      rw [hm1, hm2]
      rfl
    · have habove2 : ¬ ∃ k ∈ keys2, ∃ p x rest, specGetKeyGrams k.Name = .ok p
          ∧ p = obs ++ x :: rest
          ∧ (specGetOpinionForKey opinions.Light p ≠ .null
            ∨ specGetOpinionForKey opinions.Dark p ≠ .null) := by
        rintro ⟨k, hk, hrest⟩
        exact habove ⟨k, hperm.symm.subset hk, hrest⟩
      rw [applyOpinions_frame_off_keys opinions obs keys1 t r1 h1 hno1 habove,
        applyOpinions_frame_off_keys opinions obs keys2 t r2 h2 hno2 habove2]

/-- Two orderings of the same keys, whose paths diverge and whose subtractions
need no insertion for another key: the loop returns without error for both or
for neither. -/
theorem applyOpinions_ok_perm (opinions : Opinions) (keys1 keys2 : List ReleaseConfig)
    (t : Config) (hperm : keys1.Perm keys2) (hfree : PrefixFree keys1)
    (hind : DarkIndependent opinions t keys1) :
    (∃ r, applyOpinions specHelpers opinions t keys1 = .returned r none)
      ↔ ∃ r, applyOpinions specHelpers opinions t keys2 = .returned r none := by
  rw [applyOpinions_ok_iff opinions t keys1 hind keys1 t (fun _ h => h) hfree
      (asAtStart_refl opinions t keys1),
    applyOpinions_ok_iff opinions t keys1 hind keys2 t (fun _ h => hperm.symm.subset h)
      (prefixFree_perm keys1 keys2 hperm hfree) (asAtStart_refl opinions t keys2)]
  exact ⟨fun h k hk => h k (hperm.symm.subset hk), fun h k hk => h k (hperm.subset hk)⟩

/-! ## Claim on the order of the unique keys -/

/-- C10, counterexample: the unique keys `x.y` (light opinion `1`) and `x.z`
(dark opinion `"m"`) on the base tree `{}`.  In the order `x.y`, `x.z` the
assembler returns `{x:{y:1}}`; in the order `x.z`, `x.y` the subtraction at
`x.z` comes before the insertion that creates `x`, and the assembler returns
the key-does-not-exist error and no tree.  The two key paths diverge; what
the subtraction needs and the base tree does not have is the nested tree at
`x`.  And when one key path is a prefix of the other, both orders can return,
with different trees: with the light opinion `{x:{y:1}}` and the dark opinion
`{x:"m"}`, the keys `x`, `x.y` leave `{x:{y:1}}` and the keys `x.y`, `x`
leave `{}`. -/
theorem getPropertiesForJob_order_counterexample :
    List.Perm [ReleaseConfig.mk "x.y", ReleaseConfig.mk "x.z"]
        [ReleaseConfig.mk "x.z", ReleaseConfig.mk "x.y"]
      ∧ getPropertiesForJob specHelpers { Properties := [], UniqueConfigs := [⟨"x.y"⟩, ⟨"x.z"⟩] } []
          ⟨[(.str "x", .imap [(.str "y", .num 1)])], [(.str "x", .imap [(.str "z", .str "m")])]⟩
        = .returned (some [("x", .smap [("y", .num 1)])]) none
      ∧ getPropertiesForJob specHelpers { Properties := [], UniqueConfigs := [⟨"x.z"⟩, ⟨"x.y"⟩] } []
          ⟨[(.str "x", .imap [(.str "y", .num 1)])], [(.str "x", .imap [(.str "z", .str "m")])]⟩
        = .returned none (some (newErrorConfigNotExist "x.z"))
      ∧ specGetKeyGrams "x.y" = .ok ["x", "y"]
      ∧ specGetKeyGrams "x.z" = .ok ["x", "z"]
      ∧ diverge ["x", "y"] ["x", "z"] = true
      ∧ getPath [] ["x"] = none
      ∧ getPropertiesForJob specHelpers { Properties := [], UniqueConfigs := [⟨"x"⟩, ⟨"x.y"⟩] } []
          ⟨[(.str "x", .imap [(.str "y", .num 1)])], [(.str "x", .str "m")]⟩
        = .returned (some [("x", .smap [("y", .num 1)])]) none
      ∧ getPropertiesForJob specHelpers { Properties := [], UniqueConfigs := [⟨"x.y"⟩, ⟨"x"⟩] } []
          ⟨[(.str "x", .imap [(.str "y", .num 1)])], [(.str "x", .str "m")]⟩
        = .returned (some []) none :=
  ⟨List.Perm.swap _ _ _, rfl, rfl, rfl, rfl, rfl, rfl, rfl, rfl⟩

/-- C10 (order across distinct keys), amended.  With the helpers of the
specification, for every base tree, pair of opinion trees and list of
declared properties, and every two orderings of the same unique keys of which
no key path is a prefix of another (`PrefixFree`): whenever
`getPropertiesForJob` returns a tree for both orderings, it is the same tree,
nested trees being compared entry by entry; and when, in the tree with the
defaults, no subtraction needs what the insertion for another key creates
(`DarkIndependent`: the segments that the key path of a key with a dark and
no light opinion shares with the key path of a key with a light opinion lead
to a nested tree), `getPropertiesForJob` has the same result for both
orderings: the same tree, or no tree in both cases. -/
theorem getPropertiesForJob_order_irrelevant (properties : List JobProperty)
    (keys1 keys2 : List ReleaseConfig) (allProps : Config) (opinions : Opinions)
    (hperm : keys1.Perm keys2) (hfree : PrefixFree keys1) :
    (∀ r1 r2,
        getPropertiesForJob specHelpers { Properties := properties, UniqueConfigs := keys1 }
          allProps opinions = .returned (some r1) none →
        getPropertiesForJob specHelpers { Properties := properties, UniqueConfigs := keys2 }
          allProps opinions = .returned (some r2) none →
        SameTree r1 r2)
      ∧ ((∀ withDefaults,
          insertProperties specHelpers allProps properties = .returned withDefaults none →
          DarkIndependent opinions withDefaults keys1) →
        Outcome.SameResult
          (getPropertiesForJob specHelpers { Properties := properties, UniqueConfigs := keys1 }
            allProps opinions)
          (getPropertiesForJob specHelpers { Properties := properties, UniqueConfigs := keys2 }
            allProps opinions)) := by
  have hclone : specHelpers.deepCopy allProps = .ok allProps := rfl
  have hsame : ∀ r1 r2,
      getPropertiesForJob specHelpers { Properties := properties, UniqueConfigs := keys1 }
        allProps opinions = .returned (some r1) none →
      getPropertiesForJob specHelpers { Properties := properties, UniqueConfigs := keys2 }
        allProps opinions = .returned (some r2) none →
      SameTree r1 r2 := by
    intro r1 r2 h1 h2
    obtain ⟨c1, w1, hc1, hd1, ho1⟩ := getPropertiesForJob_returned_inv _ _ _ _ _ h1
    obtain ⟨c2, w2, hc2, hd2, ho2⟩ := getPropertiesForJob_returned_inv _ _ _ _ _ h2
    rw [hclone] at hc1 hc2
    simp only [Except.ok.injEq] at hc1 hc2
    subst hc1 hc2
    simp only at hd1 hd2 ho1 ho2
    rw [hd1] at hd2
    simp only [Run.returned.injEq, and_true] at hd2
    subst hd2
    exact applyOpinions_sameTree opinions keys1 keys2 w1 r1 r2 hperm hfree ho1 ho2
  refine ⟨hsame, ?_⟩
  intro hind
  by_cases hok : ∃ r1, getPropertiesForJob specHelpers
      { Properties := properties, UniqueConfigs := keys1 } allProps opinions
      = .returned (some r1) none
  · obtain ⟨r1, h1⟩ := hok
    obtain ⟨c1, w1, hc1, hd1, ho1⟩ := getPropertiesForJob_returned_inv _ _ _ _ _ h1
    rw [hclone] at hc1
    simp only [Except.ok.injEq] at hc1
    subst hc1
    simp only at hd1 ho1
    obtain ⟨r2, ho2⟩ := (applyOpinions_ok_perm opinions keys1 keys2 w1 hperm hfree
      (hind w1 hd1)).mp ⟨r1, ho1⟩
    have h2 : getPropertiesForJob specHelpers
        { Properties := properties, UniqueConfigs := keys2 } allProps opinions
        = .returned (some r2) none := by
      simp [getPropertiesForJob, hclone, hd1, ho2]
    exact Or.inl ⟨r1, r2, h1, h2, hsame r1 r2 h1 h2⟩
  · refine Or.inr ⟨fun r hr => hok ⟨r, hr⟩, ?_⟩
    intro r2 h2
    obtain ⟨c2, w2, hc2, hd2, ho2⟩ := getPropertiesForJob_returned_inv _ _ _ _ _ h2
    rw [hclone] at hc2
    simp only [Except.ok.injEq] at hc2
    subst hc2
    simp only at hd2 ho2
    obtain ⟨r1, ho1⟩ := (applyOpinions_ok_perm opinions keys1 keys2 w2 hperm hfree
      (hind w2 hd2)).mpr ⟨r2, ho2⟩
    apply hok
    exact ⟨r1, by simp [getPropertiesForJob, hclone, hd2, ho1]⟩

/-- C10, witness: the unique keys `nats.user` and `nats.host` (light opinions
`"u"` and `"h"`) and `nats.port` (dark opinion `"m"`) on the base tree
`{nats:{port:1}}`.  The three key paths begin with the same segment.  In the
order `nats.user`, `nats.host`, `nats.port` and in the order `nats.host`,
`nats.port`, `nats.user` the assembler returns the tree with `nats.user = "u"`
and `nats.host = "h"` and nothing else; the two orders list the entries of
`nats` in different orders. -/
theorem getPropertiesForJob_order_irrelevant_witness :
    getPropertiesForJob specHelpers
        { Properties := [], UniqueConfigs := [⟨"nats.user"⟩, ⟨"nats.host"⟩, ⟨"nats.port"⟩] }
        [("nats", .smap [("port", .num 1)])]
        ⟨[(.str "nats", .imap [(.str "user", .str "u"), (.str "host", .str "h")])],
          [(.str "nats", .imap [(.str "port", .str "m")])]⟩
        = .returned (some [("nats", .smap [("user", .str "u"), ("host", .str "h")])]) none
      ∧ getPropertiesForJob specHelpers
          { Properties := [], UniqueConfigs := [⟨"nats.host"⟩, ⟨"nats.port"⟩, ⟨"nats.user"⟩] }
          [("nats", .smap [("port", .num 1)])]
          ⟨[(.str "nats", .imap [(.str "user", .str "u"), (.str "host", .str "h")])],
            [(.str "nats", .imap [(.str "port", .str "m")])]⟩
        = .returned (some [("nats", .smap [("host", .str "h"), ("user", .str "u")])]) none
      ∧ SameTree [("nats", .smap [("user", .str "u"), ("host", .str "h")])]
          [("nats", .smap [("host", .str "h"), ("user", .str "u")])]
      ∧ Outcome.SameResult
          (getPropertiesForJob specHelpers
            { Properties := [],
              UniqueConfigs := [⟨"nats.user"⟩, ⟨"nats.host"⟩, ⟨"nats.port"⟩] }
            [("nats", .smap [("port", .num 1)])]
            ⟨[(.str "nats", .imap [(.str "user", .str "u"), (.str "host", .str "h")])],
              [(.str "nats", .imap [(.str "port", .str "m")])]⟩)
          (getPropertiesForJob specHelpers
            { Properties := [],
              UniqueConfigs := [⟨"nats.host"⟩, ⟨"nats.port"⟩, ⟨"nats.user"⟩] }
            [("nats", .smap [("port", .num 1)])]
            ⟨[(.str "nats", .imap [(.str "user", .str "u"), (.str "host", .str "h")])],
              [(.str "nats", .imap [(.str "port", .str "m")])]⟩) :=
  have hperm : List.Perm [ReleaseConfig.mk "nats.user", ⟨"nats.host"⟩, ⟨"nats.port"⟩]
      [⟨"nats.host"⟩, ⟨"nats.port"⟩, ⟨"nats.user"⟩] :=
    (List.Perm.swap _ _ _).trans (List.Perm.cons _ (List.Perm.swap _ _ _))
  have huser : specGetKeyGrams "nats.user" = .ok ["nats", "user"] := rfl
  have hhost : specGetKeyGrams "nats.host" = .ok ["nats", "host"] := rfl
  have hport : specGetKeyGrams "nats.port" = .ok ["nats", "port"] := rfl
  have hfree : PrefixFree [ReleaseConfig.mk "nats.user", ⟨"nats.host"⟩, ⟨"nats.port"⟩] := by
    unfold PrefixFree
    refine List.Pairwise.cons ?_ (List.Pairwise.cons ?_ (List.Pairwise.cons ?_ List.Pairwise.nil))
    · intro b hb p q hp hq
      simp only [List.mem_cons, List.mem_singleton, List.not_mem_nil, or_false] at hb
      rw [huser] at hp
      cases hp
      rcases hb with rfl | rfl
      · rw [hhost] at hq
        cases hq
        rfl
      · rw [hport] at hq
        cases hq
        rfl
    · intro b hb p q hp hq
      simp only [List.mem_singleton] at hb
      subst hb
      rw [hhost] at hp
      rw [hport] at hq
      cases hp
      cases hq
      rfl
    · intro b hb
      cases hb
  have hind : ∀ withDefaults,
      insertProperties specHelpers [("nats", .smap [("port", .num 1)])] []
        = .returned withDefaults none →
      DarkIndependent
        ⟨[(.str "nats", .imap [(.str "user", .str "u"), (.str "host", .str "h")])],
          [(.str "nats", .imap [(.str "port", .str "m")])]⟩ withDefaults
        [ReleaseConfig.mk "nats.user", ⟨"nats.host"⟩, ⟨"nats.port"⟩] := by
    intro withDefaults hwd
    simp only [insertProperties, Run.returned.injEq, and_true] at hwd
    subst hwd
    intro k hk k2 _ p p2 hp _ hl _ _ pre x rest x2 rest2 hsplit _
    simp only [List.mem_cons, List.mem_singleton, List.not_mem_nil, or_false] at hk
    rcases hk with rfl | rfl | rfl
    · rw [huser] at hp
      cases hp
      simp [specGetOpinionForKey, yamlGet] at hl
    · rw [hhost] at hp
      cases hp
      simp [specGetOpinionForKey, yamlGet] at hl
    · rw [hport] at hp
      cases hp
      exact isTreeAt_of_parent _ ["nats", "port"] pre x rest hsplit ⟨[("port", .num 1)], rfl⟩
  ⟨rfl, rfl,
    (getPropertiesForJob_order_irrelevant [] _ _ [("nats", .smap [("port", .num 1)])]
      ⟨[(.str "nats", .imap [(.str "user", .str "u"), (.str "host", .str "h")])],
        [(.str "nats", .imap [(.str "port", .str "m")])]⟩ hperm hfree).1 _ _ rfl rfl,
    (getPropertiesForJob_order_irrelevant [] _ _ [("nats", .smap [("port", .num 1)])]
      ⟨[(.str "nats", .imap [(.str "user", .str "u"), (.str "host", .str "h")])],
        [(.str "nats", .imap [(.str "port", .str "m")])]⟩ hperm hfree).2 hind⟩

end Fissile
